import Mathlib

/-!
# Verification of the `locate-path` first-match path resolution engine

Shallow embedding of `src/index.js`: the TTL-LRU existence cache, the cache
key builder, the type matcher, the synchronous locator `locatePathSync`, and
the asynchronous locator `locatePath` (whose `p-locate`-based concurrency
protocol is modelled as a step machine quantified over arbitrary interleaving
schedules).

Modelling conventions:
* JavaScript `Map` iteration order (insertion order) is modelled by an
  association list `List (String × Entry)`, oldest entry first.
* `Date.now()` is an external input; every cache operation takes the current
  wall-clock time `now : Nat` explicitly.  A single synchronous call uses one
  clock reading; the asynchronous step machine lets every scheduled step carry
  its own clock reading.
* The filesystem stat collaborator is a function `Bool → String → StatResult`
  (symlink-following flag, resolved path); `notFound` models the
  `throwIfNoEntry: false` undefined result / ENOENT rejection, `ioError`
  models any other thrown filesystem error.
-/

/-- Filesystem metadata, exposing the two predicates the engine consults
(`stat.isFile()` and `stat.isDirectory()`). -/
structure Stats where
  isFile : Bool
  isDirectory : Bool
deriving DecidableEq, Repr

/-- Outcome of a stat probe: metadata, a "does not exist" signal, or any
other filesystem error (permission denied, ...). -/
inductive StatResult where
  | found (stat : Stats)
  | notFound
  | ioError
deriving DecidableEq, Repr

/-- `src/index.js` line 20: `type === 'both' ? (stat.isFile() ||
stat.isDirectory()) : stat[typeMappings[type]]()`. -/
def matchType (type : String) (stat : Stats) : Bool :=
  if type = "both" then stat.isFile || stat.isDirectory
  else if type = "file" then stat.isFile
  else if type = "directory" then stat.isDirectory
  else false

/-- `src/index.js` lines 12-18 (`checkType`): the type selector is accepted
iff it is `'both'` or a key of `typeMappings` (`'directory'`, `'file'`). -/
def validType (type : String) : Bool :=
  type = "both" || type = "file" || type = "directory"

/-- The error message thrown by `checkType` for an invalid selector. -/
def invalidTypeMessage (type : String) : String :=
  "Invalid type specified: " ++ type

/-- A cache entry: `{value, timestamp}` (`src/index.js` lines 60-63). -/
structure Entry where
  value : Bool
  timestamp : Nat
deriving DecidableEq, Repr

/-- Lookup in a JavaScript `Map` modelled as an association list
(`this.cache.get(key)`). -/
def mapGet (es : List (String × Entry)) (k : String) : Option Entry :=
  (es.find? (fun e => e.1 = k)).map (fun e => e.2)

/-- `this.cache.delete(key)`: removes the entry stored under `k`.  On a list
with pairwise-distinct keys (the `Map` invariant) this removes exactly the
entry for `k`. -/
def mapDelete (es : List (String × Entry)) (k : String) : List (String × Entry) :=
  es.filter (fun e => ¬ e.1 = k)

/-- `this.cache.set(key, e)`: updates in place when the key is present,
otherwise appends at the most-recently-inserted end. -/
def mapSet (es : List (String × Entry)) (k : String) (e : Entry) : List (String × Entry) :=
  if es.any (fun p => p.1 = k) then
    es.map (fun p => if p.1 = k then (k, e) else p)
  else
    es ++ [(k, e)]

/-- The TTL-LRU cache of `src/index.js` lines 25-69. -/
structure LRUCache where
  maxSize : Nat
  ttl : Nat
  entries : List (String × Entry)
deriving DecidableEq, Repr

/-- `LRUCache.get` (`src/index.js` lines 32-48): absent key yields nothing;
an entry older than `ttl` is deleted lazily and nothing is returned;
otherwise the entry is deleted and re-inserted at the most-recently-used end
(with its original timestamp) and its value returned. -/
def LRUCache.get (c : LRUCache) (k : String) (now : Nat) : Option Bool × LRUCache :=
  match mapGet c.entries k with
  | none => (none, c)
  | some e =>
    if now - e.timestamp > c.ttl then
      (none, { c with entries := mapDelete c.entries k })
    else
      (some e.value, { c with entries := mapSet (mapDelete c.entries k) k e })

/-- `LRUCache.set` (`src/index.js` lines 50-64): delete an existing entry
first; otherwise, at capacity, delete the first (least-recently-used) key;
then insert `{value, timestamp := now}` at the most-recently-used end. -/
def LRUCache.set (c : LRUCache) (k : String) (v : Bool) (now : Nat) : LRUCache :=
  let es :=
    if c.entries.any (fun p => p.1 = k) then
      mapDelete c.entries k
    else if c.entries.length ≥ c.maxSize then
      match c.entries with
      | [] => []
      | e0 :: _ => mapDelete c.entries e0.1
    else
      c.entries
  { c with entries := mapSet es k (Entry.mk v now) }

/-- `LRUCache.clear` (`src/index.js` lines 66-68). -/
def LRUCache.clear (c : LRUCache) : LRUCache :=
  { c with entries := [] }

/-- The pair of process-wide caches (`src/index.js` lines 72-73):
`statCache` holds confirmed-positive results, `negativeCache` holds
confirmed-negative ones. -/
structure Caches where
  statCache : LRUCache
  negativeCache : LRUCache
deriving DecidableEq, Repr

/-- The initial process-wide cache pair: both caches are created as
`new LRUCache(500, 5000)`. -/
def initialCaches : Caches :=
  Caches.mk (LRUCache.mk 500 5000 []) (LRUCache.mk 500 5000 [])

/-- The string rendering of a JavaScript boolean inside a template literal. -/
def boolString (b : Bool) : String :=
  if b then "true" else "false"

/-- The cache key builder (`src/index.js` lines 139 and 198):
`` `${resolvedPath}:${type}:${allowSymlinks}` ``. -/
def mkCacheKey (resolvedPath type : String) (allowSymlinks : Bool) : String :=
  resolvedPath ++ ":" ++ type ++ ":" ++ boolString allowSymlinks

/-- External collaborator model: node's `path.isAbsolute` for POSIX paths
(the candidate starts with a slash). -/
def isAbsolutePath (p : String) : Bool :=
  p.data.head? = some '/'

/-- External collaborator model: node's `path.resolve(cwd, p)` joining a
relative candidate to the working directory. -/
def pathResolve (cwd p : String) : String :=
  cwd ++ "/" ++ p

/-- `src/index.js` lines 136 and 195: pass an absolute candidate through,
otherwise join it with the working directory. -/
def resolveCandidate (cwd p : String) : String :=
  if isAbsolutePath p then p else pathResolve cwd p

/-- Options common to both locators (`src/index.js` lines 120-127 and
180-186).  The concurrency bound and `preserveOrder` flag of the
asynchronous locator are modelled by the schedule quantification of
`locatePathRun` below. -/
structure LocateOpts where
  cwd : String
  type : String
  allowSymlinks : Bool
  useCache : Bool
deriving DecidableEq, Repr

/-- `src/index.js` lines 132 and 191: choose `stat` or `lstat` according to
`allowSymlinks`. -/
def statFn (fs : Bool → String → StatResult) (o : LocateOpts) : String → StatResult :=
  fs o.allowSymlinks

/-- The cache key a locator builds for candidate `p`. -/
def candidateKey (o : LocateOpts) (p : String) : String :=
  mkCacheKey (resolveCandidate o.cwd p) o.type o.allowSymlinks

/-- Record a negative outcome: `negativeCache.set(cacheKey, false)`. -/
def setNeg (σ : Caches) (key : String) (now : Nat) : Caches :=
  { σ with negativeCache := σ.negativeCache.set key false now }

/-- Record a positive outcome: `statCache.set(cacheKey, v)`. -/
def setPos (σ : Caches) (key : String) (v : Bool) (now : Nat) : Caches :=
  { σ with statCache := σ.statCache.set key v now }

/-- `checkPathSync` (`src/index.js` lines 76-116): probe the filesystem,
fold non-existence, type mismatch and any thrown error into a cached
non-match, and cache a match positively. -/
def checkPathSync (stat : String → StatResult) (type : String) (useCache : Bool)
    (resolvedPath cacheKey : String) (now : Nat) (σ : Caches) : Bool × Caches :=
  match stat resolvedPath with
  | StatResult.notFound => (false, if useCache then setNeg σ cacheKey now else σ)
  | StatResult.found st =>
    if matchType type st then
      (true, if useCache then setPos σ cacheKey true now else σ)
    else
      (false, if useCache then setNeg σ cacheKey now else σ)
  | StatResult.ioError => (false, if useCache then setNeg σ cacheKey now else σ)

/-- One iteration of the synchronous scan (`src/index.js` lines 193-225) for
candidate `p`: negative cache, then positive cache, then
`checkPathSync`.  Returns (matched, caches, probes performed). -/
def syncCheckOne (fs : Bool → String → StatResult) (o : LocateOpts) (now : Nat)
    (σ : Caches) (p : String) : Bool × Caches × Nat :=
  let rp := resolveCandidate o.cwd p
  let key := mkCacheKey rp o.type o.allowSymlinks
  if o.useCache then
    let ng := σ.negativeCache.get key now
    let σ1 := { σ with negativeCache := ng.2 }
    if ng.1 = some false then (false, σ1, 0)
    else
      let pg := σ1.statCache.get key now
      let σ2 := { σ1 with statCache := pg.2 }
      match pg.1 with
      | some v => (v, σ2, 0)
      | none =>
        let r := checkPathSync (statFn fs o) o.type true rp key now σ2
        (r.1, r.2, 1)
  else
    let r := checkPathSync (statFn fs o) o.type false rp key now σ
    (r.1, r.2, 1)

/-- The `for (const path_ of paths)` loop of `locatePathSync`, threading the
cache pair and counting filesystem probes. -/
def locatePathSyncFrom (fs : Bool → String → StatResult) (o : LocateOpts) (now : Nat) :
    List String → Caches → Nat → Option String × Caches × Nat
  | [], σ, n => (none, σ, n)
  | p :: rest, σ, n =>
    let r := syncCheckOne fs o now σ p
    if r.1 then (some p, r.2.1, n + r.2.2)
    else locatePathSyncFrom fs o now rest r.2.1 (n + r.2.2)

/-- `locatePathSync` (`src/index.js` lines 179-227): validate the type
selector, then scan the candidates sequentially.  The result triple is
(returned candidate or absent, final caches, filesystem probes). -/
def locatePathSync (fs : Bool → String → StatResult) (o : LocateOpts) (now : Nat)
    (paths : List String) (σ : Caches) : Except String (Option String × Caches × Nat) :=
  if validType o.type then Except.ok (locatePathSyncFrom fs o now paths σ 0)
  else Except.error (invalidTypeMessage o.type)

/-- Execution state of one candidate's asynchronous check: not yet started,
suspended at its `await statFunction(...)`, or settled with a boolean. -/
inductive CandState where
  | idle
  | pendingWrite
  | done (b : Bool)
deriving DecidableEq, Repr

/-- The cache-consultation half of the asynchronous per-candidate check
(`src/index.js` lines 141-152), which runs atomically before the `await`:
`some b` means the check settled `b` from a cache, `none` means a probe is
needed. -/
def asyncReadPhase (o : LocateOpts) (key : String) (now : Nat) (σ : Caches) :
    Option Bool × Caches :=
  if o.useCache then
    let ng := σ.negativeCache.get key now
    let σ1 := { σ with negativeCache := ng.2 }
    if ng.1 = some false then (some false, σ1)
    else
      let pg := σ1.statCache.get key now
      (pg.1, { σ1 with statCache := pg.2 })
  else (none, σ)

/-- The probe-and-record half of the asynchronous per-candidate check
(`src/index.js` lines 154-175), which runs atomically after the `await`:
both rejection cases (`notFound`, `ioError`) are caught and cached
negatively. -/
def asyncWritePhase (stat : String → StatResult) (o : LocateOpts)
    (rp key : String) (now : Nat) (σ : Caches) : Bool × Caches :=
  match stat rp with
  | StatResult.found st =>
    let result := matchType o.type st
    (result,
      if o.useCache then
        (if result then setPos σ key result now else setNeg σ key now)
      else σ)
  | _ => (false, if o.useCache then setNeg σ key now else σ)

/-- Global state of one asynchronous `locatePath` call: the shared cache
pair, each candidate's check state, and the probes performed so far. -/
structure AsyncRun where
  caches : Caches
  states : List CandState
  probes : Nat
deriving DecidableEq, Repr

/-- One scheduler step at clock reading `now`: advance candidate `i` by one
atomic phase (the phases are delimited by the single `await` inside the
`p-locate` tester).  Steps on settled or out-of-range candidates do
nothing. -/
def asyncStep (fs : Bool → String → StatResult) (o : LocateOpts)
    (cands : List String) (r : AsyncRun) (i now : Nat) : AsyncRun :=
  match cands[i]?, r.states[i]? with
  | some p, some CandState.idle =>
    match asyncReadPhase o (candidateKey o p) now r.caches with
    | (some b, σ') => AsyncRun.mk σ' (r.states.set i (CandState.done b)) r.probes
    | (none, σ') => AsyncRun.mk σ' (r.states.set i CandState.pendingWrite) r.probes
  | some p, some CandState.pendingWrite =>
    AsyncRun.mk
      (asyncWritePhase (statFn fs o) o (resolveCandidate o.cwd p) (candidateKey o p) now r.caches).2
      (r.states.set i (CandState.done
        (asyncWritePhase (statFn fs o) o (resolveCandidate o.cwd p) (candidateKey o p) now r.caches).1))
      (r.probes + 1)
  | _, _ => r

/-- Run a schedule: a list of (candidate index, clock reading) steps.  Any
start order and interleaving that a concurrency bound can produce is some
schedule, so theorems quantified over schedules hold for every concurrency
bound. -/
def runSched (fs : Bool → String → StatResult) (o : LocateOpts) (cands : List String) :
    List (Nat × Nat) → AsyncRun → AsyncRun
  | [], r => r
  | s :: ss, r => runSched fs o cands ss (asyncStep fs o cands r s.1 s.2)

/-- A schedule suffix that drives every candidate to a settled state
(every tester eventually runs to completion). -/
def completingSched (n now : Nat) : List (Nat × Nat) :=
  (List.range n ++ List.range n).map (fun i => (i, now))

/-- The initial state of an asynchronous call over `n` candidates. -/
def initAsyncRun (σ : Caches) (n : Nat) : AsyncRun :=
  AsyncRun.mk σ (List.replicate n CandState.idle) 0

/-- Execute one asynchronous `locatePath` call: the caller-chosen schedule
(the interleaving induced by the concurrency bound) followed by completion
of every remaining check. -/
def locatePathRun (fs : Bool → String → StatResult) (o : LocateOpts)
    (cands : List String) (sched : List (Nat × Nat)) (now : Nat) (σ : Caches) : AsyncRun :=
  runSched fs o cands (sched ++ completingSched cands.length now) (initAsyncRun σ cands.length)

/-- `p-locate` result selection with `preserveOrder = true` (the default):
the lowest-index candidate whose check settled `true`, or absent. -/
def asyncResult (cands : List String) (states : List CandState) : Option String :=
  ((cands.zip states).find? (fun cs => cs.2 = CandState.done true)).map (fun cs => cs.1)

/-- `locatePath` (`src/index.js` lines 118-177): validate the type selector,
then resolve via the order-preserving concurrent protocol. -/
def locatePath (fs : Bool → String → StatResult) (o : LocateOpts) (cands : List String)
    (sched : List (Nat × Nat)) (now : Nat) (σ : Caches) :
    Except String (Option String × Caches × Nat) :=
  if validType o.type then
    let r := locatePathRun fs o cands sched now σ
    Except.ok (asyncResult cands r.states, r.caches, r.probes)
  else Except.error (invalidTypeMessage o.type)

/-- The pure filesystem answer for a resolved path: the probe finds metadata
matching the requested type. -/
def probeMatches (stat : String → StatResult) (type : String) (rp : String) : Bool :=
  match stat rp with
  | StatResult.found st => matchType type st
  | _ => false

/-- The pure filesystem answer for a candidate. -/
def candMatches (fs : Bool → String → StatResult) (o : LocateOpts) (p : String) : Bool :=
  probeMatches (statFn fs o) o.type (resolveCandidate o.cwd p)

/-! ## Association-list (JavaScript `Map`) lemmas -/

/-- Keys of an association list are pairwise distinct (JavaScript `Map`
invariant). -/
def NodupKeys (es : List (String × Entry)) : Prop :=
  (es.map Prod.fst).Nodup

theorem mapGet_nil (k : String) : mapGet [] k = none := rfl

theorem mapGet_cons (k' : String) (e : Entry) (es : List (String × Entry)) (k : String) :
    mapGet ((k', e) :: es) k = if k' = k then some e else mapGet es k := by
  by_cases h : k' = k <;> simp [mapGet, List.find?_cons, h]

theorem mapDelete_cons (k' : String) (e : Entry) (es : List (String × Entry)) (k : String) :
    mapDelete ((k', e) :: es) k =
      if k' = k then mapDelete es k else (k', e) :: mapDelete es k := by
  by_cases h : k' = k <;> simp [mapDelete, List.filter_cons, h]

theorem mapGet_append (es fs : List (String × Entry)) (k : String) :
    mapGet (es ++ fs) k = (mapGet es k).or (mapGet fs k) := by
  induction es with
  | nil => simp [mapGet]
  | cons q es ih =>
    obtain ⟨k', e⟩ := q
    by_cases h : k' = k <;> simp [mapGet_cons, h, ih]

theorem mapGet_eq_none_of_forall (es : List (String × Entry)) (k : String)
    (h : ∀ q ∈ es, q.1 ≠ k) : mapGet es k = none := by
  induction es with
  | nil => rfl
  | cons q es ih =>
    obtain ⟨k', e⟩ := q
    have h1 : k' ≠ k := h (k', e) (List.mem_cons_self _ _)
    rw [mapGet_cons]
    simp only [h1, if_false]
    exact ih (fun q hq => h q (List.mem_cons_of_mem _ hq))

theorem forall_of_mapGet_eq_none (es : List (String × Entry)) (k : String)
    (h : mapGet es k = none) : ∀ q ∈ es, q.1 ≠ k := by
  induction es with
  | nil => intro q hq; cases hq
  | cons q es ih =>
    obtain ⟨k', e⟩ := q
    rw [mapGet_cons] at h
    by_cases h1 : k' = k
    · simp [h1] at h
    · intro q hq
      rcases List.mem_cons.mp hq with rfl | hq
      · exact h1
      · simp only [h1, if_false] at h
        exact ih h q hq

theorem mapGet_mem (es : List (String × Entry)) (k : String) (e : Entry)
    (h : mapGet es k = some e) : (k, e) ∈ es := by
  induction es with
  | nil => cases h
  | cons q es ih =>
    obtain ⟨k', e'⟩ := q
    rw [mapGet_cons] at h
    by_cases h1 : k' = k
    · subst h1
      simp at h
      subst h
      exact List.mem_cons_self _ _
    · simp only [h1, if_false] at h
      exact List.mem_cons_of_mem _ (ih h)

theorem mapGet_mapDelete_self (es : List (String × Entry)) (k : String) :
    mapGet (mapDelete es k) k = none := by
  apply mapGet_eq_none_of_forall
  intro q hq
  have := List.of_mem_filter hq
  simpa using this

theorem mapGet_mapDelete_other (es : List (String × Entry)) (k k' : String) (h : k' ≠ k) :
    mapGet (mapDelete es k) k' = mapGet es k' := by
  induction es with
  | nil => rfl
  | cons q es ih =>
    obtain ⟨k₀, e⟩ := q
    rw [mapDelete_cons]
    by_cases h0 : k₀ = k
    · subst h0
      have h1 : ¬ (k₀ = k') := fun hc => h (hc ▸ rfl)
      simp [mapGet_cons, h1, ih]
    · rw [if_neg h0, mapGet_cons, mapGet_cons, ih]

theorem mapDelete_append (es fs : List (String × Entry)) (k : String) :
    mapDelete (es ++ fs) k = mapDelete es k ++ mapDelete fs k := by
  simp [mapDelete, List.filter_append]

theorem any_key_eq_isSome (es : List (String × Entry)) (k : String) :
    es.any (fun p => p.1 = k) = (mapGet es k).isSome := by
  induction es with
  | nil => rfl
  | cons q es ih =>
    obtain ⟨k₀, e⟩ := q
    by_cases h : k₀ = k <;> simp [mapGet_cons, h, ih]

theorem mapDelete_any_self (es : List (String × Entry)) (k : String) :
    (mapDelete es k).any (fun p => p.1 = k) = false := by
  rw [any_key_eq_isSome, mapGet_mapDelete_self]
  rfl

theorem mapSet_of_absent (es : List (String × Entry)) (k : String) (e : Entry)
    (h : es.any (fun p => p.1 = k) = false) : mapSet es k e = es ++ [(k, e)] := by
  simp [mapSet, h]

theorem mapDelete_eq_self_of_absent (es : List (String × Entry)) (k : String)
    (h : ∀ q ∈ es, q.1 ≠ k) : mapDelete es k = es := by
  apply List.filter_eq_self.mpr
  intro q hq
  simpa using h q hq

theorem length_mapDelete_le (es : List (String × Entry)) (k : String) :
    (mapDelete es k).length ≤ es.length :=
  List.length_filter_le _ _

theorem length_mapDelete_lt (es : List (String × Entry)) (k : String) (e : Entry)
    (h : mapGet es k = some e) : (mapDelete es k).length < es.length := by
  induction es generalizing e with
  | nil => cases h
  | cons q es ih =>
    obtain ⟨k₀, e₀⟩ := q
    rw [mapDelete_cons]
    rw [mapGet_cons] at h
    by_cases h0 : k₀ = k
    · rw [if_pos h0]
      exact Nat.lt_succ_of_le (length_mapDelete_le es k)
    · rw [if_neg h0]
      simp only [h0, if_false] at h
      simpa using ih e h

/-! ## LRU cache operation lemmas -/

/-- The value `LRUCache.get` would observe at time `now`: the stored value
when the key holds an unexpired entry. -/
def freshVal (c : LRUCache) (k : String) (now : Nat) : Option Bool :=
  match mapGet c.entries k with
  | none => none
  | some e => if now - e.timestamp > c.ttl then none else some e.value

theorem get_of_miss (c : LRUCache) (k : String) (now : Nat)
    (h : mapGet c.entries k = none) : c.get k now = (none, c) := by
  unfold LRUCache.get
  rw [h]

theorem get_of_expired (c : LRUCache) (k : String) (now : Nat) (e : Entry)
    (h : mapGet c.entries k = some e) (hexp : now - e.timestamp > c.ttl) :
    c.get k now = (none, { c with entries := mapDelete c.entries k }) := by
  unfold LRUCache.get
  rw [h]
  simp [hexp]

theorem get_of_hit (c : LRUCache) (k : String) (now : Nat) (e : Entry)
    (h : mapGet c.entries k = some e) (hfr : ¬ (now - e.timestamp > c.ttl)) :
    c.get k now = (some e.value, { c with entries := mapDelete c.entries k ++ [(k, e)] }) := by
  unfold LRUCache.get
  rw [h]
  simp only [hfr, if_false]
  rw [mapSet_of_absent _ _ _ (mapDelete_any_self c.entries k)]

theorem get_fst (c : LRUCache) (k : String) (now : Nat) :
    (c.get k now).1 = freshVal c k now := by
  unfold freshVal
  cases h : mapGet c.entries k with
  | none => rw [get_of_miss c k now h]
  | some e =>
    by_cases hexp : now - e.timestamp > c.ttl
    · rw [get_of_expired c k now e h hexp]
      simp [hexp]
    · rw [get_of_hit c k now e h hexp]
      simp [hexp]

theorem mapGet_sub_none (es : List (String × Entry)) (k k₀ : String)
    (h : mapGet es k = none) : mapGet (mapDelete es k₀) k = none := by
  apply mapGet_eq_none_of_forall
  intro q hq
  exact forall_of_mapGet_eq_none es k h q (List.mem_of_mem_filter hq)

theorem set_of_present (c : LRUCache) (k : String) (v : Bool) (now : Nat)
    (h : (mapGet c.entries k).isSome) :
    c.set k v now = { c with entries := mapDelete c.entries k ++ [(k, Entry.mk v now)] } := by
  unfold LRUCache.set
  rw [any_key_eq_isSome, h]
  simp only [if_true]
  rw [mapSet_of_absent _ _ _ (mapDelete_any_self c.entries k)]

theorem set_of_absent_room (c : LRUCache) (k : String) (v : Bool) (now : Nat)
    (h : mapGet c.entries k = none) (hr : c.entries.length < c.maxSize) :
    c.set k v now = { c with entries := c.entries ++ [(k, Entry.mk v now)] } := by
  unfold LRUCache.set
  rw [any_key_eq_isSome, h]
  simp only [Option.isSome_none, Bool.false_eq_true, if_false, not_le.mpr hr, ge_iff_le]
  rw [mapSet_of_absent _ _ _ (by rw [any_key_eq_isSome, h]; rfl)]

theorem set_of_absent_full (c : LRUCache) (k : String) (v : Bool) (now : Nat)
    (e0 : String × Entry) (rest : List (String × Entry))
    (h : mapGet c.entries k = none) (hf : c.entries.length ≥ c.maxSize)
    (he : c.entries = e0 :: rest) :
    c.set k v now = { c with entries := mapDelete c.entries e0.1 ++ [(k, Entry.mk v now)] } := by
  unfold LRUCache.set
  rw [any_key_eq_isSome, h]
  simp only [Option.isSome_none, Bool.false_eq_true, if_false]
  rw [if_pos hf]
  have hmatch : (match c.entries with
      | [] => ([] : List (String × Entry))
      | e0 :: _ => mapDelete c.entries e0.1) = mapDelete c.entries e0.1 := by
    rw [he]
  rw [hmatch]
  rw [mapSet_of_absent _ _ _ (by rw [any_key_eq_isSome, mapGet_sub_none _ _ _ h]; rfl)]

theorem get_snd_maxSize (c : LRUCache) (k : String) (now : Nat) :
    ((c.get k now).2).maxSize = c.maxSize := by
  cases h : mapGet c.entries k with
  | none => rw [get_of_miss c k now h]
  | some e =>
    by_cases hexp : now - e.timestamp > c.ttl
    · rw [get_of_expired c k now e h hexp]
    · rw [get_of_hit c k now e h hexp]

theorem get_snd_ttl (c : LRUCache) (k : String) (now : Nat) :
    ((c.get k now).2).ttl = c.ttl := by
  cases h : mapGet c.entries k with
  | none => rw [get_of_miss c k now h]
  | some e =>
    by_cases hexp : now - e.timestamp > c.ttl
    · rw [get_of_expired c k now e h hexp]
    · rw [get_of_hit c k now e h hexp]

theorem set_maxSize (c : LRUCache) (k : String) (v : Bool) (now : Nat) :
    (c.set k v now).maxSize = c.maxSize := rfl

theorem set_ttl (c : LRUCache) (k : String) (v : Bool) (now : Nat) :
    (c.set k v now).ttl = c.ttl := rfl

theorem length_mapDelete_nodup (es : List (String × Entry)) (k : String) (e : Entry)
    (hn : NodupKeys es) (h : mapGet es k = some e) :
    (mapDelete es k).length + 1 = es.length := by
  induction es generalizing e with
  | nil => cases h
  | cons q es ih =>
    obtain ⟨k₀, e₀⟩ := q
    have hn' : k₀ ∉ es.map Prod.fst ∧ NodupKeys es := by
      simpa [NodupKeys, List.nodup_cons] using hn
    rw [mapDelete_cons]
    rw [mapGet_cons] at h
    by_cases h0 : k₀ = k
    · subst h0
      rw [if_pos rfl]
      rw [mapDelete_eq_self_of_absent es k₀ (by
        intro q hq hc
        exact hn'.1 (hc ▸ List.mem_map_of_mem Prod.fst hq))]
      rfl
    · rw [if_neg h0]
      simp only [h0, if_false] at h
      simpa using ih e hn'.2 h

/-! ## Cache operation sequences and the capacity bound -/

/-- One externally-visible operation on an `LRUCache`. -/
inductive CacheOp where
  | getOp (k : String) (now : Nat)
  | setOp (k : String) (v : Bool) (now : Nat)
  | clearOp
deriving DecidableEq, Repr

/-- Apply one operation, keeping the resulting cache state. -/
def applyOp (c : LRUCache) : CacheOp → LRUCache
  | CacheOp.getOp k now => (c.get k now).2
  | CacheOp.setOp k v now => c.set k v now
  | CacheOp.clearOp => c.clear

theorem applyOp_maxSize (c : LRUCache) (op : CacheOp) :
    (applyOp c op).maxSize = c.maxSize := by
  cases op with
  | getOp k now => exact get_snd_maxSize c k now
  | setOp k v now => rfl
  | clearOp => rfl

theorem applyOp_length_le (c : LRUCache) (op : CacheOp) (hm : 1 ≤ c.maxSize)
    (h : c.entries.length ≤ c.maxSize) :
    (applyOp c op).entries.length ≤ c.maxSize := by
  cases op with
  | getOp k now =>
    show ((c.get k now).2).entries.length ≤ c.maxSize
    cases hg : mapGet c.entries k with
    | none => rw [get_of_miss c k now hg]; exact h
    | some e =>
      by_cases hexp : now - e.timestamp > c.ttl
      · rw [get_of_expired c k now e hg hexp]
        exact le_trans (length_mapDelete_le c.entries k) h
      · rw [get_of_hit c k now e hg hexp]
        have := length_mapDelete_lt c.entries k e hg
        simp only [List.length_append, List.length_cons, List.length_nil]
        omega
  | setOp k v now =>
    show (c.set k v now).entries.length ≤ c.maxSize
    cases hg : mapGet c.entries k with
    | some e =>
      rw [set_of_present c k v now (by rw [hg]; rfl)]
      have := length_mapDelete_lt c.entries k e hg
      simp only [List.length_append, List.length_cons, List.length_nil]
      omega
    | none =>
      by_cases hr : c.entries.length < c.maxSize
      · rw [set_of_absent_room c k v now hg hr]
        simp only [List.length_append, List.length_cons, List.length_nil]
        omega
      · have hf : c.entries.length ≥ c.maxSize := le_of_not_lt hr
        cases he : c.entries with
        | nil => exfalso; rw [he] at hf; simp at hf; omega
        | cons e0 rest =>
          rw [set_of_absent_full c k v now e0 rest hg hf he]
          have hm0 : mapGet c.entries e0.1 = some e0.2 := by
            rw [he]
            obtain ⟨k0, ee⟩ := e0
            rw [mapGet_cons, if_pos rfl]
          have := length_mapDelete_lt c.entries e0.1 e0.2 hm0
          simp only [List.length_append, List.length_cons, List.length_nil]
          omega
  | clearOp =>
    show (c.clear).entries.length ≤ c.maxSize
    simp [LRUCache.clear]

theorem runOps_length_le (c : LRUCache) (ops : List CacheOp) (hm : c.maxSize = 500)
    (h : c.entries.length ≤ 500) : (ops.foldl applyOp c).entries.length ≤ 500 := by
  induction ops generalizing c with
  | nil => exact h
  | cons op ops ih =>
    simp only [List.foldl_cons]
    apply ih
    · rw [applyOp_maxSize]; exact hm
    · have := applyOp_length_le c op (by omega) (by rw [hm]; exact h)
      rw [hm] at this
      exact this

/-- **C4.** `LRUCache.get` contract: a missing key returns absent and leaves
the cache unchanged; a present entry whose age exceeds `ttl` is deleted and
absent is returned; otherwise the stored value is returned and the entry is
moved to the most-recently-used (last) position with its original entry —
in particular its original write timestamp — preserved, so a read never
refreshes the TTL. -/
theorem lruGet_contract (c : LRUCache) (k : String) (now : Nat) :
    (mapGet c.entries k = none → c.get k now = (none, c))
    ∧ (∀ e, mapGet c.entries k = some e → now - e.timestamp > c.ttl →
        (c.get k now).1 = none
        ∧ mapGet ((c.get k now).2).entries k = none
        ∧ ∀ k', k' ≠ k → mapGet ((c.get k now).2).entries k' = mapGet c.entries k')
    ∧ (∀ e, mapGet c.entries k = some e → ¬ (now - e.timestamp > c.ttl) →
        (c.get k now).1 = some e.value
        ∧ ((c.get k now).2).entries = mapDelete c.entries k ++ [(k, e)]
        ∧ ((c.get k now).2).entries.getLast? = some (k, e)
        ∧ mapGet ((c.get k now).2).entries k = some e) := by
  refine ⟨fun h => get_of_miss c k now h, fun e he hexp => ?_, fun e he hfr => ?_⟩
  · rw [get_of_expired c k now e he hexp]
    exact ⟨rfl, mapGet_mapDelete_self c.entries k,
      fun k' hk' => mapGet_mapDelete_other c.entries k k' hk'⟩
  · rw [get_of_hit c k now e he hfr]
    refine ⟨rfl, rfl, ?_, ?_⟩
    · simp
    · rw [mapGet_append, mapGet_mapDelete_self]
      simp [mapGet_cons]

/-- Witness for `lruGet_contract`: a concrete fresh hit returns the stored
value and keeps the original timestamp at the most-recently-used slot. -/
theorem lruGet_contract_witness :
    ((LRUCache.mk 2 5000 [("a", Entry.mk true 10), ("b", Entry.mk false 20)]).get "a" 100).1
      = some true
    ∧ (((LRUCache.mk 2 5000 [("a", Entry.mk true 10), ("b", Entry.mk false 20)]).get "a" 100).2).entries.getLast?
      = some ("a", Entry.mk true 10) := by
  have h := (lruGet_contract (LRUCache.mk 2 5000 [("a", Entry.mk true 10), ("b", Entry.mk false 20)])
    "a" 100).2.2 (Entry.mk true 10) (by decide) (by decide)
  exact ⟨h.1, h.2.2.1⟩

/-- **C3.** `LRUCache.set` contract: an existing key is removed first and
re-inserted at the most-recently-used position with a fresh timestamp (size
unchanged); a new key inserted at capacity evicts exactly the single
least-recently-used (first) entry; and no sequence of get/set/clear
operations ever grows a capacity-500 cache beyond 500 entries. -/
theorem lruSet_contract (c : LRUCache) (k : String) (v : Bool) (now : Nat) :
    (∀ e, NodupKeys c.entries → mapGet c.entries k = some e →
        (c.set k v now).entries = mapDelete c.entries k ++ [(k, Entry.mk v now)]
        ∧ (c.set k v now).entries.getLast? = some (k, Entry.mk v now)
        ∧ (c.set k v now).entries.length = c.entries.length)
    ∧ (∀ e0 rest, NodupKeys c.entries → mapGet c.entries k = none →
        c.entries = e0 :: rest → c.entries.length = c.maxSize →
        (c.set k v now).entries = rest ++ [(k, Entry.mk v now)])
    ∧ (∀ ops : List CacheOp, c.maxSize = 500 → c.entries.length ≤ 500 →
        (ops.foldl applyOp c).entries.length ≤ 500) := by
  refine ⟨fun e hn hg => ?_, fun e0 rest hn hg he hlen => ?_, fun ops hm hl => ?_⟩
  · rw [set_of_present c k v now (by rw [hg]; rfl)]
    refine ⟨rfl, by simp, ?_⟩
    have := length_mapDelete_nodup c.entries k e hn hg
    simp only [List.length_append, List.length_cons, List.length_nil]
    omega
  · rw [set_of_absent_full c k v now e0 rest hg (by omega) he]
    have hdel : mapDelete c.entries e0.1 = rest := by
      rw [he]
      obtain ⟨k0, ee⟩ := e0
      rw [mapDelete_cons, if_pos rfl]
      rw [he] at hn
      have hn' : (k0 :: rest.map Prod.fst).Nodup := by
        simpa [NodupKeys] using hn
      have hk0 : k0 ∉ rest.map Prod.fst := (List.nodup_cons.mp hn').1
      apply mapDelete_eq_self_of_absent
      intro q hq hc
      have hc' : q.1 = k0 := hc
      exact hk0 (hc' ▸ List.mem_map_of_mem Prod.fst hq)
    rw [hdel]
  · exact runOps_length_le c ops hm hl

/-- Witness for `lruSet_contract`: inserting a third key into a full
two-entry cache evicts exactly the oldest entry, and the op-sequence bound
holds concretely. -/
theorem lruSet_contract_witness :
    ((LRUCache.mk 2 5000 [("a", Entry.mk true 1), ("b", Entry.mk false 2)]).set "c" true 9).entries
      = [("b", Entry.mk false 2), ("c", Entry.mk true 9)] := by
  have h := (lruSet_contract (LRUCache.mk 2 5000 [("a", Entry.mk true 1), ("b", Entry.mk false 2)])
    "c" true 9).2.1 ("a", Entry.mk true 1) [("b", Entry.mk false 2)]
    (by unfold NodupKeys; decide) (by decide) rfl (by decide)
  simpa using h

/-- **C5.** An unrecognized type selector makes both locators fail
immediately with the descriptive `checkType` error.  The conclusion holds
for every filesystem, cache state, candidate list and schedule, so the
failure precedes — and is independent of — any filesystem access or cache
read/write; no result state is produced. -/
theorem invalidType_fails_fast (fs : Bool → String → StatResult) (o : LocateOpts)
    (now : Nat) (paths : List String) (σ : Caches) (sched : List (Nat × Nat))
    (h : validType o.type = false) :
    locatePathSync fs o now paths σ = Except.error (invalidTypeMessage o.type)
    ∧ locatePath fs o paths sched now σ = Except.error (invalidTypeMessage o.type) := by
  constructor
  · unfold locatePathSync
    rw [h]
    rfl
  · unfold locatePath
    rw [h]
    rfl

/-- Witness for `invalidType_fails_fast`: the selector `"bogus"` is
rejected with the exact error text before anything else happens. -/
theorem invalidType_fails_fast_witness :
    locatePathSync (fun _ _ => StatResult.notFound) (LocateOpts.mk "/c" "bogus" true true)
        7 ["x"] initialCaches = Except.error "Invalid type specified: bogus"
    ∧ locatePath (fun _ _ => StatResult.notFound) (LocateOpts.mk "/c" "bogus" true true)
        ["x"] [] 7 initialCaches = Except.error "Invalid type specified: bogus" :=
  invalidType_fails_fast (fun _ _ => StatResult.notFound)
    (LocateOpts.mk "/c" "bogus" true true) 7 ["x"] initialCaches [] (by decide)

/-! ## Cache key builder -/

theorem colonfree_append_inj (u₁ : List Char) : ∀ (u₂ b₁ b₂ : List Char),
    (':' : Char) ∉ u₁ → (':' : Char) ∉ u₂ →
    u₁ ++ ':' :: b₁ = u₂ ++ ':' :: b₂ → u₁ = u₂ ∧ b₁ = b₂ := by
  induction u₁ with
  | nil =>
    intro u₂ b₁ b₂ h₁ h₂ h
    cases u₂ with
    | nil => simpa using h
    | cons c cs =>
      simp only [List.nil_append, List.cons_append, List.cons.injEq] at h
      exact absurd (h.1 ▸ List.mem_cons_self c cs) h₂
  | cons c cs ih =>
    intro u₂ b₁ b₂ h₁ h₂ h
    cases u₂ with
    | nil =>
      simp only [List.nil_append, List.cons_append, List.cons.injEq] at h
      exact absurd (h.1 ▸ List.mem_cons_self c cs) h₁
    | cons d ds =>
      simp only [List.cons_append, List.cons.injEq] at h
      obtain ⟨rfl, h⟩ := h
      have h₁' : (':' : Char) ∉ cs := fun hm => h₁ (List.mem_cons_of_mem _ hm)
      have h₂' : (':' : Char) ∉ ds := fun hm => h₂ (List.mem_cons_of_mem _ hm)
      have := ih ds b₁ b₂ h₁' h₂' h
      exact ⟨by rw [this.1], this.2⟩

theorem mkCacheKey_data (rp t : String) (b : Bool) :
    (mkCacheKey rp t b).data
      = rp.data ++ ':' :: (t.data ++ ':' :: (boolString b).data) := by
  simp [mkCacheKey, String.data_append]

theorem mkCacheKey_inj (rp₁ rp₂ t₁ t₂ : String) (b₁ b₂ : Bool)
    (h₁ : (':' : Char) ∉ t₁.data) (h₂ : (':' : Char) ∉ t₂.data)
    (h : mkCacheKey rp₁ t₁ b₁ = mkCacheKey rp₂ t₂ b₂) :
    rp₁ = rp₂ ∧ t₁ = t₂ ∧ b₁ = b₂ := by
  have hd : rp₁.data ++ ':' :: (t₁.data ++ ':' :: (boolString b₁).data)
      = rp₂.data ++ ':' :: (t₂.data ++ ':' :: (boolString b₂).data) := by
    rw [← mkCacheKey_data, ← mkCacheKey_data, h]
  have hr := congrArg List.reverse hd
  simp only [List.reverse_append, List.reverse_cons, List.append_assoc,
    List.singleton_append, List.nil_append] at hr
  have hb₁ : (':' : Char) ∉ (boolString b₁).data.reverse := by
    cases b₁ <;> decide
  have hb₂ : (':' : Char) ∉ (boolString b₂).data.reverse := by
    cases b₂ <;> decide
  have step1 := colonfree_append_inj (boolString b₁).data.reverse
    (boolString b₂).data.reverse _ _ hb₁ hb₂ hr
  have hbb : b₁ = b₂ := by
    cases b₁ <;> cases b₂ <;> first | rfl | (exfalso; exact absurd step1.1 (by decide))
  have ht₁ : (':' : Char) ∉ t₁.data.reverse := by simpa using h₁
  have ht₂ : (':' : Char) ∉ t₂.data.reverse := by simpa using h₂
  have step2 := colonfree_append_inj t₁.data.reverse t₂.data.reverse _ _ ht₁ ht₂ step1.2
  have htt : t₁ = t₂ := by
    apply String.ext
    have := congrArg List.reverse step2.1
    simpa using this
  have hrp : rp₁ = rp₂ := by
    apply String.ext
    have := congrArg List.reverse step2.2
    simpa using this
  exact ⟨hrp, htt, hbb⟩

/-- Key injectivity in the resolved path alone (any fixed selector and
symlink flag): distinct resolved paths never share a cache key. -/
theorem mkCacheKey_rp_inj (rp₁ rp₂ t : String) (b : Bool)
    (h : mkCacheKey rp₁ t b = mkCacheKey rp₂ t b) : rp₁ = rp₂ := by
  have hd := congrArg String.data h
  rw [mkCacheKey_data, mkCacheKey_data] at hd
  exact String.ext (List.append_cancel_right hd)

/-- **C7.** The cache key builder is the pure function
`resolvedPath ++ ":" ++ type ++ ":" ++ allowSymlinks`; on valid type
selectors and boolean symlink flags it is injective: two keys coincide
exactly when all three components coincide. -/
theorem cacheKey_builder_correct (rp₁ rp₂ t₁ t₂ : String) (b₁ b₂ : Bool)
    (h₁ : validType t₁ = true) (h₂ : validType t₂ = true) :
    mkCacheKey rp₁ t₁ b₁ = mkCacheKey rp₂ t₂ b₂ ↔ (rp₁ = rp₂ ∧ t₁ = t₂ ∧ b₁ = b₂) := by
  constructor
  · intro h
    have hv₁ : (t₁ = "both" ∨ t₁ = "file") ∨ t₁ = "directory" := by
      simpa [validType] using h₁
    have hv₂ : (t₂ = "both" ∨ t₂ = "file") ∨ t₂ = "directory" := by
      simpa [validType] using h₂
    have hc₁ : (':' : Char) ∉ t₁.data := by
      rcases hv₁ with (rfl | rfl) | rfl <;> decide
    have hc₂ : (':' : Char) ∉ t₂.data := by
      rcases hv₂ with (rfl | rfl) | rfl <;> decide
    exact mkCacheKey_inj rp₁ rp₂ t₁ t₂ b₁ b₂ hc₁ hc₂ h
  · rintro ⟨rfl, rfl, rfl⟩
    rfl

/-- Witness for `cacheKey_builder_correct`: keys for the same path under
different semantics differ, and equal inputs agree. -/
theorem cacheKey_builder_correct_witness :
    ¬ (mkCacheKey "/a" "file" true = mkCacheKey "/a" "directory" true) := by
  intro h
  have := (cacheKey_builder_correct "/a" "/a" "file" "directory" true true
    (by decide) (by decide)).mp h
  exact absurd this.2.1 (by decide)

/-! ## Per-candidate check: phase structure -/

theorem set_lookup_self (c : LRUCache) (k : String) (v : Bool) (now : Nat) :
    mapGet (c.set k v now).entries k = some (Entry.mk v now) := by
  cases hg : mapGet c.entries k with
  | some e =>
    rw [set_of_present c k v now (by rw [hg]; rfl)]
    rw [mapGet_append, mapGet_mapDelete_self]
    simp [mapGet_cons]
  | none =>
    by_cases hr : c.entries.length < c.maxSize
    · rw [set_of_absent_room c k v now hg hr]
      rw [mapGet_append, hg]
      simp [mapGet_cons]
    · cases he : c.entries with
      | nil =>
        rw [he] at hr
        simp at hr
        unfold LRUCache.set
        rw [he]
        simp only [List.any_nil, Bool.false_eq_true, if_false, List.length_nil, ge_iff_le]
        rw [if_pos (by omega)]
        rw [mapSet_of_absent _ _ _ (by rfl)]
        simp [mapGet_cons]
      | cons e0 rest =>
        rw [set_of_absent_full c k v now e0 rest hg (le_of_not_lt hr) he]
        rw [mapGet_append, mapGet_sub_none _ _ _ hg]
        simp [mapGet_cons]

theorem checkPathSync_bad (stat : String → StatResult) (type : String) (uc : Bool)
    (rp key : String) (now : Nat) (σ : Caches)
    (hbad : stat rp = StatResult.notFound ∨ stat rp = StatResult.ioError) :
    checkPathSync stat type uc rp key now σ
      = (false, if uc then setNeg σ key now else σ) := by
  rcases hbad with h | h <;> unfold checkPathSync <;> rw [h]

theorem asyncWritePhase_eq_checkPathSync (stat : String → StatResult) (o : LocateOpts)
    (rp key : String) (now : Nat) (σ : Caches) :
    asyncWritePhase stat o rp key now σ
      = checkPathSync stat o.type o.useCache rp key now σ := by
  unfold asyncWritePhase checkPathSync
  cases stat rp with
  | found st => by_cases h : matchType o.type st <;> simp [h]
  | notFound => rfl
  | ioError => rfl

theorem syncCheckOne_of_read_some (fs : Bool → String → StatResult) (o : LocateOpts)
    (now : Nat) (σ σ' : Caches) (p : String) (b : Bool)
    (h : asyncReadPhase o (candidateKey o p) now σ = (some b, σ')) :
    syncCheckOne fs o now σ p = (b, σ', 0) := by
  by_cases hu : o.useCache
  · unfold asyncReadPhase at h
    unfold syncCheckOne
    simp only [hu, if_true, candidateKey] at h ⊢
    rcases hng : σ.negativeCache.get (mkCacheKey (resolveCandidate o.cwd p) o.type o.allowSymlinks) now
      with ⟨r, neg'⟩
    rw [hng] at h
    dsimp only at h
    by_cases hr : r = some false
    · rw [if_pos hr] at h ⊢
      simp at h
      simp [h.1.symm, h.2]
    · rw [if_neg hr] at h ⊢
      rcases hpg : σ.statCache.get
          (mkCacheKey (resolveCandidate o.cwd p) o.type o.allowSymlinks) now with ⟨c, pos'⟩
      rw [hpg] at h
      dsimp only at h
      cases c with
      | none => simp at h
      | some v =>
        simp at h
        simp [h.1.symm, ← h.2]
  · unfold asyncReadPhase at h
    simp only [hu, Bool.false_eq_true, if_false] at h
    cases h

theorem syncCheckOne_of_read_none (fs : Bool → String → StatResult) (o : LocateOpts)
    (now : Nat) (σ σ' : Caches) (p : String)
    (h : asyncReadPhase o (candidateKey o p) now σ = (none, σ')) :
    syncCheckOne fs o now σ p =
      ((checkPathSync (statFn fs o) o.type o.useCache (resolveCandidate o.cwd p)
          (candidateKey o p) now σ').1,
        (checkPathSync (statFn fs o) o.type o.useCache (resolveCandidate o.cwd p)
          (candidateKey o p) now σ').2, 1) := by
  by_cases hu : o.useCache
  · unfold asyncReadPhase at h
    unfold syncCheckOne
    simp only [hu, if_true, candidateKey] at h ⊢
    rcases hng : σ.negativeCache.get (mkCacheKey (resolveCandidate o.cwd p) o.type o.allowSymlinks) now
      with ⟨r, neg'⟩
    rw [hng] at h
    dsimp only at h
    by_cases hr : r = some false
    · rw [if_pos hr] at h
      simp at h
    · rw [if_neg hr] at h ⊢
      rcases hpg : σ.statCache.get
          (mkCacheKey (resolveCandidate o.cwd p) o.type o.allowSymlinks) now with ⟨c, pos'⟩
      rw [hpg] at h
      dsimp only at h
      cases c with
      | none =>
        simp at h
        simp [h]
      | some v => simp at h
  · unfold asyncReadPhase at h
    simp only [hu, Bool.false_eq_true, if_false] at h
    cases h
    unfold syncCheckOne
    simp only [hu, Bool.false_eq_true, if_false, candidateKey]

/-- **C6.** A probe that signals non-existence (`notFound`) or raises any
filesystem error (`ioError`, e.g. permission denied) is folded into a
non-match by both locators: the per-candidate check returns `false` rather
than propagating the error (the embedding stays a total function), the
outcome is recorded in the negative cache when caching is enabled (and
nothing is written when it is disabled), and the synchronous scan simply
continues with the remaining candidates. -/
theorem probe_failure_is_nonmatch (fs : Bool → String → StatResult) (o : LocateOpts)
    (p : String) (rest : List String) (now n : Nat) (σ σr : Caches)
    (hbad : statFn fs o (resolveCandidate o.cwd p) = StatResult.notFound
      ∨ statFn fs o (resolveCandidate o.cwd p) = StatResult.ioError) :
    ((checkPathSync (statFn fs o) o.type o.useCache (resolveCandidate o.cwd p)
        (candidateKey o p) now σ).1 = false)
    ∧ (o.useCache = true →
        mapGet ((checkPathSync (statFn fs o) o.type o.useCache (resolveCandidate o.cwd p)
          (candidateKey o p) now σ).2).negativeCache.entries (candidateKey o p)
          = some (Entry.mk false now))
    ∧ (o.useCache = false →
        (checkPathSync (statFn fs o) o.type o.useCache (resolveCandidate o.cwd p)
          (candidateKey o p) now σ).2 = σ)
    ∧ (asyncWritePhase (statFn fs o) o (resolveCandidate o.cwd p) (candidateKey o p) now σ
        = checkPathSync (statFn fs o) o.type o.useCache (resolveCandidate o.cwd p)
            (candidateKey o p) now σ)
    ∧ (asyncReadPhase o (candidateKey o p) now σ = (none, σr) →
        locatePathSyncFrom fs o now (p :: rest) σ n
          = locatePathSyncFrom fs o now rest
              ((checkPathSync (statFn fs o) o.type o.useCache (resolveCandidate o.cwd p)
                (candidateKey o p) now σr).2) (n + 1)) := by
  refine ⟨?_, ?_, ?_, ?_, ?_⟩
  · rw [checkPathSync_bad _ _ _ _ _ _ _ hbad]
  · intro hu
    rw [checkPathSync_bad _ _ _ _ _ _ _ hbad]
    simp only [hu, if_true]
    exact set_lookup_self _ _ _ _
  · intro hu
    rw [checkPathSync_bad _ _ _ _ _ _ _ hbad]
    simp [hu]
  · exact asyncWritePhase_eq_checkPathSync _ _ _ _ _ _
  · intro hread
    have hstep := syncCheckOne_of_read_none fs o now σ σr p hread
    have hfalse : (checkPathSync (statFn fs o) o.type o.useCache (resolveCandidate o.cwd p)
        (candidateKey o p) now σr).1 = false := by
      rw [checkPathSync_bad _ _ _ _ _ _ _ hbad]
    simp only [locatePathSyncFrom]
    rw [hstep]
    simp [hfalse]

/-- Witness for `probe_failure_is_nonmatch`: a permission-style error on the
sole earlier candidate is swallowed, cached negatively, and the scan moves
on to the next candidate. -/
theorem probe_failure_is_nonmatch_witness :
    ((checkPathSync (statFn (fun _ _ => StatResult.ioError)
        (LocateOpts.mk "/c" "file" true true)) "file" true "/c/x" (candidateKey (LocateOpts.mk "/c" "file" true true) "x")
        9 initialCaches).1 = false)
    ∧ mapGet ((checkPathSync (statFn (fun _ _ => StatResult.ioError)
        (LocateOpts.mk "/c" "file" true true)) "file" true "/c/x" (candidateKey (LocateOpts.mk "/c" "file" true true) "x")
        9 initialCaches).2).negativeCache.entries (candidateKey (LocateOpts.mk "/c" "file" true true) "x")
        = some (Entry.mk false 9) := by
  have h := probe_failure_is_nonmatch (fun _ _ => StatResult.ioError)
    (LocateOpts.mk "/c" "file" true true) "x" [] 9 0 initialCaches initialCaches
    (Or.inr rfl)
  exact ⟨h.1, h.2.1 rfl⟩

/-! ## Asynchronous run machinery -/

theorem asyncStep_of_idle_some (fs : Bool → String → StatResult) (o : LocateOpts)
    (cands : List String) (r : AsyncRun) (i t : Nat) (p : String) (b : Bool) (σ' : Caches)
    (h1 : cands[i]? = some p) (h2 : r.states[i]? = some CandState.idle)
    (h3 : asyncReadPhase o (candidateKey o p) t r.caches = (some b, σ')) :
    asyncStep fs o cands r i t
      = AsyncRun.mk σ' (r.states.set i (CandState.done b)) r.probes := by
  unfold asyncStep
  simp only [h1, h2, h3]

theorem asyncStep_of_idle_none (fs : Bool → String → StatResult) (o : LocateOpts)
    (cands : List String) (r : AsyncRun) (i t : Nat) (p : String) (σ' : Caches)
    (h1 : cands[i]? = some p) (h2 : r.states[i]? = some CandState.idle)
    (h3 : asyncReadPhase o (candidateKey o p) t r.caches = (none, σ')) :
    asyncStep fs o cands r i t
      = AsyncRun.mk σ' (r.states.set i CandState.pendingWrite) r.probes := by
  unfold asyncStep
  simp only [h1, h2, h3]

theorem asyncStep_of_pending (fs : Bool → String → StatResult) (o : LocateOpts)
    (cands : List String) (r : AsyncRun) (i t : Nat) (p : String)
    (h1 : cands[i]? = some p) (h2 : r.states[i]? = some CandState.pendingWrite) :
    asyncStep fs o cands r i t
      = AsyncRun.mk
          (asyncWritePhase (statFn fs o) o (resolveCandidate o.cwd p) (candidateKey o p) t r.caches).2
          (r.states.set i (CandState.done
            (asyncWritePhase (statFn fs o) o (resolveCandidate o.cwd p) (candidateKey o p) t r.caches).1))
          (r.probes + 1) := by
  unfold asyncStep
  simp only [h1, h2]

theorem asyncStep_of_done (fs : Bool → String → StatResult) (o : LocateOpts)
    (cands : List String) (r : AsyncRun) (i t : Nat) (b : Bool)
    (h2 : r.states[i]? = some (CandState.done b)) :
    asyncStep fs o cands r i t = r := by
  unfold asyncStep
  cases h1 : cands[i]? with
  | none => simp only [h2]
  | some p => simp only [h2]

theorem asyncStep_of_oob (fs : Bool → String → StatResult) (o : LocateOpts)
    (cands : List String) (r : AsyncRun) (i t : Nat)
    (h : cands[i]? = none ∨ r.states[i]? = none) :
    asyncStep fs o cands r i t = r := by
  unfold asyncStep
  rcases h with h | h
  · rw [h]
  · rw [h]
    cases hc : cands[i]? <;> rfl

/-- Every step either leaves the run unchanged or writes one non-idle state
at its index. -/
theorem asyncStep_cases (fs : Bool → String → StatResult) (o : LocateOpts)
    (cands : List String) (r : AsyncRun) (i t : Nat) :
    asyncStep fs o cands r i t = r
    ∨ ∃ s σ' pr, asyncStep fs o cands r i t = AsyncRun.mk σ' (r.states.set i s) pr
        ∧ s ≠ CandState.idle := by
  cases h1 : cands[i]? with
  | none => exact Or.inl (asyncStep_of_oob fs o cands r i t (Or.inl h1))
  | some p =>
    cases h2 : r.states[i]? with
    | none => exact Or.inl (asyncStep_of_oob fs o cands r i t (Or.inr h2))
    | some s =>
      cases s with
      | idle =>
        rcases h3 : asyncReadPhase o (candidateKey o p) t r.caches with ⟨ob, σ'⟩
        cases ob with
        | some b =>
          exact Or.inr ⟨CandState.done b, σ', r.probes,
            asyncStep_of_idle_some fs o cands r i t p b σ' h1 h2 h3, by simp⟩
        | none =>
          exact Or.inr ⟨CandState.pendingWrite, σ', r.probes,
            asyncStep_of_idle_none fs o cands r i t p σ' h1 h2 h3, by simp⟩
      | pendingWrite =>
        exact Or.inr ⟨_, _, _, asyncStep_of_pending fs o cands r i t p h1 h2, by simp⟩
      | done b => exact Or.inl (asyncStep_of_done fs o cands r i t b h2)

theorem asyncStep_states_length (fs : Bool → String → StatResult) (o : LocateOpts)
    (cands : List String) (r : AsyncRun) (i t : Nat) :
    (asyncStep fs o cands r i t).states.length = r.states.length := by
  rcases asyncStep_cases fs o cands r i t with h | ⟨s, σ', pr, h, _⟩
  · rw [h]
  · rw [h]
    simp

theorem asyncStep_states_get_other (fs : Bool → String → StatResult) (o : LocateOpts)
    (cands : List String) (r : AsyncRun) (i t j : Nat) (hij : j ≠ i) :
    (asyncStep fs o cands r i t).states[j]? = r.states[j]? := by
  rcases asyncStep_cases fs o cands r i t with h | ⟨s, σ', pr, h, _⟩
  · rw [h]
  · rw [h]
    exact List.getElem?_set_ne (fun hc => hij hc.symm)

/-- Candidate `j` has settled. -/
def doneAt (r : AsyncRun) (j : Nat) : Prop :=
  ∃ b, r.states[j]? = some (CandState.done b)

/-- Candidate `j` has at least started. -/
def notIdleAt (r : AsyncRun) (j : Nat) : Prop :=
  ∀ s, r.states[j]? = some s → s ≠ CandState.idle

theorem notIdleAt_step (fs : Bool → String → StatResult) (o : LocateOpts)
    (cands : List String) (r : AsyncRun) (i t j : Nat) (h : notIdleAt r j) :
    notIdleAt (asyncStep fs o cands r i t) j := by
  by_cases hij : j = i
  · subst hij
    rcases asyncStep_cases fs o cands r j t with hs | ⟨s, σ', pr, hs, hni⟩
    · rw [hs]; exact h
    · rw [hs]
      intro s' hs'
      by_cases hjl : j < r.states.length
      · rw [List.getElem?_set_self hjl] at hs'
        cases hs'
        exact hni
      · rw [List.getElem?_eq_none (by simp only [List.length_set]; omega)] at hs'
        cases hs'
  · intro s hs
    rw [asyncStep_states_get_other fs o cands r i t j hij] at hs
    exact h s hs

theorem doneAt_step (fs : Bool → String → StatResult) (o : LocateOpts)
    (cands : List String) (r : AsyncRun) (i t j : Nat) (h : doneAt r j) :
    doneAt (asyncStep fs o cands r i t) j := by
  by_cases hij : j = i
  · subst hij
    obtain ⟨b, hb⟩ := h
    rw [asyncStep_of_done fs o cands r j t b hb]
    exact ⟨b, hb⟩
  · obtain ⟨b, hb⟩ := h
    refine ⟨b, ?_⟩
    rw [asyncStep_states_get_other fs o cands r i t j hij]
    exact hb

theorem asyncStep_makes_notIdle (fs : Bool → String → StatResult) (o : LocateOpts)
    (cands : List String) (r : AsyncRun) (i t : Nat)
    (hi : i < cands.length) (hl : r.states.length = cands.length) :
    notIdleAt (asyncStep fs o cands r i t) i := by
  have hil : i < r.states.length := by omega
  obtain ⟨p, hp⟩ : ∃ p, cands[i]? = some p := by
    refine ⟨cands[i], ?_⟩
    exact List.getElem?_eq_getElem hi
  obtain ⟨s, hs⟩ : ∃ s, r.states[i]? = some s := by
    refine ⟨r.states[i], ?_⟩
    exact List.getElem?_eq_getElem hil
  cases s with
  | idle =>
    rcases h3 : asyncReadPhase o (candidateKey o p) t r.caches with ⟨ob, σ'⟩
    cases ob with
    | some b =>
      rw [asyncStep_of_idle_some fs o cands r i t p b σ' hp hs h3]
      intro s' hs'
      rw [List.getElem?_set_self hil] at hs'
      cases hs'
      simp
    | none =>
      rw [asyncStep_of_idle_none fs o cands r i t p σ' hp hs h3]
      intro s' hs'
      rw [List.getElem?_set_self hil] at hs'
      cases hs'
      simp
  | pendingWrite =>
    rw [asyncStep_of_pending fs o cands r i t p hp hs]
    intro s' hs'
    rw [List.getElem?_set_self hil] at hs'
    cases hs'
    simp
  | done b =>
    rw [asyncStep_of_done fs o cands r i t b hs]
    intro s' hs'
    rw [hs] at hs'
    cases hs'
    simp

theorem asyncStep_makes_done (fs : Bool → String → StatResult) (o : LocateOpts)
    (cands : List String) (r : AsyncRun) (i t : Nat)
    (hi : i < cands.length) (hl : r.states.length = cands.length)
    (h : notIdleAt r i) : doneAt (asyncStep fs o cands r i t) i := by
  have hil : i < r.states.length := by omega
  obtain ⟨p, hp⟩ : ∃ p, cands[i]? = some p :=
    ⟨cands[i], List.getElem?_eq_getElem hi⟩
  obtain ⟨s, hs⟩ : ∃ s, r.states[i]? = some s :=
    ⟨r.states[i], List.getElem?_eq_getElem hil⟩
  cases s with
  | idle => exact absurd rfl (h CandState.idle hs)
  | pendingWrite =>
    rw [asyncStep_of_pending fs o cands r i t p hp hs]
    exact ⟨_, List.getElem?_set_self hil⟩
  | done b =>
    rw [asyncStep_of_done fs o cands r i t b hs]
    exact ⟨b, hs⟩

theorem runSched_append (fs : Bool → String → StatResult) (o : LocateOpts)
    (cands : List String) (s₁ s₂ : List (Nat × Nat)) (r : AsyncRun) :
    runSched fs o cands (s₁ ++ s₂) r = runSched fs o cands s₂ (runSched fs o cands s₁ r) := by
  induction s₁ generalizing r with
  | nil => rfl
  | cons st s₁ ih =>
    simp only [List.cons_append, runSched]
    exact ih _

theorem runSched_states_length (fs : Bool → String → StatResult) (o : LocateOpts)
    (cands : List String) (s : List (Nat × Nat)) (r : AsyncRun) :
    (runSched fs o cands s r).states.length = r.states.length := by
  induction s generalizing r with
  | nil => rfl
  | cons st s ih =>
    simp only [runSched]
    rw [ih, asyncStep_states_length]

theorem notIdleAt_runSched (fs : Bool → String → StatResult) (o : LocateOpts)
    (cands : List String) (s : List (Nat × Nat)) (r : AsyncRun) (j : Nat)
    (h : notIdleAt r j) : notIdleAt (runSched fs o cands s r) j := by
  induction s generalizing r with
  | nil => exact h
  | cons st s ih =>
    simp only [runSched]
    exact ih _ (notIdleAt_step fs o cands r st.1 st.2 j h)

theorem doneAt_runSched (fs : Bool → String → StatResult) (o : LocateOpts)
    (cands : List String) (s : List (Nat × Nat)) (r : AsyncRun) (j : Nat)
    (h : doneAt r j) : doneAt (runSched fs o cands s r) j := by
  induction s generalizing r with
  | nil => exact h
  | cons st s ih =>
    simp only [runSched]
    exact ih _ (doneAt_step fs o cands r st.1 st.2 j h)

theorem runSched_pass_notIdle (fs : Bool → String → StatResult) (o : LocateOpts)
    (cands : List String) (t : Nat) (l : List Nat) (r : AsyncRun)
    (hl : r.states.length = cands.length) (j : Nat)
    (h : (j ∈ l ∧ j < cands.length) ∨ notIdleAt r j) :
    notIdleAt (runSched fs o cands (l.map (fun i => (i, t))) r) j := by
  induction l generalizing r with
  | nil =>
    rcases h with ⟨hm, _⟩ | h
    · cases hm
    · exact h
  | cons i l ih =>
    simp only [List.map_cons, runSched]
    have hl' : (asyncStep fs o cands r i t).states.length = cands.length := by
      rw [asyncStep_states_length]; exact hl
    rcases h with ⟨hm, hj⟩ | h
    · rcases List.mem_cons.mp hm with rfl | hm'
      · exact ih _ hl' (Or.inr (asyncStep_makes_notIdle fs o cands r j t hj hl))
      · exact ih _ hl' (Or.inl ⟨hm', hj⟩)
    · exact ih _ hl' (Or.inr (notIdleAt_step fs o cands r i t j h))

theorem runSched_pass_done (fs : Bool → String → StatResult) (o : LocateOpts)
    (cands : List String) (t : Nat) (l : List Nat) (r : AsyncRun)
    (hl : r.states.length = cands.length) (j : Nat)
    (h : (j ∈ l ∧ j < cands.length ∧ notIdleAt r j) ∨ doneAt r j) :
    doneAt (runSched fs o cands (l.map (fun i => (i, t))) r) j := by
  induction l generalizing r with
  | nil =>
    rcases h with ⟨hm, _⟩ | h
    · cases hm
    · exact h
  | cons i l ih =>
    simp only [List.map_cons, runSched]
    have hl' : (asyncStep fs o cands r i t).states.length = cands.length := by
      rw [asyncStep_states_length]; exact hl
    rcases h with ⟨hm, hj, hni⟩ | h
    · rcases List.mem_cons.mp hm with rfl | hm'
      · exact ih _ hl' (Or.inr (asyncStep_makes_done fs o cands r j t hj hl hni))
      · exact ih _ hl' (Or.inl ⟨hm', hj, notIdleAt_step fs o cands r i t j hni⟩)
    · exact ih _ hl' (Or.inr (doneAt_step fs o cands r i t j h))

/-- After the completing suffix, every in-range candidate has settled. -/
theorem locatePathRun_all_done (fs : Bool → String → StatResult) (o : LocateOpts)
    (cands : List String) (sched : List (Nat × Nat)) (now : Nat) (σ : Caches)
    (j : Nat) (hj : j < cands.length) :
    doneAt (locatePathRun fs o cands sched now σ) j := by
  unfold locatePathRun completingSched
  rw [List.map_append, runSched_append, runSched_append]
  set r0 := runSched fs o cands sched (initAsyncRun σ cands.length) with hr0
  have hlen0 : r0.states.length = cands.length := by
    rw [hr0, runSched_states_length]
    simp [initAsyncRun]
  have hpass1 : notIdleAt (runSched fs o cands ((List.range cands.length).map (fun i => (i, now))) r0) j :=
    runSched_pass_notIdle fs o cands now (List.range cands.length) r0 hlen0 j
      (Or.inl ⟨List.mem_range.mpr hj, hj⟩)
  have hlen1 : (runSched fs o cands ((List.range cands.length).map (fun i => (i, now))) r0).states.length
      = cands.length := by
    rw [runSched_states_length]; exact hlen0
  exact runSched_pass_done fs o cands now (List.range cands.length) _ hlen1 j
    (Or.inl ⟨List.mem_range.mpr hj, hj, hpass1⟩)

/-- `preserveOrder` result selection: when every candidate settled at the
boolean a function `g` assigns to it, the winner is the first candidate on
which `g` holds. -/
theorem asyncResult_eq_find (g : String → Bool) : ∀ (cands : List String) (states : List CandState),
    states.length = cands.length →
    (∀ (i : Nat) (p : String), cands[i]? = some p → states[i]? = some (CandState.done (g p))) →
    asyncResult cands states = List.find? g cands := by
  intro cands
  induction cands with
  | nil => intro states h1 h2; rfl
  | cons p cands ih =>
    intro states h1 h2
    cases states with
    | nil => simp at h1
    | cons s states =>
      have hs : s = CandState.done (g p) := by
        have := h2 0 p (by simp)
        simpa using this
      subst hs
      have htail := ih states (by simpa using h1)
        (fun (i : Nat) (q : String) hq => by
          have := h2 (i + 1) q (by simpa using hq)
          simpa using this)
      unfold asyncResult
      unfold asyncResult at htail
      rw [List.zip_cons_cons]
      cases hg : g p with
      | true => simp [List.find?_cons, hg]
      | false => simpa [List.find?_cons, hg] using htail

/-! ## The cache-free paths -/

theorem checkPathSync_fst (stat : String → StatResult) (type : String) (uc : Bool)
    (rp key : String) (now : Nat) (σ : Caches) :
    (checkPathSync stat type uc rp key now σ).1 = probeMatches stat type rp := by
  unfold checkPathSync probeMatches
  cases stat rp with
  | found st => by_cases h : matchType type st <;> simp [h]
  | notFound => rfl
  | ioError => rfl

theorem checkPathSync_nocache (stat : String → StatResult) (type : String)
    (rp key : String) (now : Nat) (σ : Caches) :
    checkPathSync stat type false rp key now σ = (probeMatches stat type rp, σ) := by
  unfold checkPathSync probeMatches
  cases stat rp with
  | found st => by_cases h : matchType type st <;> simp [h]
  | notFound => rfl
  | ioError => rfl

theorem asyncReadPhase_nocache (o : LocateOpts) (key : String) (now : Nat) (σ : Caches)
    (hu : o.useCache = false) : asyncReadPhase o key now σ = (none, σ) := by
  unfold asyncReadPhase
  rw [hu]
  rfl

theorem locatePathSyncFrom_nocache (fs : Bool → String → StatResult) (o : LocateOpts)
    (now : Nat) (hu : o.useCache = false) : ∀ (paths : List String) (σ : Caches) (n : Nat),
    (locatePathSyncFrom fs o now paths σ n).1 = List.find? (candMatches fs o) paths
    ∧ (locatePathSyncFrom fs o now paths σ n).2.1 = σ := by
  intro paths
  induction paths with
  | nil => intro σ n; exact ⟨rfl, rfl⟩
  | cons p rest ih =>
    intro σ n
    have hstep := syncCheckOne_of_read_none fs o now σ σ p
      (asyncReadPhase_nocache o (candidateKey o p) now σ hu)
    rw [hu, checkPathSync_nocache] at hstep
    simp only [locatePathSyncFrom, hstep]
    rw [List.find?_cons]
    have hcm : probeMatches (statFn fs o) o.type (resolveCandidate o.cwd p)
        = candMatches fs o p := rfl
    rw [hcm]
    cases hm : candMatches fs o p with
    | true => exact ⟨rfl, rfl⟩
    | false => exact ih σ (n + 1)

theorem asyncStep_nocache_inv (fs : Bool → String → StatResult) (o : LocateOpts)
    (cands : List String) (σ0 : Caches) (hu : o.useCache = false) (r : AsyncRun) (i t : Nat)
    (h1 : r.caches = σ0)
    (h2 : ∀ (j : Nat) (p : String) (b : Bool), cands[j]? = some p →
        r.states[j]? = some (CandState.done b) → b = candMatches fs o p) :
    (asyncStep fs o cands r i t).caches = σ0
    ∧ ∀ (j : Nat) (p : String) (b : Bool), cands[j]? = some p →
        (asyncStep fs o cands r i t).states[j]? = some (CandState.done b)
        → b = candMatches fs o p := by
  cases hc : cands[i]? with
  | none => rw [asyncStep_of_oob _ _ _ _ _ _ (Or.inl hc)]; exact ⟨h1, h2⟩
  | some p =>
    cases hs : r.states[i]? with
    | none => rw [asyncStep_of_oob _ _ _ _ _ _ (Or.inr hs)]; exact ⟨h1, h2⟩
    | some s =>
      cases s with
      | idle =>
        rw [asyncStep_of_idle_none fs o cands r i t p r.caches hc hs
          (asyncReadPhase_nocache o (candidateKey o p) t r.caches hu)]
        refine ⟨h1, ?_⟩
        intro j q b hq hb
        by_cases hij : j = i
        · subst hij
          by_cases hjl : j < r.states.length
          · rw [List.getElem?_set_self hjl] at hb; cases hb
          · rw [List.getElem?_eq_none (by simp only [List.length_set]; omega)] at hb
            cases hb
        · rw [List.getElem?_set_ne (fun hc' => hij hc'.symm)] at hb
          exact h2 j q b hq hb
      | pendingWrite =>
        have hw : asyncWritePhase (statFn fs o) o (resolveCandidate o.cwd p)
            (candidateKey o p) t r.caches = (candMatches fs o p, r.caches) := by
          rw [asyncWritePhase_eq_checkPathSync, hu, checkPathSync_nocache]
          rfl
        rw [asyncStep_of_pending fs o cands r i t p hc hs, hw]
        refine ⟨h1, ?_⟩
        intro j q b hq hb
        by_cases hij : j = i
        · subst hij
          have hqp : q = p := by
            rw [hq] at hc
            cases hc
            rfl
          subst hqp
          by_cases hjl : j < r.states.length
          · rw [List.getElem?_set_self hjl] at hb
            cases hb
            rfl
          · rw [List.getElem?_eq_none (by simp only [List.length_set]; omega)] at hb
            cases hb
        · rw [List.getElem?_set_ne (fun hc' => hij hc'.symm)] at hb
          exact h2 j q b hq hb
      | done b0 =>
        rw [asyncStep_of_done _ _ _ _ _ _ b0 hs]
        exact ⟨h1, h2⟩

theorem runSched_nocache_inv (fs : Bool → String → StatResult) (o : LocateOpts)
    (cands : List String) (σ0 : Caches) (hu : o.useCache = false) :
    ∀ (s : List (Nat × Nat)) (r : AsyncRun), r.caches = σ0 →
    (∀ (j : Nat) (p : String) (b : Bool), cands[j]? = some p →
        r.states[j]? = some (CandState.done b) → b = candMatches fs o p) →
    (runSched fs o cands s r).caches = σ0
    ∧ ∀ (j : Nat) (p : String) (b : Bool), cands[j]? = some p →
        (runSched fs o cands s r).states[j]? = some (CandState.done b)
        → b = candMatches fs o p := by
  intro s
  induction s with
  | nil => intro r h1 h2; exact ⟨h1, h2⟩
  | cons st s ih =>
    intro r h1 h2
    have hstep := asyncStep_nocache_inv fs o cands σ0 hu r st.1 st.2 h1 h2
    exact ih _ hstep.1 hstep.2

/-- **C9.** With `useCache = false` neither locator reads or writes either
global cache: the cache pair after the call is exactly the one before it —
for the asynchronous locator under every schedule — and the result is
computed from filesystem probes alone (the first candidate whose probe
matches the requested type). -/
theorem useCache_false_frame (fs : Bool → String → StatResult) (o : LocateOpts)
    (now : Nat) (paths : List String) (σ : Caches) (sched : List (Nat × Nat))
    (hu : o.useCache = false) :
    ((locatePathSyncFrom fs o now paths σ 0).1 = List.find? (candMatches fs o) paths
      ∧ (locatePathSyncFrom fs o now paths σ 0).2.1 = σ)
    ∧ ((locatePathRun fs o paths sched now σ).caches = σ
      ∧ asyncResult paths (locatePathRun fs o paths sched now σ).states
          = List.find? (candMatches fs o) paths) := by
  refine ⟨locatePathSyncFrom_nocache fs o now hu paths σ 0, ?_, ?_⟩
  · unfold locatePathRun
    exact (runSched_nocache_inv fs o paths σ hu _ _ rfl (by
      intro j p b hp hb
      unfold initAsyncRun at hb
      rw [List.getElem?_replicate] at hb
      split at hb <;> cases hb)).1
  · have hinv := runSched_nocache_inv fs o paths σ hu
      (sched ++ completingSched paths.length now) (initAsyncRun σ paths.length) rfl (by
      intro j p b hp hb
      unfold initAsyncRun at hb
      rw [List.getElem?_replicate] at hb
      split at hb <;> cases hb)
    apply asyncResult_eq_find
    · unfold locatePathRun
      rw [runSched_states_length]
      simp [initAsyncRun]
    · intro i p hp
      have hi : i < paths.length := by
        have := List.getElem?_eq_some.mp hp
        exact this.1
      obtain ⟨b, hb⟩ := locatePathRun_all_done fs o paths sched now σ i hi
      have := hinv.2 i p b hp hb
      rw [hb, this]

/-- Witness for `useCache_false_frame` at a concrete empty filesystem. -/
theorem useCache_false_frame_witness :
    ((locatePathSyncFrom (fun _ _ => StatResult.notFound)
        (LocateOpts.mk "/c" "file" true false) 3 ["a"] initialCaches 0).1
      = List.find? (candMatches (fun _ _ => StatResult.notFound)
          (LocateOpts.mk "/c" "file" true false)) ["a"]
      ∧ (locatePathSyncFrom (fun _ _ => StatResult.notFound)
          (LocateOpts.mk "/c" "file" true false) 3 ["a"] initialCaches 0).2.1 = initialCaches)
    ∧ ((locatePathRun (fun _ _ => StatResult.notFound)
          (LocateOpts.mk "/c" "file" true false) ["a"] [] 3 initialCaches).caches = initialCaches
      ∧ asyncResult ["a"] (locatePathRun (fun _ _ => StatResult.notFound)
          (LocateOpts.mk "/c" "file" true false) ["a"] [] 3 initialCaches).states
          = List.find? (candMatches (fun _ _ => StatResult.notFound)
              (LocateOpts.mk "/c" "file" true false)) ["a"]) :=
  useCache_false_frame (fun _ _ => StatResult.notFound)
    (LocateOpts.mk "/c" "file" true false) 3 ["a"] initialCaches [] rfl

/-! ## Cache lookup preservation -/

theorem mapGet_single_other (k k' : String) (e : Entry) (hk : k' ≠ k) :
    mapGet [(k, e)] k' = none := by
  rw [mapGet_cons, if_neg (fun h => hk h.symm)]
  rfl

theorem or_single_other (x : Option Entry) (k k' : String) (e : Entry) (hk : k' ≠ k) :
    x.or (mapGet [(k, e)] k') = x := by
  rw [mapGet_single_other k k' e hk, Option.or_none]

theorem mapGet_single_self (k : String) (e : Entry) :
    mapGet [(k, e)] k = some e := by
  rw [mapGet_cons, if_pos rfl]

theorem lookup_after_get (c : LRUCache) (k : String) (t : Nat) (k' : String) :
    mapGet ((c.get k t).2).entries k' = mapGet c.entries k'
    ∨ mapGet ((c.get k t).2).entries k' = none := by
  cases hg : mapGet c.entries k with
  | none => rw [get_of_miss c k t hg]; left; rfl
  | some e =>
    by_cases hexp : t - e.timestamp > c.ttl
    · rw [get_of_expired c k t e hg hexp]
      by_cases hk : k' = k
      · subst hk; right; exact mapGet_mapDelete_self c.entries k'
      · left; exact mapGet_mapDelete_other c.entries k k' hk
    · rw [get_of_hit c k t e hg hexp]
      by_cases hk : k' = k
      · subst hk
        left
        rw [mapGet_append, mapGet_mapDelete_self, Option.none_or, mapGet_single_self, hg]
      · left
        rw [mapGet_append, mapGet_mapDelete_other c.entries k k' hk,
          or_single_other _ _ _ _ hk]

theorem set_of_nil (c : LRUCache) (k : String) (v : Bool) (t : Nat) (he : c.entries = []) :
    c.set k v t = { c with entries := [(k, Entry.mk v t)] } := by
  unfold LRUCache.set
  rw [he]
  simp only [List.any_nil, Bool.false_eq_true, if_false, List.length_nil, ge_iff_le]
  by_cases hm : c.maxSize ≤ 0
  · rw [if_pos hm]
    rw [mapSet_of_absent _ _ _ (by rfl)]
    rfl
  · rw [if_neg hm]
    rw [mapSet_of_absent _ _ _ (by rfl)]
    rfl

theorem set_lookup_other (c : LRUCache) (k : String) (v : Bool) (t : Nat) (k' : String)
    (hk : k' ≠ k) :
    mapGet (c.set k v t).entries k' = mapGet c.entries k'
    ∨ mapGet (c.set k v t).entries k' = none := by
  cases hg : mapGet c.entries k with
  | some e =>
    rw [set_of_present c k v t (by rw [hg]; rfl)]
    left
    rw [mapGet_append, mapGet_mapDelete_other c.entries k k' hk,
      or_single_other _ _ _ _ hk]
  | none =>
    by_cases hr : c.entries.length < c.maxSize
    · rw [set_of_absent_room c k v t hg hr]
      left
      rw [mapGet_append, or_single_other _ _ _ _ hk]
    · cases he : c.entries with
      | nil =>
        rw [set_of_nil c k v t he]
        right
        exact mapGet_single_other k k' _ hk
      | cons e0 rest =>
        rw [set_of_absent_full c k v t e0 rest hg (le_of_not_lt hr) he]
        rw [mapGet_append, or_single_other _ _ _ _ hk]
        by_cases hk0 : k' = e0.1
        · right
          rw [hk0]
          exact mapGet_mapDelete_self c.entries e0.1
        · left
          rw [← he]
          exact mapGet_mapDelete_other c.entries e0.1 k' hk0

theorem freshVal_some (c : LRUCache) (k : String) (t : Nat) (v : Bool)
    (h : freshVal c k t = some v) :
    ∃ e, mapGet c.entries k = some e ∧ e.value = v := by
  unfold freshVal at h
  cases hg : mapGet c.entries k with
  | none => rw [hg] at h; cases h
  | some e =>
    rw [hg] at h
    dsimp only at h
    by_cases hexp : t - e.timestamp > c.ttl
    · rw [if_pos hexp] at h; cases h
    · rw [if_neg hexp] at h
      cases h
      exact ⟨e, rfl, rfl⟩

/-! ## Cache-filesystem consistency -/

/-- The caches agree with the filesystem on every key the current query
semantics (`type`, `allowSymlinks`) can read: a positive entry stores the
probe answer, a negative entry stores `false` and certifies a failing
probe. -/
def Consistent (stat : String → StatResult) (type : String) (allow : Bool) (σ : Caches) : Prop :=
  (∀ (rp : String) (e : Entry),
      mapGet σ.statCache.entries (mkCacheKey rp type allow) = some e →
      e.value = probeMatches stat type rp)
  ∧ (∀ (rp : String) (e : Entry),
      mapGet σ.negativeCache.entries (mkCacheKey rp type allow) = some e →
      e.value = false ∧ probeMatches stat type rp = false)

theorem consistent_initial (stat : String → StatResult) (type : String) (allow : Bool) :
    Consistent stat type allow initialCaches := by
  constructor <;> intro rp e he <;> cases he

theorem consistent_negGet (stat : String → StatResult) (type : String) (allow : Bool)
    (σ : Caches) (k : String) (t : Nat) (h : Consistent stat type allow σ) :
    Consistent stat type allow { σ with negativeCache := (σ.negativeCache.get k t).2 } := by
  constructor
  · exact h.1
  · intro rp e he
    rcases lookup_after_get σ.negativeCache k t (mkCacheKey rp type allow) with hl | hl
    · rw [hl] at he; exact h.2 rp e he
    · rw [hl] at he; cases he

theorem consistent_posGet (stat : String → StatResult) (type : String) (allow : Bool)
    (σ : Caches) (k : String) (t : Nat) (h : Consistent stat type allow σ) :
    Consistent stat type allow { σ with statCache := (σ.statCache.get k t).2 } := by
  constructor
  · intro rp e he
    rcases lookup_after_get σ.statCache k t (mkCacheKey rp type allow) with hl | hl
    · rw [hl] at he; exact h.1 rp e he
    · rw [hl] at he; cases he
  · exact h.2

theorem consistent_setNeg (stat : String → StatResult) (type : String) (allow : Bool)
    (σ : Caches) (rp0 : String) (t : Nat) (h : Consistent stat type allow σ)
    (hv : probeMatches stat type rp0 = false) :
    Consistent stat type allow (setNeg σ (mkCacheKey rp0 type allow) t) := by
  constructor
  · exact h.1
  · intro rp e he
    by_cases hk : mkCacheKey rp type allow = mkCacheKey rp0 type allow
    · have hrp : rp = rp0 := mkCacheKey_rp_inj rp rp0 type allow hk
      subst hrp
      rw [hk] at he
      unfold setNeg at he
      rw [set_lookup_self] at he
      cases he
      exact ⟨rfl, hv⟩
    · unfold setNeg at he
      rcases set_lookup_other σ.negativeCache (mkCacheKey rp0 type allow) false t
        (mkCacheKey rp type allow) hk with hl | hl
      · rw [hl] at he; exact h.2 rp e he
      · rw [hl] at he; cases he

theorem consistent_setPos (stat : String → StatResult) (type : String) (allow : Bool)
    (σ : Caches) (rp0 : String) (v : Bool) (t : Nat) (h : Consistent stat type allow σ)
    (hv : v = probeMatches stat type rp0) :
    Consistent stat type allow (setPos σ (mkCacheKey rp0 type allow) v t) := by
  constructor
  · intro rp e he
    by_cases hk : mkCacheKey rp type allow = mkCacheKey rp0 type allow
    · have hrp : rp = rp0 := mkCacheKey_rp_inj rp rp0 type allow hk
      subst hrp
      rw [hk] at he
      unfold setPos at he
      rw [set_lookup_self] at he
      cases he
      exact hv
    · unfold setPos at he
      rcases set_lookup_other σ.statCache (mkCacheKey rp0 type allow) v t
        (mkCacheKey rp type allow) hk with hl | hl
      · rw [hl] at he; exact h.1 rp e he
      · rw [hl] at he; cases he
  · exact h.2

theorem consistent_checkPathSync (stat : String → StatResult) (type : String) (uc : Bool)
    (rp0 : String) (allow : Bool) (t : Nat) (σ : Caches) (h : Consistent stat type allow σ) :
    Consistent stat type allow
      (checkPathSync stat type uc rp0 (mkCacheKey rp0 type allow) t σ).2 := by
  unfold checkPathSync
  cases hp : stat rp0 with
  | found st =>
    by_cases hm : matchType type st
    · simp only [hm, if_true]
      cases uc with
      | true =>
        simp only [if_true]
        exact consistent_setPos stat type allow σ rp0 true t h (by
          unfold probeMatches
          rw [hp]
          dsimp only
          exact hm.symm)
      | false => simpa using h
    · simp only [hm, if_false]
      cases uc with
      | true =>
        simp only [if_true]
        exact consistent_setNeg stat type allow σ rp0 t h (by
          unfold probeMatches
          rw [hp]
          dsimp only
          simp [hm])
      | false => simpa using h
  | notFound =>
    cases uc with
    | true =>
      simp only [if_true]
      exact consistent_setNeg stat type allow σ rp0 t h (by
        unfold probeMatches
        rw [hp])
    | false => simpa using h
  | ioError =>
    cases uc with
    | true =>
      simp only [if_true]
      exact consistent_setNeg stat type allow σ rp0 t h (by unfold probeMatches; rw [hp])
    | false => simpa using h

theorem readPhase_consistent (fs : Bool → String → StatResult) (o : LocateOpts)
    (p : String) (now : Nat) (σ : Caches)
    (h : Consistent (statFn fs o) o.type o.allowSymlinks σ) :
    (∀ (b : Bool) (σ' : Caches), asyncReadPhase o (candidateKey o p) now σ = (some b, σ') →
        b = candMatches fs o p ∧ Consistent (statFn fs o) o.type o.allowSymlinks σ')
    ∧ (∀ σ' : Caches, asyncReadPhase o (candidateKey o p) now σ = (none, σ') →
        Consistent (statFn fs o) o.type o.allowSymlinks σ') := by
  by_cases hu : o.useCache
  · unfold asyncReadPhase
    simp only [hu, if_true]
    rcases hng : σ.negativeCache.get (candidateKey o p) now with ⟨r, neg'⟩
    dsimp only
    have hr : r = freshVal σ.negativeCache (candidateKey o p) now := by
      have hf := get_fst σ.negativeCache (candidateKey o p) now
      rw [hng] at hf
      exact hf
    have hσ1 : Consistent (statFn fs o) o.type o.allowSymlinks
        (Caches.mk σ.statCache neg') := by
      have hcg := consistent_negGet (statFn fs o) o.type o.allowSymlinks σ
        (candidateKey o p) now h
      rw [hng] at hcg
      exact hcg
    by_cases hrf : r = some false
    · rw [if_pos hrf]
      constructor
      · intro b σ' hh
        injection hh with h1 h2
        injection h1 with h1
        subst h1
        subst h2
        refine ⟨?_, hσ1⟩
        rw [hrf] at hr
        obtain ⟨e, hmap, hval⟩ := freshVal_some σ.negativeCache (candidateKey o p) now false hr.symm
        have := h.2 (resolveCandidate o.cwd p) e hmap
        unfold candMatches
        rw [this.2]
      · intro σ' hh
        injection hh with h1 h2
        cases h1
    · rw [if_neg hrf]
      rcases hpg : σ.statCache.get (candidateKey o p) now with ⟨c, pos'⟩
      dsimp only
      have hc : c = freshVal σ.statCache (candidateKey o p) now := by
        have hf := get_fst σ.statCache (candidateKey o p) now
        rw [hpg] at hf
        exact hf
      have hσ2 : Consistent (statFn fs o) o.type o.allowSymlinks
          (Caches.mk pos' neg') := by
        have hcg := consistent_posGet (statFn fs o) o.type o.allowSymlinks
          (Caches.mk σ.statCache neg') (candidateKey o p) now hσ1
        rw [hpg] at hcg
        exact hcg
      constructor
      · intro b σ' hh
        injection hh with h1 h2
        subst h2
        refine ⟨?_, hσ2⟩
        obtain ⟨e, hmap, hval⟩ := freshVal_some σ.statCache (candidateKey o p) now b
          (by rw [← hc, h1])
        have := h.1 (resolveCandidate o.cwd p) e hmap
        unfold candMatches
        rw [← this, hval]
      · intro σ' hh
        injection hh with h1 h2
        subst h2
        exact hσ2
  · have hu' : o.useCache = false := by simpa using hu
    rw [asyncReadPhase_nocache o (candidateKey o p) now σ hu']
    constructor
    · intro b σ' hh
      cases hh
    · intro σ' hh
      injection hh with h1 h2
      subst h2
      exact h

theorem writePhase_consistent (fs : Bool → String → StatResult) (o : LocateOpts)
    (p : String) (now : Nat) (σ : Caches)
    (h : Consistent (statFn fs o) o.type o.allowSymlinks σ) :
    (asyncWritePhase (statFn fs o) o (resolveCandidate o.cwd p) (candidateKey o p) now σ).1
        = candMatches fs o p
    ∧ Consistent (statFn fs o) o.type o.allowSymlinks
        (asyncWritePhase (statFn fs o) o (resolveCandidate o.cwd p) (candidateKey o p) now σ).2 := by
  rw [asyncWritePhase_eq_checkPathSync]
  constructor
  · rw [checkPathSync_fst]
    rfl
  · exact consistent_checkPathSync (statFn fs o) o.type o.useCache
      (resolveCandidate o.cwd p) o.allowSymlinks now σ h

theorem syncCheckOne_consistent (fs : Bool → String → StatResult) (o : LocateOpts)
    (now : Nat) (σ : Caches) (p : String)
    (h : Consistent (statFn fs o) o.type o.allowSymlinks σ) :
    (syncCheckOne fs o now σ p).1 = candMatches fs o p
    ∧ Consistent (statFn fs o) o.type o.allowSymlinks (syncCheckOne fs o now σ p).2.1 := by
  rcases hrp : asyncReadPhase o (candidateKey o p) now σ with ⟨ob, σ'⟩
  cases ob with
  | some b =>
    rw [syncCheckOne_of_read_some fs o now σ σ' p b hrp]
    have hres := (readPhase_consistent fs o p now σ h).1 b σ' hrp
    exact ⟨hres.1, hres.2⟩
  | none =>
    rw [syncCheckOne_of_read_none fs o now σ σ' p hrp]
    have hσ' := (readPhase_consistent fs o p now σ h).2 σ' hrp
    have hw := writePhase_consistent fs o p now σ' hσ'
    rw [asyncWritePhase_eq_checkPathSync] at hw
    exact ⟨hw.1, hw.2⟩

theorem locatePathSyncFrom_consistent (fs : Bool → String → StatResult) (o : LocateOpts)
    (now : Nat) : ∀ (paths : List String) (σ : Caches) (n : Nat),
    Consistent (statFn fs o) o.type o.allowSymlinks σ →
    (locatePathSyncFrom fs o now paths σ n).1 = List.find? (candMatches fs o) paths
    ∧ Consistent (statFn fs o) o.type o.allowSymlinks
        (locatePathSyncFrom fs o now paths σ n).2.1 := by
  intro paths
  induction paths with
  | nil => intro σ n h; exact ⟨rfl, h⟩
  | cons p rest ih =>
    intro σ n h
    have hstep := syncCheckOne_consistent fs o now σ p h
    simp only [locatePathSyncFrom]
    rw [List.find?_cons]
    rcases hr : syncCheckOne fs o now σ p with ⟨b, σ', m⟩
    rw [hr] at hstep
    dsimp only at hstep ⊢
    rw [← hstep.1]
    cases b with
    | true => exact ⟨rfl, hstep.2⟩
    | false => exact ih σ' (n + m) hstep.2

theorem asyncStep_cons_inv (fs : Bool → String → StatResult) (o : LocateOpts)
    (cands : List String) (r : AsyncRun) (i t : Nat)
    (h1 : Consistent (statFn fs o) o.type o.allowSymlinks r.caches)
    (h2 : ∀ (j : Nat) (p : String) (b : Bool), cands[j]? = some p →
        r.states[j]? = some (CandState.done b) → b = candMatches fs o p) :
    Consistent (statFn fs o) o.type o.allowSymlinks (asyncStep fs o cands r i t).caches
    ∧ ∀ (j : Nat) (p : String) (b : Bool), cands[j]? = some p →
        (asyncStep fs o cands r i t).states[j]? = some (CandState.done b)
        → b = candMatches fs o p := by
  cases hc : cands[i]? with
  | none => rw [asyncStep_of_oob _ _ _ _ _ _ (Or.inl hc)]; exact ⟨h1, h2⟩
  | some p =>
    cases hs : r.states[i]? with
    | none => rw [asyncStep_of_oob _ _ _ _ _ _ (Or.inr hs)]; exact ⟨h1, h2⟩
    | some s =>
      cases s with
      | idle =>
        rcases hrp : asyncReadPhase o (candidateKey o p) t r.caches with ⟨ob, σ'⟩
        cases ob with
        | some b =>
          rw [asyncStep_of_idle_some fs o cands r i t p b σ' hc hs hrp]
          have hres := (readPhase_consistent fs o p t r.caches h1).1 b σ' hrp
          refine ⟨hres.2, ?_⟩
          intro j q b' hq hb
          by_cases hij : j = i
          · subst hij
            have hqp : q = p := by rw [hq] at hc; cases hc; rfl
            subst hqp
            by_cases hjl : j < r.states.length
            · rw [List.getElem?_set_self hjl] at hb
              injection hb with hb
              injection hb with hb
              rw [← hb]
              exact hres.1
            · rw [List.getElem?_eq_none (by simp only [List.length_set]; omega)] at hb
              cases hb
          · rw [List.getElem?_set_ne (fun hc' => hij hc'.symm)] at hb
            exact h2 j q b' hq hb
        | none =>
          rw [asyncStep_of_idle_none fs o cands r i t p σ' hc hs hrp]
          have hres := (readPhase_consistent fs o p t r.caches h1).2 σ' hrp
          refine ⟨hres, ?_⟩
          intro j q b' hq hb
          by_cases hij : j = i
          · subst hij
            by_cases hjl : j < r.states.length
            · rw [List.getElem?_set_self hjl] at hb; cases hb
            · rw [List.getElem?_eq_none (by simp only [List.length_set]; omega)] at hb
              cases hb
          · rw [List.getElem?_set_ne (fun hc' => hij hc'.symm)] at hb
            exact h2 j q b' hq hb
      | pendingWrite =>
        rw [asyncStep_of_pending fs o cands r i t p hc hs]
        have hw := writePhase_consistent fs o p t r.caches h1
        refine ⟨hw.2, ?_⟩
        intro j q b' hq hb
        by_cases hij : j = i
        · subst hij
          have hqp : q = p := by rw [hq] at hc; cases hc; rfl
          subst hqp
          by_cases hjl : j < r.states.length
          · rw [List.getElem?_set_self hjl] at hb
            injection hb with hb
            injection hb with hb
            rw [← hb]
            exact hw.1
          · rw [List.getElem?_eq_none (by simp only [List.length_set]; omega)] at hb
            cases hb
        · rw [List.getElem?_set_ne (fun hc' => hij hc'.symm)] at hb
          exact h2 j q b' hq hb
      | done b0 =>
        rw [asyncStep_of_done _ _ _ _ _ _ b0 hs]
        exact ⟨h1, h2⟩

theorem runSched_cons_inv (fs : Bool → String → StatResult) (o : LocateOpts)
    (cands : List String) : ∀ (s : List (Nat × Nat)) (r : AsyncRun),
    Consistent (statFn fs o) o.type o.allowSymlinks r.caches →
    (∀ (j : Nat) (p : String) (b : Bool), cands[j]? = some p →
        r.states[j]? = some (CandState.done b) → b = candMatches fs o p) →
    Consistent (statFn fs o) o.type o.allowSymlinks (runSched fs o cands s r).caches
    ∧ ∀ (j : Nat) (p : String) (b : Bool), cands[j]? = some p →
        (runSched fs o cands s r).states[j]? = some (CandState.done b)
        → b = candMatches fs o p := by
  intro s
  induction s with
  | nil => intro r h1 h2; exact ⟨h1, h2⟩
  | cons st s ih =>
    intro r h1 h2
    have hstep := asyncStep_cons_inv fs o cands r st.1 st.2 h1 h2
    exact ih _ hstep.1 hstep.2

/-- **C1.** With a valid type selector and caches consistent with the
filesystem, the asynchronous locator — under every schedule, hence under
every concurrency bound, with `preserveOrder` semantics (the `p-locate`
default) — resolves to the lowest-index matching candidate, which is
exactly what the synchronous locator returns; with no matching candidate
both return absent. -/
theorem async_matches_sync_preserveOrder (fs : Bool → String → StatResult) (o : LocateOpts)
    (cands : List String) (sched : List (Nat × Nat)) (now : Nat) (σ : Caches)
    (hv : validType o.type = true)
    (hc : Consistent (statFn fs o) o.type o.allowSymlinks σ) :
    Except.map (fun r => r.1) (locatePath fs o cands sched now σ)
      = Except.ok (List.find? (candMatches fs o) cands)
    ∧ Except.map (fun r => r.1) (locatePathSync fs o now cands σ)
      = Except.ok (List.find? (candMatches fs o) cands) := by
  constructor
  · unfold locatePath
    rw [hv]
    simp only [if_true, Except.map]
    congr 1
    have hinv := runSched_cons_inv fs o cands
      (sched ++ completingSched cands.length now) (initAsyncRun σ cands.length) hc (by
      intro j p b hp hb
      unfold initAsyncRun at hb
      rw [List.getElem?_replicate] at hb
      split at hb <;> cases hb)
    apply asyncResult_eq_find
    · unfold locatePathRun
      rw [runSched_states_length]
      simp [initAsyncRun]
    · intro i p hp
      have hi : i < cands.length := (List.getElem?_eq_some.mp hp).1
      obtain ⟨b, hb⟩ := locatePathRun_all_done fs o cands sched now σ i hi
      have := hinv.2 i p b hp hb
      rw [hb, this]
  · unfold locatePathSync
    rw [hv]
    simp only [if_true, Except.map]
    congr 1
    exact (locatePathSyncFrom_consistent fs o now cands σ 0 hc).1

/-- Witness for `async_matches_sync_preserveOrder`: one existing file at
index 1, empty caches, empty extra schedule. -/
theorem async_matches_sync_preserveOrder_witness :
    Except.map (fun r => r.1) (locatePath
        (fun _ q => if q = "/c/b" then StatResult.found (Stats.mk true false) else StatResult.notFound)
        (LocateOpts.mk "/c" "file" true true) ["a", "b"] [] 5 initialCaches)
      = Except.ok (List.find? (candMatches
          (fun _ q => if q = "/c/b" then StatResult.found (Stats.mk true false) else StatResult.notFound)
          (LocateOpts.mk "/c" "file" true true)) ["a", "b"])
    ∧ Except.map (fun r => r.1) (locatePathSync
        (fun _ q => if q = "/c/b" then StatResult.found (Stats.mk true false) else StatResult.notFound)
        (LocateOpts.mk "/c" "file" true true) 5 ["a", "b"] initialCaches)
      = Except.ok (List.find? (candMatches
          (fun _ q => if q = "/c/b" then StatResult.found (Stats.mk true false) else StatResult.notFound)
          (LocateOpts.mk "/c" "file" true true)) ["a", "b"]) :=
  async_matches_sync_preserveOrder
    (fun _ q => if q = "/c/b" then StatResult.found (Stats.mk true false) else StatResult.notFound)
    (LocateOpts.mk "/c" "file" true true) ["a", "b"] [] 5 initialCaches (by decide)
    (consistent_initial _ _ _)

/-- **C2.** With a valid type selector and caches consistent with the
filesystem, the synchronous locator is a pure sequential scan: it returns
the first candidate (in list order) whose resolved path matches the
requested type, and absent when none does; the returned value is the
original candidate element, a member of the input list, not the resolved
path. -/
theorem syncLocator_first_match (fs : Bool → String → StatResult) (o : LocateOpts)
    (now : Nat) (paths : List String) (σ : Caches)
    (hv : validType o.type = true)
    (hc : Consistent (statFn fs o) o.type o.allowSymlinks σ) :
    Except.map (fun r => r.1) (locatePathSync fs o now paths σ)
      = Except.ok (List.find? (candMatches fs o) paths)
    ∧ ∀ c, List.find? (candMatches fs o) paths = some c →
        c ∈ paths ∧ candMatches fs o c = true := by
  constructor
  · unfold locatePathSync
    rw [hv]
    simp only [if_true, Except.map]
    congr 1
    exact (locatePathSyncFrom_consistent fs o now paths σ 0 hc).1
  · intro c hfind
    exact ⟨List.mem_of_find?_eq_some hfind, by simpa using List.find?_some hfind⟩

/-- Witness for `syncLocator_first_match`: the first existing candidate is
returned as the original list element. -/
theorem syncLocator_first_match_witness :
    Except.map (fun r => r.1) (locatePathSync
        (fun _ _ => StatResult.found (Stats.mk true false))
        (LocateOpts.mk "/c" "file" true true) 5 ["x", "y"] initialCaches)
      = Except.ok (List.find? (candMatches
          (fun _ _ => StatResult.found (Stats.mk true false))
          (LocateOpts.mk "/c" "file" true true)) ["x", "y"]) :=
  (syncLocator_first_match (fun _ _ => StatResult.found (Stats.mk true false))
    (LocateOpts.mk "/c" "file" true true) 5 ["x", "y"] initialCaches (by decide)
    (consistent_initial _ _ _)).1

/-! ## Cache value discipline -/

/-- The positive cache only ever stores `true`; the negative cache only
`false`. -/
def ValuesOk (σ : Caches) : Prop :=
  (∀ q ∈ σ.statCache.entries, q.2.value = true)
  ∧ (∀ q ∈ σ.negativeCache.entries, q.2.value = false)

theorem mem_after_get (c : LRUCache) (k : String) (t : Nat) (q : String × Entry)
    (hq : q ∈ ((c.get k t).2).entries) : q ∈ c.entries := by
  cases hg : mapGet c.entries k with
  | none => rw [get_of_miss c k t hg] at hq; exact hq
  | some e =>
    by_cases hexp : t - e.timestamp > c.ttl
    · rw [get_of_expired c k t e hg hexp] at hq
      exact List.mem_of_mem_filter hq
    · rw [get_of_hit c k t e hg hexp] at hq
      rcases List.mem_append.mp hq with hq | hq
      · exact List.mem_of_mem_filter hq
      · rcases List.mem_singleton.mp hq with rfl
        exact mapGet_mem c.entries k e hg

theorem mem_after_set (c : LRUCache) (k : String) (v : Bool) (t : Nat) (q : String × Entry)
    (hq : q ∈ (c.set k v t).entries) : q ∈ c.entries ∨ q = (k, Entry.mk v t) := by
  cases hg : mapGet c.entries k with
  | some e =>
    rw [set_of_present c k v t (by rw [hg]; rfl)] at hq
    rcases List.mem_append.mp hq with hq | hq
    · exact Or.inl (List.mem_of_mem_filter hq)
    · exact Or.inr (List.mem_singleton.mp hq)
  | none =>
    by_cases hr : c.entries.length < c.maxSize
    · rw [set_of_absent_room c k v t hg hr] at hq
      rcases List.mem_append.mp hq with hq | hq
      · exact Or.inl hq
      · exact Or.inr (List.mem_singleton.mp hq)
    · cases he : c.entries with
      | nil =>
        rw [set_of_nil c k v t he] at hq
        exact Or.inr (List.mem_singleton.mp hq)
      | cons e0 rest =>
        rw [set_of_absent_full c k v t e0 rest hg (le_of_not_lt hr) he] at hq
        rcases List.mem_append.mp hq with hq | hq
        · refine Or.inl ?_
          rw [← he]
          exact List.mem_of_mem_filter hq
        · exact Or.inr (List.mem_singleton.mp hq)

theorem valuesOk_negGet (σ : Caches) (k : String) (t : Nat) (h : ValuesOk σ) :
    ValuesOk (Caches.mk σ.statCache (σ.negativeCache.get k t).2) := by
  exact ⟨h.1, fun q hq => h.2 q (mem_after_get σ.negativeCache k t q hq)⟩

theorem valuesOk_posGet (σ : Caches) (neg : LRUCache) (k : String) (t : Nat)
    (h : ValuesOk (Caches.mk σ.statCache neg)) :
    ValuesOk (Caches.mk (σ.statCache.get k t).2 neg) := by
  exact ⟨fun q hq => h.1 q (mem_after_get σ.statCache k t q hq), h.2⟩

theorem valuesOk_setNeg (σ : Caches) (k : String) (t : Nat) (h : ValuesOk σ) :
    ValuesOk (setNeg σ k t) := by
  refine ⟨h.1, ?_⟩
  intro q hq
  rcases mem_after_set σ.negativeCache k false t q hq with hm | rfl
  · exact h.2 q hm
  · rfl

theorem valuesOk_setPos (σ : Caches) (k : String) (t : Nat) (h : ValuesOk σ) :
    ValuesOk (setPos σ k true t) := by
  refine ⟨?_, h.2⟩
  intro q hq
  rcases mem_after_set σ.statCache k true t q hq with hm | rfl
  · exact h.1 q hm
  · rfl

theorem valuesOk_checkPathSync (stat : String → StatResult) (type : String) (uc : Bool)
    (rp key : String) (t : Nat) (σ : Caches) (h : ValuesOk σ) :
    ValuesOk (checkPathSync stat type uc rp key t σ).2 := by
  unfold checkPathSync
  cases stat rp with
  | found st =>
    by_cases hm : matchType type st
    · simp only [hm, if_true]
      cases uc with
      | true => simpa using valuesOk_setPos σ key t h
      | false => simpa using h
    · simp only [hm, if_false]
      cases uc with
      | true => simpa using valuesOk_setNeg σ key t h
      | false => simpa using h
  | notFound =>
    cases uc with
    | true => simpa using valuesOk_setNeg σ key t h
    | false => simpa using h
  | ioError =>
    cases uc with
    | true => simpa using valuesOk_setNeg σ key t h
    | false => simpa using h

theorem valuesOk_readPhase (o : LocateOpts) (key : String) (t : Nat) (σ : Caches)
    (h : ValuesOk σ) : ValuesOk (asyncReadPhase o key t σ).2 := by
  unfold asyncReadPhase
  by_cases hu : o.useCache
  · simp only [hu, if_true]
    rcases hng : σ.negativeCache.get key t with ⟨r, neg'⟩
    dsimp only
    have h1 : ValuesOk (Caches.mk σ.statCache neg') := by
      have := valuesOk_negGet σ key t h
      rw [hng] at this
      exact this
    by_cases hrf : r = some false
    · rw [if_pos hrf]
      exact h1
    · rw [if_neg hrf]
      rcases hpg : σ.statCache.get key t with ⟨c, pos'⟩
      dsimp only
      have := valuesOk_posGet σ neg' key t h1
      rw [hpg] at this
      exact this
  · simp only [hu]
    simpa using h

theorem valuesOk_syncCheckOne (fs : Bool → String → StatResult) (o : LocateOpts)
    (now : Nat) (σ : Caches) (p : String) (h : ValuesOk σ) :
    ValuesOk (syncCheckOne fs o now σ p).2.1 := by
  rcases hrp : asyncReadPhase o (candidateKey o p) now σ with ⟨ob, σ'⟩
  have hσ' : ValuesOk σ' := by
    have := valuesOk_readPhase o (candidateKey o p) now σ h
    rw [hrp] at this
    exact this
  cases ob with
  | some b =>
    rw [syncCheckOne_of_read_some fs o now σ σ' p b hrp]
    exact hσ'
  | none =>
    rw [syncCheckOne_of_read_none fs o now σ σ' p hrp]
    exact valuesOk_checkPathSync _ _ _ _ _ _ _ hσ'

theorem valuesOk_syncFrom (fs : Bool → String → StatResult) (o : LocateOpts) (now : Nat) :
    ∀ (paths : List String) (σ : Caches) (n : Nat), ValuesOk σ →
    ValuesOk (locatePathSyncFrom fs o now paths σ n).2.1 := by
  intro paths
  induction paths with
  | nil => intro σ n h; exact h
  | cons p rest ih =>
    intro σ n h
    have hstep := valuesOk_syncCheckOne fs o now σ p h
    simp only [locatePathSyncFrom]
    rcases hr : syncCheckOne fs o now σ p with ⟨b, σ', m⟩
    rw [hr] at hstep
    cases b with
    | true => exact hstep
    | false => exact ih σ' (n + m) hstep

theorem valuesOk_asyncStep (fs : Bool → String → StatResult) (o : LocateOpts)
    (cands : List String) (r : AsyncRun) (i t : Nat) (h : ValuesOk r.caches) :
    ValuesOk (asyncStep fs o cands r i t).caches := by
  cases hc : cands[i]? with
  | none => rw [asyncStep_of_oob _ _ _ _ _ _ (Or.inl hc)]; exact h
  | some p =>
    cases hs : r.states[i]? with
    | none => rw [asyncStep_of_oob _ _ _ _ _ _ (Or.inr hs)]; exact h
    | some s =>
      cases s with
      | idle =>
        rcases hrp : asyncReadPhase o (candidateKey o p) t r.caches with ⟨ob, σ'⟩
        have hσ' : ValuesOk σ' := by
          have := valuesOk_readPhase o (candidateKey o p) t r.caches h
          rw [hrp] at this
          exact this
        cases ob with
        | some b => rw [asyncStep_of_idle_some fs o cands r i t p b σ' hc hs hrp]; exact hσ'
        | none => rw [asyncStep_of_idle_none fs o cands r i t p σ' hc hs hrp]; exact hσ'
      | pendingWrite =>
        rw [asyncStep_of_pending fs o cands r i t p hc hs]
        show ValuesOk (asyncWritePhase (statFn fs o) o (resolveCandidate o.cwd p)
          (candidateKey o p) t r.caches).2
        rw [asyncWritePhase_eq_checkPathSync]
        exact valuesOk_checkPathSync _ _ _ _ _ _ _ h
      | done b0 => rw [asyncStep_of_done _ _ _ _ _ _ b0 hs]; exact h

theorem valuesOk_runSched (fs : Bool → String → StatResult) (o : LocateOpts)
    (cands : List String) : ∀ (s : List (Nat × Nat)) (r : AsyncRun), ValuesOk r.caches →
    ValuesOk (runSched fs o cands s r).caches := by
  intro s
  induction s with
  | nil => intro r h; exact h
  | cons st s ih =>
    intro r h
    exact ih _ (valuesOk_asyncStep fs o cands r st.1 st.2 h)

/-- Cache-pair states reachable from process start through locator calls. -/
inductive ReachableCaches : Caches → Prop where
  | init : ReachableCaches initialCaches
  | syncCall (fs : Bool → String → StatResult) (o : LocateOpts) (now : Nat)
      (paths : List String) (σ : Caches) :
      ReachableCaches σ → ReachableCaches (locatePathSyncFrom fs o now paths σ 0).2.1
  | asyncCall (fs : Bool → String → StatResult) (o : LocateOpts) (cands : List String)
      (sched : List (Nat × Nat)) (now : Nat) (σ : Caches) :
      ReachableCaches σ → ReachableCaches (locatePathRun fs o cands sched now σ).caches

theorem valuesOk_reachable (σ : Caches) (h : ReachableCaches σ) : ValuesOk σ := by
  induction h with
  | init =>
    constructor <;> intro q hq <;> cases hq
  | syncCall fs o now paths σ hσ ih => exact valuesOk_syncFrom fs o now paths σ 0 ih
  | asyncCall fs o cands sched now σ hσ ih =>
    unfold locatePathRun
    exact valuesOk_runSched fs o cands _ _ ih

/-- **C10.** Both locators consult the negative cache before the positive
cache: when a key holds an unexpired negative (`false`) entry — even while
the positive cache also holds an entry for the same key — the candidate is
skipped with no probe and with the positive cache left untouched (not even
a recency move).  Moreover over every cache-pair state reachable through
locator calls, the positive cache only ever stores `true` and the negative
cache only `false`. -/
theorem negCache_priority_and_value_invariant (fs : Bool → String → StatResult)
    (o : LocateOpts) (p : String) (now : Nat) (σ : Caches) (e : Entry) (σR : Caches)
    (hu : o.useCache = true)
    (hneg : freshVal σ.negativeCache (candidateKey o p) now = some false)
    (hpos : mapGet σ.statCache.entries (candidateKey o p) = some e)
    (hreach : ReachableCaches σR) :
    syncCheckOne fs o now σ p
      = (false, Caches.mk σ.statCache (σ.negativeCache.get (candidateKey o p) now).2, 0)
    ∧ asyncReadPhase o (candidateKey o p) now σ
      = (some false, Caches.mk σ.statCache (σ.negativeCache.get (candidateKey o p) now).2)
    ∧ ValuesOk σR := by
  have hread : asyncReadPhase o (candidateKey o p) now σ
      = (some false, Caches.mk σ.statCache (σ.negativeCache.get (candidateKey o p) now).2) := by
    unfold asyncReadPhase
    rw [hu]
    simp only [if_true]
    rcases hng : σ.negativeCache.get (candidateKey o p) now with ⟨r, neg'⟩
    dsimp only
    have hr : r = some false := by
      have hf := get_fst σ.negativeCache (candidateKey o p) now
      rw [hng] at hf
      have hr' : r = freshVal σ.negativeCache (candidateKey o p) now := hf
      rw [hr', hneg]
    rw [if_pos hr]
  exact ⟨syncCheckOne_of_read_some fs o now σ _ p false hread, hread,
    valuesOk_reachable σR hreach⟩

/-- Witness for `negCache_priority_and_value_invariant`: a key present in
both caches is answered negatively without touching the positive cache. -/
theorem negCache_priority_and_value_invariant_witness :
    syncCheckOne (fun _ _ => StatResult.notFound)
        (LocateOpts.mk "/c" "file" true true) 7
        (Caches.mk (LRUCache.mk 500 5000
            [(candidateKey (LocateOpts.mk "/c" "file" true true) "x", Entry.mk true 2)])
          (LRUCache.mk 500 5000
            [(candidateKey (LocateOpts.mk "/c" "file" true true) "x", Entry.mk false 3)])) "x"
      = (false, Caches.mk (LRUCache.mk 500 5000
            [(candidateKey (LocateOpts.mk "/c" "file" true true) "x", Entry.mk true 2)])
          (((LRUCache.mk 500 5000
            [(candidateKey (LocateOpts.mk "/c" "file" true true) "x", Entry.mk false 3)]).get
              (candidateKey (LocateOpts.mk "/c" "file" true true) "x") 7).2), 0)
    ∧ ValuesOk initialCaches := by
  have h := negCache_priority_and_value_invariant (fun _ _ => StatResult.notFound)
    (LocateOpts.mk "/c" "file" true true) "x" 7
    (Caches.mk (LRUCache.mk 500 5000
        [(candidateKey (LocateOpts.mk "/c" "file" true true) "x", Entry.mk true 2)])
      (LRUCache.mk 500 5000
        [(candidateKey (LocateOpts.mk "/c" "file" true true) "x", Entry.mk false 3)]))
    (Entry.mk true 2) initialCaches rfl
    (by unfold freshVal; rw [mapGet_single_self]; decide)
    (mapGet_single_self _ _) ReachableCaches.init
  exact ⟨h.1, h.2.2⟩

/-! ## Cached answers and replay -/

/-- The answer the cache pair would give for a key without probing: a fresh
negative `false` entry wins, otherwise a fresh positive entry. -/
def answerOf (σ : Caches) (k : String) (now : Nat) : Option Bool :=
  match freshVal σ.negativeCache k now with
  | some false => some false
  | _ => freshVal σ.statCache k now

theorem freshVal_after_get (c : LRUCache) (k : String) (t : Nat) (k' : String) :
    freshVal ((c.get k t).2) k' t = freshVal c k' t := by
  cases hg : mapGet c.entries k with
  | none => rw [get_of_miss c k t hg]
  | some e =>
    by_cases hexp : t - e.timestamp > c.ttl
    · rw [get_of_expired c k t e hg hexp]
      by_cases hk : k' = k
      · subst hk
        unfold freshVal
        dsimp only
        rw [mapGet_mapDelete_self, hg]
        dsimp only
        rw [if_pos hexp]
      · unfold freshVal
        dsimp only
        rw [mapGet_mapDelete_other _ _ _ hk]
    · rw [get_of_hit c k t e hg hexp]
      by_cases hk : k' = k
      · subst hk
        unfold freshVal
        dsimp only
        rw [mapGet_append, mapGet_mapDelete_self, Option.none_or, mapGet_single_self, hg]
      · unfold freshVal
        dsimp only
        rw [mapGet_append, mapGet_mapDelete_other _ _ _ hk, or_single_other _ _ _ _ hk]

theorem answerOf_negGet (σ : Caches) (k : String) (t : Nat) (k' : String) :
    answerOf (Caches.mk σ.statCache (σ.negativeCache.get k t).2) k' t
      = answerOf σ k' t := by
  unfold answerOf
  dsimp only
  rw [freshVal_after_get]

theorem answerOf_posGet (σ : Caches) (neg : LRUCache) (k : String) (t : Nat) (k' : String) :
    answerOf (Caches.mk (σ.statCache.get k t).2 neg) k' t
      = answerOf (Caches.mk σ.statCache neg) k' t := by
  unfold answerOf
  dsimp only
  rw [freshVal_after_get]

/-- A cached answer is replayed by the read phase: the check settles at the
cached boolean, performs no probe, and every cached answer survives. -/
theorem readPhase_hit (o : LocateOpts) (key : String) (now : Nat) (σ : Caches) (b : Bool)
    (hu : o.useCache = true) (ha : answerOf σ key now = some b) :
    ∃ σ', asyncReadPhase o key now σ = (some b, σ')
      ∧ ∀ k, answerOf σ' k now = answerOf σ k now := by
  unfold asyncReadPhase
  rw [hu]
  simp only [if_true]
  rcases hng : σ.negativeCache.get key now with ⟨r, neg'⟩
  dsimp only
  have hr : r = freshVal σ.negativeCache key now := by
    have hf := get_fst σ.negativeCache key now
    rw [hng] at hf
    exact hf
  have hneg' : ∀ k, answerOf (Caches.mk σ.statCache neg') k now = answerOf σ k now := by
    intro k
    have := answerOf_negGet σ key now k
    rw [hng] at this
    exact this
  unfold answerOf at ha
  cases hn : freshVal σ.negativeCache key now with
  | some v =>
    cases v with
    | false =>
      rw [hn] at ha
      dsimp only at ha
      injection ha with ha
      have hrf : r = some false := by rw [hr, hn]
      rw [if_pos hrf]
      exact ⟨Caches.mk σ.statCache neg', by rw [← ha], hneg'⟩
    | true =>
      rw [hn] at ha
      dsimp only at ha
      have hrf : ¬ (r = some false) := by rw [hr, hn]; simp
      rw [if_neg hrf]
      rcases hpg : σ.statCache.get key now with ⟨c, pos'⟩
      dsimp only
      have hc : c = freshVal σ.statCache key now := by
        have hf := get_fst σ.statCache key now
        rw [hpg] at hf
        exact hf
      refine ⟨Caches.mk pos' neg', ?_, ?_⟩
      · rw [hc, ha]
      · intro k
        have h2 := answerOf_posGet σ neg' key now k
        rw [hpg] at h2
        rw [h2]
        exact hneg' k
  | none =>
    rw [hn] at ha
    dsimp only at ha
    have hrf : ¬ (r = some false) := by rw [hr, hn]; simp
    rw [if_neg hrf]
    rcases hpg : σ.statCache.get key now with ⟨c, pos'⟩
    dsimp only
    have hc : c = freshVal σ.statCache key now := by
      have hf := get_fst σ.statCache key now
      rw [hpg] at hf
      exact hf
    refine ⟨Caches.mk pos' neg', ?_, ?_⟩
    · rw [hc, ha]
    · intro k
      have h2 := answerOf_posGet σ neg' key now k
      rw [hpg] at h2
      rw [h2]
      exact hneg' k

/-- What a replayed scan needs: a cached answer for each candidate up to
(and including) the first positive one. -/
def ScanSpec (o : LocateOpts) (now : Nat) (g : String → Bool) (σ : Caches) :
    List String → Prop
  | [] => True
  | p :: rest => answerOf σ (candidateKey o p) now = some (g p)
      ∧ (g p = false → ScanSpec o now g σ rest)

theorem scanSpec_transport (o : LocateOpts) (now : Nat) (g : String → Bool)
    (σ σ' : Caches) (hk : ∀ k, answerOf σ' k now = answerOf σ k now) :
    ∀ paths, ScanSpec o now g σ paths → ScanSpec o now g σ' paths := by
  intro paths
  induction paths with
  | nil => intro h; trivial
  | cons p rest ih =>
    intro h
    exact ⟨by rw [hk]; exact h.1, fun hg => ih (h.2 hg)⟩

/-- Phase 2 (synchronous): a scan whose candidates are all answered from
the caches returns the first `g`-positive candidate, performs zero probes,
and only moves cache entries (all answers survive). -/
theorem replay_sync (fs : Bool → String → StatResult) (o : LocateOpts) (now : Nat)
    (g : String → Bool) (hu : o.useCache = true) :
    ∀ (paths : List String) (σ : Caches) (n : Nat), ScanSpec o now g σ paths →
    (locatePathSyncFrom fs o now paths σ n).1 = List.find? g paths
    ∧ (locatePathSyncFrom fs o now paths σ n).2.2 = n
    ∧ ∀ k, answerOf (locatePathSyncFrom fs o now paths σ n).2.1 k now = answerOf σ k now := by
  intro paths
  induction paths with
  | nil => intro σ n h; exact ⟨rfl, rfl, fun k => rfl⟩
  | cons p rest ih =>
    intro σ n h
    obtain ⟨σ', hread, hans⟩ := readPhase_hit o (candidateKey o p) now σ (g p) hu h.1
    have hstep := syncCheckOne_of_read_some fs o now σ σ' p (g p) hread
    simp only [locatePathSyncFrom, hstep]
    rw [List.find?_cons]
    cases hg : g p with
    | true => exact ⟨rfl, by simp, fun k => by simpa using hans k⟩
    | false =>
      have hrest := ih σ' (n + 0) (scanSpec_transport o now g σ σ' hans rest (h.2 hg))
      simp only [Bool.false_eq_true, if_false]
      refine ⟨hrest.1, by simpa using hrest.2.1, ?_⟩
      intro k
      rw [hrest.2.2 k]
      exact hans k

/-! ## Key distinctness bookkeeping -/

theorem key_not_mem_of_mapGet_none (es : List (String × Entry)) (k : String)
    (h : mapGet es k = none) : k ∉ es.map Prod.fst := by
  intro hmem
  obtain ⟨q, hq, hqk⟩ := List.mem_map.mp hmem
  exact forall_of_mapGet_eq_none es k h q hq hqk

theorem nodupKeys_mapDelete (es : List (String × Entry)) (k : String)
    (h : NodupKeys es) : NodupKeys (mapDelete es k) := by
  unfold NodupKeys at *
  exact List.Nodup.sublist (List.Sublist.map Prod.fst (List.filter_sublist es)) h

theorem nodupKeys_append_new (es : List (String × Entry)) (k : String) (e : Entry)
    (h : NodupKeys es) (hg : mapGet es k = none) : NodupKeys (es ++ [(k, e)]) := by
  unfold NodupKeys at *
  rw [List.map_append]
  rw [List.nodup_append]
  refine ⟨h, by simp, ?_⟩
  intro x hx
  simp only [List.map_cons, List.map_nil, List.mem_singleton]
  intro hxk
  subst hxk
  exact key_not_mem_of_mapGet_none es x hg hx

theorem nodupKeys_get (c : LRUCache) (k : String) (t : Nat)
    (h : NodupKeys c.entries) : NodupKeys ((c.get k t).2).entries := by
  cases hg : mapGet c.entries k with
  | none => rw [get_of_miss c k t hg]; exact h
  | some e =>
    by_cases hexp : t - e.timestamp > c.ttl
    · rw [get_of_expired c k t e hg hexp]
      exact nodupKeys_mapDelete c.entries k h
    · rw [get_of_hit c k t e hg hexp]
      exact nodupKeys_append_new _ k e (nodupKeys_mapDelete c.entries k h)
        (mapGet_mapDelete_self c.entries k)

theorem nodupKeys_set (c : LRUCache) (k : String) (v : Bool) (t : Nat)
    (h : NodupKeys c.entries) : NodupKeys (c.set k v t).entries := by
  cases hg : mapGet c.entries k with
  | some e =>
    rw [set_of_present c k v t (by rw [hg]; rfl)]
    exact nodupKeys_append_new _ k _ (nodupKeys_mapDelete c.entries k h)
      (mapGet_mapDelete_self c.entries k)
  | none =>
    by_cases hr : c.entries.length < c.maxSize
    · rw [set_of_absent_room c k v t hg hr]
      exact nodupKeys_append_new _ k _ h hg
    · cases he : c.entries with
      | nil =>
        rw [set_of_nil c k v t he]
        unfold NodupKeys
        simp
      | cons e0 rest =>
        rw [set_of_absent_full c k v t e0 rest hg (le_of_not_lt hr) he]
        exact nodupKeys_append_new _ k _ (nodupKeys_mapDelete c.entries e0.1 h)
          (mapGet_sub_none _ _ _ hg)

theorem dedup_length_mono (l₁ l₂ : List String) (h : l₁ ⊆ l₂) :
    l₁.dedup.length ≤ l₂.dedup.length := by
  have h1 : l₁.dedup ⊆ l₂.dedup := by
    intro x hx
    exact List.mem_dedup.mpr (h (List.mem_dedup.mp hx))
  exact ((List.nodup_dedup l₁).subperm h1).length_le

/-- The counting core: a duplicate-free key list contained in `T` and
avoiding `k ∈ T` has length strictly below `T.dedup.length`. -/
theorem recent_keys_bound (keys : List String) (T : List String) (k : String)
    (hn : keys.Nodup) (hsub : keys ⊆ T) (hknot : k ∉ keys) (hkT : k ∈ T) :
    keys.length + 1 ≤ T.dedup.length := by
  have hn' : (keys ++ [k]).Nodup := by
    rw [List.nodup_append]
    exact ⟨hn, by simp, fun x hx => by
      simp only [List.mem_singleton]
      intro hxk
      subst hxk
      exact hknot hx⟩
  have hsub' : (keys ++ [k]) ⊆ T.dedup := by
    intro x hx
    rcases List.mem_append.mp hx with hx | hx
    · exact List.mem_dedup.mpr (hsub hx)
    · rcases List.mem_singleton.mp hx with rfl
      exact List.mem_dedup.mpr hkT
  have := (hn'.subperm hsub').length_le
  simpa using this

theorem freshVal_after_set_other (c : LRUCache) (k : String) (v : Bool) (t : Nat)
    (k' : String) (hk : k' ≠ k) :
    freshVal (c.set k v t) k' t = freshVal c k' t
    ∨ freshVal (c.set k v t) k' t = none := by
  rcases set_lookup_other c k v t k' hk with hl | hl
  · left
    unfold freshVal
    rw [hl, set_ttl]
  · right
    unfold freshVal
    rw [hl]

/-! ## Eviction protection -/

/-- Entry unexpired at time `now` for a cache with the given `ttl`. -/
def freshE (ttl now : Nat) (e : Entry) : Prop := ¬ (now - e.timestamp > ttl)

/-- Protection invariant for the touched-key set `T`: each cache splits
into an `old` part (never touched during the call: any `T`-keyed entry
there is either expired or, for the positive cache, shadowed by a fresh
negative `false` entry) and a `recent` part holding only fresh entries of
touched keys.  Because eviction removes the oldest entry, entries in the
`recent` part are never evicted while the touched keys stay within
capacity. -/
def Prot (T : List String) (now : Nat) (σ : Caches) : Prop :=
  σ.statCache.maxSize = 500 ∧ σ.negativeCache.maxSize = 500
  ∧ NodupKeys σ.statCache.entries ∧ NodupKeys σ.negativeCache.entries
  ∧ ∃ po pr no nr,
      σ.statCache.entries = po ++ pr
      ∧ σ.negativeCache.entries = no ++ nr
      ∧ (∀ q ∈ pr, q.1 ∈ T ∧ freshE σ.statCache.ttl now q.2)
      ∧ (∀ q ∈ nr, q.1 ∈ T ∧ freshE σ.negativeCache.ttl now q.2)
      ∧ (∀ q ∈ no, q.1 ∈ T → ¬ freshE σ.negativeCache.ttl now q.2)
      ∧ (∀ q ∈ po, q.1 ∈ T →
          (¬ freshE σ.statCache.ttl now q.2 ∨ freshVal σ.negativeCache q.1 now = some false))

/-- A get splits again: the old part loses any entry of the queried key,
the recent part gains at most a fresh entry of that key. -/
theorem get_parted (c : LRUCache) (k : String) (now : Nat)
    (old recent : List (String × Entry))
    (hsplit : c.entries = old ++ recent) :
    ∃ old' recent',
      ((c.get k now).2).entries = old' ++ recent'
      ∧ (∀ q ∈ old', q ∈ old ∧ q.1 ≠ k)
      ∧ (∀ q ∈ recent', q ∈ recent ∨ (q.1 = k ∧ freshE c.ttl now q.2)) := by
  cases hg : mapGet c.entries k with
  | none =>
    rw [get_of_miss c k now hg]
    refine ⟨old, recent, hsplit, ?_, ?_⟩
    · intro q hq
      refine ⟨hq, ?_⟩
      exact forall_of_mapGet_eq_none c.entries k hg q (by rw [hsplit]; exact List.mem_append_left _ hq)
    · intro q hq
      exact Or.inl hq
  | some e =>
    by_cases hexp : now - e.timestamp > c.ttl
    · rw [get_of_expired c k now e hg hexp]
      refine ⟨mapDelete old k, mapDelete recent k, ?_, ?_, ?_⟩
      · show mapDelete c.entries k = _
        rw [hsplit, mapDelete_append]
      · intro q hq
        exact ⟨List.mem_of_mem_filter hq, by simpa using List.of_mem_filter hq⟩
      · intro q hq
        exact Or.inl (List.mem_of_mem_filter hq)
    · rw [get_of_hit c k now e hg hexp]
      refine ⟨mapDelete old k, mapDelete recent k ++ [(k, e)], ?_, ?_, ?_⟩
      · show mapDelete c.entries k ++ [(k, e)] = _
        rw [hsplit, mapDelete_append, List.append_assoc]
      · intro q hq
        exact ⟨List.mem_of_mem_filter hq, by simpa using List.of_mem_filter hq⟩
      · intro q hq
        rcases List.mem_append.mp hq with hq | hq
        · exact Or.inl (List.mem_of_mem_filter hq)
        · rcases List.mem_singleton.mp hq with rfl
          exact Or.inr ⟨rfl, hexp⟩

/-- A set splits again under the counting bound: the old part loses at most
its head (the evictee) and any entry of the written key; the recent part
gains exactly the fresh written entry.  Lookups at other keys survive
unless they named the evicted old entry. -/
theorem set_parted (c : LRUCache) (k : String) (v : Bool) (now : Nat)
    (old recent : List (String × Entry)) (T : List String)
    (hsplit : c.entries = old ++ recent)
    (hn : NodupKeys c.entries)
    (hrecT : ∀ q ∈ recent, q.1 ∈ T)
    (hkT : k ∈ T)
    (hTd : T.dedup.length ≤ 500)
    (hms : c.maxSize = 500) :
    ∃ old' recent',
      (c.set k v now).entries = old' ++ recent'
      ∧ (∀ q ∈ old', q ∈ old ∧ q.1 ≠ k)
      ∧ (∀ q ∈ recent', (q ∈ recent ∧ q.1 ≠ k) ∨ q = (k, Entry.mk v now))
      ∧ (∀ k', k' ≠ k →
          mapGet (c.set k v now).entries k' = mapGet c.entries k'
          ∨ (∃ q0, q0 ∈ old ∧ q0.1 = k'
              ∧ mapGet (c.set k v now).entries k' = none)) := by
  cases hg : mapGet c.entries k with
  | some e =>
    rw [set_of_present c k v now (by rw [hg]; rfl)]
    refine ⟨mapDelete old k, mapDelete recent k ++ [(k, Entry.mk v now)], ?_, ?_, ?_, ?_⟩
    · show mapDelete c.entries k ++ [(k, Entry.mk v now)] = _
      rw [hsplit, mapDelete_append, List.append_assoc]
    · intro q hq
      exact ⟨List.mem_of_mem_filter hq, by simpa using List.of_mem_filter hq⟩
    · intro q hq
      rcases List.mem_append.mp hq with hq | hq
      · exact Or.inl ⟨List.mem_of_mem_filter hq, by simpa using List.of_mem_filter hq⟩
      · exact Or.inr (List.mem_singleton.mp hq)
    · intro k' hk'
      left
      dsimp only
      rw [mapGet_append, mapGet_mapDelete_other c.entries k k' hk',
        or_single_other _ _ _ _ hk']
  | none =>
    have hnotin : ∀ q ∈ c.entries, q.1 ≠ k := forall_of_mapGet_eq_none c.entries k hg
    by_cases hr : c.entries.length < c.maxSize
    · rw [set_of_absent_room c k v now hg hr]
      refine ⟨old, recent ++ [(k, Entry.mk v now)], ?_, ?_, ?_, ?_⟩
      · rw [hsplit, List.append_assoc]
      · intro q hq
        exact ⟨hq, hnotin q (by rw [hsplit]; exact List.mem_append_left _ hq)⟩
      · intro q hq
        rcases List.mem_append.mp hq with hq | hq
        · exact Or.inl ⟨hq, hnotin q (by rw [hsplit]; exact List.mem_append_right _ hq)⟩
        · exact Or.inr (List.mem_singleton.mp hq)
      · intro k' hk'
        left
        dsimp only
        rw [mapGet_append, or_single_other _ _ _ _ hk']
    · -- at capacity: the recent part is strictly below capacity, so the
      -- evicted first entry comes from the old part
      have hrkeys : (recent.map Prod.fst).Nodup := by
        have hsub : List.Sublist (recent.map Prod.fst) (c.entries.map Prod.fst) := by
          rw [hsplit, List.map_append]
          exact (List.sublist_append_right _ _)
        exact List.Nodup.sublist hsub hn
      have hrsubT : recent.map Prod.fst ⊆ T := by
        intro x hx
        obtain ⟨q, hq, rfl⟩ := List.mem_map.mp hx
        exact hrecT q hq
      have hknots : k ∉ recent.map Prod.fst := by
        intro hx
        obtain ⟨q, hq, hqk⟩ := List.mem_map.mp hx
        exact hnotin q (by rw [hsplit]; exact List.mem_append_right _ hq) hqk
      have hbound : recent.length + 1 ≤ 500 := by
        have := recent_keys_bound (recent.map Prod.fst) T k hrkeys hrsubT hknots hkT
        simp only [List.length_map] at this
        omega
      have hlen : old.length + recent.length = c.entries.length := by
        rw [hsplit, List.length_append]
      have holdpos : 0 < old.length := by
        have : c.entries.length ≥ c.maxSize := le_of_not_lt hr
        rw [hms] at this
        omega
      cases hold : old with
      | nil => rw [hold] at holdpos; simp at holdpos
      | cons q0 old'' =>
        have he : c.entries = q0 :: (old'' ++ recent) := by
          rw [hsplit, hold]
          rfl
        rw [set_of_absent_full c k v now q0 (old'' ++ recent) hg (le_of_not_lt hr) he]
        have hq0old : mapDelete c.entries q0.1 = old'' ++ recent := by
          rw [he]
          obtain ⟨k0, e0⟩ := q0
          rw [mapDelete_cons, if_pos rfl]
          apply mapDelete_eq_self_of_absent
          intro q hq hqk
          have hn' : (k0 :: (old'' ++ recent).map Prod.fst).Nodup := by
            have := hn
            unfold NodupKeys at this
            rw [he] at this
            simpa using this
          have hqk' : q.1 = k0 := hqk
          exact (List.nodup_cons.mp hn').1 (hqk' ▸ List.mem_map_of_mem Prod.fst hq)
        rw [hq0old]
        refine ⟨old'', recent ++ [(k, Entry.mk v now)], by rw [List.append_assoc], ?_, ?_, ?_⟩
        · intro q hq
          refine ⟨List.mem_cons_of_mem _ hq, ?_⟩
          exact hnotin q (by
            rw [hsplit, hold]
            exact List.mem_append_left _ (List.mem_cons_of_mem _ hq))
        · intro q hq
          rcases List.mem_append.mp hq with hq | hq
          · exact Or.inl ⟨hq, hnotin q (by rw [hsplit]; exact List.mem_append_right _ hq)⟩
          · exact Or.inr (List.mem_singleton.mp hq)
        · intro k' hk'
          by_cases hq0 : k' = q0.1
          · right
            refine ⟨q0, List.mem_cons_self _ _, hq0.symm, ?_⟩
            dsimp only
            rw [mapGet_append, or_single_other _ _ _ _ hk']
            subst hq0
            apply mapGet_eq_none_of_forall
            intro q hq hqk
            rcases List.mem_append.mp hq with hq | hq
            · -- q ∈ old'' has key q0.1, contradicting nodup
              have hn' : (q0.1 :: (old'' ++ recent).map Prod.fst).Nodup := by
                have := hn
                unfold NodupKeys at this
                rw [he] at this
                obtain ⟨k0, e0⟩ := q0
                simpa using this
              exact (List.nodup_cons.mp hn').1
                (hqk ▸ List.mem_map_of_mem Prod.fst (List.mem_append_left _ hq))
            · have hn' : (q0.1 :: (old'' ++ recent).map Prod.fst).Nodup := by
                have := hn
                unfold NodupKeys at this
                rw [he] at this
                obtain ⟨k0, e0⟩ := q0
                simpa using this
              exact (List.nodup_cons.mp hn').1
                (hqk ▸ List.mem_map_of_mem Prod.fst (List.mem_append_right _ hq))
          · left
            dsimp only
            rw [mapGet_append, or_single_other _ _ _ _ hk']
            have h1 : mapGet (old'' ++ recent) k' = mapGet (mapDelete c.entries q0.1) k' := by
              rw [hq0old]
            rw [h1, mapGet_mapDelete_other c.entries q0.1 k' hq0]

theorem mapGet_of_mem_nodup (es : List (String × Entry)) (k : String) (e : Entry)
    (hn : NodupKeys es) (hm : (k, e) ∈ es) : mapGet es k = some e := by
  induction es with
  | nil => cases hm
  | cons q es ih =>
    obtain ⟨k0, e0⟩ := q
    have hn' : k0 ∉ es.map Prod.fst ∧ NodupKeys es := by
      simpa [NodupKeys, List.nodup_cons] using hn
    rw [mapGet_cons]
    rcases List.mem_cons.mp hm with hq | hq
    · injection hq with h1 h2
      subst h1
      subst h2
      rw [if_pos rfl]
    · by_cases h0 : k0 = k
      · subst h0
        exfalso
        exact hn'.1 (List.mem_map_of_mem Prod.fst hq)
      · rw [if_neg h0]
        exact ih hn'.2 hq

theorem readPhase_answers (o : LocateOpts) (key : String) (now : Nat) (σ : Caches) :
    ∀ x, answerOf (asyncReadPhase o key now σ).2 x now = answerOf σ x now := by
  unfold asyncReadPhase
  by_cases hu : o.useCache
  · simp only [hu, if_true]
    rcases hng : σ.negativeCache.get key now with ⟨r, neg'⟩
    dsimp only
    by_cases hrf : r = some false
    · rw [if_pos hrf]
      intro x
      have h2 := answerOf_negGet σ key now x
      rw [hng] at h2
      exact h2
    · rw [if_neg hrf]
      rcases hpg : σ.statCache.get key now with ⟨c, pos'⟩
      dsimp only
      intro x
      have h1 := answerOf_posGet σ neg' key now x
      rw [hpg] at h1
      have h2 := answerOf_negGet σ key now x
      rw [hng] at h2
      rw [h1]
      exact h2
  · have hu' : o.useCache = false := by simpa using hu
    rw [hu']
    intro x
    rfl

theorem readPhase_none_char (o : LocateOpts) (key : String) (now : Nat) (σ σ' : Caches)
    (hu : o.useCache = true) (h : asyncReadPhase o key now σ = (none, σ')) :
    freshVal σ'.negativeCache key now ≠ some false
    ∧ freshVal σ'.statCache key now = none := by
  unfold asyncReadPhase at h
  rw [hu] at h
  simp only [if_true] at h
  rcases hng : σ.negativeCache.get key now with ⟨r, neg'⟩
  rw [hng] at h
  dsimp only at h
  by_cases hrf : r = some false
  · rw [if_pos hrf] at h
    cases h
  · rw [if_neg hrf] at h
    rcases hpg : σ.statCache.get key now with ⟨c, pos'⟩
    rw [hpg] at h
    dsimp only at h
    injection h with h1 h2
    subst h1
    subst h2
    constructor
    · have hfn : freshVal neg' key now = freshVal σ.negativeCache key now := by
        have := freshVal_after_get σ.negativeCache key now key
        rw [hng] at this
        exact this
      have hrr : r = freshVal σ.negativeCache key now := by
        have := get_fst σ.negativeCache key now
        rw [hng] at this
        exact this
      dsimp only
      rw [hfn, ← hrr]
      exact hrf
    · have hfp : freshVal pos' key now = freshVal σ.statCache key now := by
        have := freshVal_after_get σ.statCache key now key
        rw [hpg] at this
        exact this
      have hcc : freshVal σ.statCache key now = none := by
        have := get_fst σ.statCache key now
        rw [hpg] at this
        exact this.symm
      dsimp only
      rw [hfp, hcc]

theorem prot_readPhase (o : LocateOpts) (key : String) (now : Nat) (σ : Caches)
    (T : List String) (hu : o.useCache = true) (hprot : Prot T now σ) :
    Prot (T ++ [key]) now (asyncReadPhase o key now σ).2 := by
  obtain ⟨hm1, hm2, hn1, hn2, po, pr, no, nr, hps, hns, hprC, hnrC, hnoC, hpoC⟩ := hprot
  unfold asyncReadPhase
  rw [hu]
  simp only [if_true]
  rcases hng : σ.negativeCache.get key now with ⟨r, neg'⟩
  dsimp only
  have hneg2 : (σ.negativeCache.get key now).2 = neg' := by rw [hng]
  obtain ⟨no', nr', hnsplit, hnoP, hnrP⟩ := get_parted σ.negativeCache key now no nr hns
  rw [hneg2] at hnsplit
  have hnegTtl : neg'.ttl = σ.negativeCache.ttl := by
    rw [← hneg2]
    exact get_snd_ttl σ.negativeCache key now
  have hnegMax : neg'.maxSize = σ.negativeCache.maxSize := by
    rw [← hneg2]
    exact get_snd_maxSize σ.negativeCache key now
  have hnegNodup : NodupKeys neg'.entries := by
    rw [← hneg2]
    exact nodupKeys_get σ.negativeCache key now hn2
  have hnegFresh : ∀ x, freshVal neg' x now = freshVal σ.negativeCache x now := by
    intro x
    have := freshVal_after_get σ.negativeCache key now x
    rw [hneg2] at this
    exact this
  have hr : r = freshVal σ.negativeCache key now := by
    have := get_fst σ.negativeCache key now
    rw [hng] at this
    exact this
  by_cases hrf : r = some false
  · rw [if_pos hrf]
    refine ⟨hm1, by rw [hnegMax]; exact hm2, hn1, hnegNodup, po, pr, no', nr', hps, hnsplit,
      ?_, ?_, ?_, ?_⟩
    · intro q hq
      have := hprC q hq
      exact ⟨List.mem_append_left _ this.1, this.2⟩
    · intro q hq
      rcases hnrP q hq with hq' | hq'
      · have := hnrC q hq'
        rw [hnegTtl]
        exact ⟨List.mem_append_left _ this.1, this.2⟩
      · rw [hnegTtl]
        exact ⟨by rw [hq'.1]; exact List.mem_append_right _ (List.mem_singleton.mpr rfl), hq'.2⟩
    · intro q hq hqT
      obtain ⟨hqno, hqk⟩ := hnoP q hq
      rw [hnegTtl]
      rcases List.mem_append.mp hqT with hqT | hqT
      · exact hnoC q hqno hqT
      · exact absurd (List.mem_singleton.mp hqT) hqk
    · intro q hq hqT
      rcases List.mem_append.mp hqT with hqT | hqT
      · rcases hpoC q hq hqT with hl | hl
        · exact Or.inl hl
        · right
          rw [hnegFresh]
          exact hl
      · right
        rcases List.mem_singleton.mp hqT with hqk
        rw [hnegFresh, hqk, ← hr, hrf]
  · rw [if_neg hrf]
    rcases hpg : σ.statCache.get key now with ⟨c, pos'⟩
    dsimp only
    have hpos2 : (σ.statCache.get key now).2 = pos' := by rw [hpg]
    obtain ⟨po', pr', hpsplit, hpoP, hprP⟩ := get_parted σ.statCache key now po pr hps
    rw [hpos2] at hpsplit
    have hposTtl : pos'.ttl = σ.statCache.ttl := by
      rw [← hpos2]
      exact get_snd_ttl σ.statCache key now
    have hposMax : pos'.maxSize = σ.statCache.maxSize := by
      rw [← hpos2]
      exact get_snd_maxSize σ.statCache key now
    have hposNodup : NodupKeys pos'.entries := by
      rw [← hpos2]
      exact nodupKeys_get σ.statCache key now hn1
    refine ⟨by rw [hposMax]; exact hm1, by rw [hnegMax]; exact hm2, hposNodup, hnegNodup,
      po', pr', no', nr', hpsplit, hnsplit, ?_, ?_, ?_, ?_⟩
    · intro q hq
      rw [hposTtl]
      rcases hprP q hq with hq' | hq'
      · have := hprC q hq'
        exact ⟨List.mem_append_left _ this.1, this.2⟩
      · exact ⟨by rw [hq'.1]; exact List.mem_append_right _ (List.mem_singleton.mpr rfl), hq'.2⟩
    · intro q hq
      rw [hnegTtl]
      rcases hnrP q hq with hq' | hq'
      · have := hnrC q hq'
        exact ⟨List.mem_append_left _ this.1, this.2⟩
      · exact ⟨by rw [hq'.1]; exact List.mem_append_right _ (List.mem_singleton.mpr rfl), hq'.2⟩
    · intro q hq hqT
      obtain ⟨hqno, hqk⟩ := hnoP q hq
      rw [hnegTtl]
      rcases List.mem_append.mp hqT with hqT | hqT
      · exact hnoC q hqno hqT
      · exact absurd (List.mem_singleton.mp hqT) hqk
    · intro q hq hqT
      obtain ⟨hqpo, hqk⟩ := hpoP q hq
      rw [hposTtl]
      rcases List.mem_append.mp hqT with hqT | hqT
      · rcases hpoC q hqpo hqT with hl | hl
        · exact Or.inl hl
        · right
          rw [hnegFresh]
          exact hl
      · exact absurd (List.mem_singleton.mp hqT) hqk

theorem prot_setNeg_T (σ : Caches) (T : List String) (key : String) (now : Nat)
    (hprot : Prot T now σ) (hkT : key ∈ T) (hTd : T.dedup.length ≤ 500) :
    Prot T now (setNeg σ key now)
    ∧ (∀ k', k' ≠ key → k' ∈ T →
        freshVal (setNeg σ key now).negativeCache k' now = freshVal σ.negativeCache k' now)
    ∧ freshVal (setNeg σ key now).negativeCache key now = some false := by
  obtain ⟨hm1, hm2, hn1, hn2, po, pr, no, nr, hps, hns, hprC, hnrC, hnoC, hpoC⟩ := hprot
  obtain ⟨no', nr', hsplit, hoP, hrP, hlook⟩ :=
    set_parted σ.negativeCache key false now no nr T hns hn2
      (fun q hq => (hnrC q hq).1) hkT hTd hm2
  have hself : freshVal (σ.negativeCache.set key false now) key now = some false := by
    unfold freshVal
    rw [set_lookup_self]
    dsimp only
    rw [set_ttl]
    simp
  have hpres : ∀ k', k' ≠ key → k' ∈ T →
      freshVal (σ.negativeCache.set key false now) k' now
        = freshVal σ.negativeCache k' now := by
    intro k' hk' hkT'
    rcases hlook k' hk' with hsame | ⟨q0, hq0o, hq0k, hnone⟩
    · unfold freshVal
      rw [hsame, set_ttl]
    · have hq0' : (k', q0.2) = q0 := by
        obtain ⟨qk, qe⟩ := q0
        dsimp only at hq0k ⊢
        rw [hq0k]
      have hget : mapGet σ.negativeCache.entries k' = some q0.2 := by
        apply mapGet_of_mem_nodup _ _ _ hn2
        rw [hns]
        apply List.mem_append_left
        rw [hq0']
        exact hq0o
      have hexp : ¬ freshE σ.negativeCache.ttl now q0.2 :=
        hnoC q0 hq0o (by rw [hq0k]; exact hkT')
      have hexp' : now - q0.2.timestamp > σ.negativeCache.ttl := by
        unfold freshE at hexp
        exact not_not.mp hexp
      unfold freshVal
      rw [hnone, hget]
      dsimp only
      rw [if_pos hexp']
  have hP : Prot T now (setNeg σ key now) := by
    refine ⟨hm1, ?_, hn1, ?_, po, pr, no', nr', hps, hsplit, ?_, ?_, ?_, ?_⟩
    · show (σ.negativeCache.set key false now).maxSize = 500
      rw [set_maxSize]
      exact hm2
    · exact nodupKeys_set _ _ _ _ hn2
    · exact hprC
    · intro q hq
      show q.1 ∈ T ∧ freshE (σ.negativeCache.set key false now).ttl now q.2
      rw [set_ttl]
      rcases hrP q hq with ⟨hq', _⟩ | hq'
      · exact hnrC q hq'
      · subst hq'
        refine ⟨hkT, ?_⟩
        unfold freshE
        dsimp only
        omega
    · intro q hq hqT
      show ¬ freshE (σ.negativeCache.set key false now).ttl now q.2
      rw [set_ttl]
      exact hnoC q (hoP q hq).1 hqT
    · intro q hq hqT
      rcases hpoC q hq hqT with hl | hl
      · exact Or.inl hl
      · right
        show freshVal (σ.negativeCache.set key false now) q.1 now = some false
        by_cases hqk : q.1 = key
        · rw [hqk]
          exact hself
        · rw [hpres q.1 hqk hqT]
          exact hl
  exact ⟨hP, fun k' h1 h2 => hpres k' h1 h2, hself⟩

theorem prot_setPos_T (σ : Caches) (T : List String) (key : String) (v : Bool) (now : Nat)
    (hprot : Prot T now σ) (hkT : key ∈ T) (hTd : T.dedup.length ≤ 500) :
    Prot T now (setPos σ key v now)
    ∧ (∀ k', k' ≠ key → k' ∈ T →
        answerOf (setPos σ key v now) k' now = answerOf σ k' now)
    ∧ (freshVal σ.negativeCache key now ≠ some false →
        answerOf (setPos σ key v now) key now = some v) := by
  obtain ⟨hm1, hm2, hn1, hn2, po, pr, no, nr, hps, hns, hprC, hnrC, hnoC, hpoC⟩ := hprot
  obtain ⟨po', pr', hsplit, hoP, hrP, hlook⟩ :=
    set_parted σ.statCache key v now po pr T hps hn1
      (fun q hq => (hprC q hq).1) hkT hTd hm1
  have hselfP : freshVal (σ.statCache.set key v now) key now = some v := by
    unfold freshVal
    rw [set_lookup_self]
    dsimp only
    rw [set_ttl]
    simp
  have hpresP : ∀ k', k' ≠ key → k' ∈ T →
      freshVal (σ.statCache.set key v now) k' now = freshVal σ.statCache k' now
      ∨ (freshVal (σ.statCache.set key v now) k' now = none
          ∧ freshVal σ.negativeCache k' now = some false) := by
    intro k' hk' hkT'
    rcases hlook k' hk' with hsame | ⟨q0, hq0o, hq0k, hnone⟩
    · left
      unfold freshVal
      rw [hsame, set_ttl]
    · have hq0' : (k', q0.2) = q0 := by
        obtain ⟨qk, qe⟩ := q0
        dsimp only at hq0k ⊢
        rw [hq0k]
      have hget : mapGet σ.statCache.entries k' = some q0.2 := by
        apply mapGet_of_mem_nodup _ _ _ hn1
        rw [hps]
        apply List.mem_append_left
        rw [hq0']
        exact hq0o
      rcases hpoC q0 hq0o (by rw [hq0k]; exact hkT') with hl | hl
      · left
        have hexp' : now - q0.2.timestamp > σ.statCache.ttl := by
          unfold freshE at hl
          exact not_not.mp hl
        unfold freshVal
        rw [hnone, hget]
        dsimp only
        rw [if_pos hexp']
      · right
        refine ⟨?_, by rw [← hq0k]; exact hl⟩
        unfold freshVal
        rw [hnone]
  have hansPres : ∀ k', k' ≠ key → k' ∈ T →
      answerOf (setPos σ key v now) k' now = answerOf σ k' now := by
    intro k' hk' hkT'
    unfold answerOf setPos
    dsimp only
    cases hnv : freshVal σ.negativeCache k' now with
    | none =>
      dsimp only
      rcases hpresP k' hk' hkT' with h | ⟨h1, h2⟩
      · exact h
      · rw [hnv] at h2
        exact Option.noConfusion h2
    | some b =>
      cases b with
      | false => rfl
      | true =>
        dsimp only
        rcases hpresP k' hk' hkT' with h | ⟨h1, h2⟩
        · exact h
        · rw [hnv] at h2
          simp at h2
  have hansKey : freshVal σ.negativeCache key now ≠ some false →
      answerOf (setPos σ key v now) key now = some v := by
    intro hne
    unfold answerOf setPos
    dsimp only
    cases hnv : freshVal σ.negativeCache key now with
    | none =>
      dsimp only
      exact hselfP
    | some b =>
      cases b with
      | false => exact absurd hnv hne
      | true =>
        dsimp only
        exact hselfP
  have hP : Prot T now (setPos σ key v now) := by
    refine ⟨?_, hm2, ?_, hn2, po', pr', no, nr, hsplit, hns, ?_, ?_, ?_, ?_⟩
    · show (σ.statCache.set key v now).maxSize = 500
      rw [set_maxSize]
      exact hm1
    · exact nodupKeys_set _ _ _ _ hn1
    · intro q hq
      show q.1 ∈ T ∧ freshE (σ.statCache.set key v now).ttl now q.2
      rw [set_ttl]
      rcases hrP q hq with ⟨hq', _⟩ | hq'
      · exact hprC q hq'
      · subst hq'
        refine ⟨hkT, ?_⟩
        unfold freshE
        dsimp only
        omega
    · exact hnrC
    · exact hnoC
    · intro q hq hqT
      obtain ⟨hqpo, hqk⟩ := hoP q hq
      show ¬ freshE (σ.statCache.set key v now).ttl now q.2
        ∨ freshVal σ.negativeCache q.1 now = some false
      rw [set_ttl]
      exact hpoC q hqpo hqT
  exact ⟨hP, hansPres, hansKey⟩

theorem answerOf_congr (σa σb : Caches) (k : String) (t : Nat)
    (hn : freshVal σa.negativeCache k t = freshVal σb.negativeCache k t)
    (hp : freshVal σa.statCache k t = freshVal σb.statCache k t) :
    answerOf σa k t = answerOf σb k t := by
  unfold answerOf
  rw [hn, hp]

theorem prot_checkWrite (stat : String → StatResult) (type : String)
    (rp key : String) (now : Nat) (σ : Caches) (T : List String)
    (hprot : Prot T now σ) (hkT : key ∈ T) (hTd : T.dedup.length ≤ 500)
    (hne : freshVal σ.negativeCache key now ≠ some false) :
    Prot T now (checkPathSync stat type true rp key now σ).2
    ∧ (∀ k', k' ≠ key → k' ∈ T →
        answerOf (checkPathSync stat type true rp key now σ).2 k' now = answerOf σ k' now)
    ∧ answerOf (checkPathSync stat type true rp key now σ).2 key now
        = some (probeMatches stat type rp)
    ∧ (checkPathSync stat type true rp key now σ).1 = probeMatches stat type rp
    ∧ (∀ k', k' ≠ key → k' ∈ T →
        freshVal (checkPathSync stat type true rp key now σ).2.negativeCache k' now
          = freshVal σ.negativeCache k' now)
    ∧ (probeMatches stat type rp = true →
        freshVal (checkPathSync stat type true rp key now σ).2.negativeCache key now
          = freshVal σ.negativeCache key now) := by
  have hnegBranch : ∀ (hres : (checkPathSync stat type true rp key now σ).2 = setNeg σ key now),
      Prot T now (checkPathSync stat type true rp key now σ).2
      ∧ (∀ k', k' ≠ key → k' ∈ T →
          answerOf (checkPathSync stat type true rp key now σ).2 k' now = answerOf σ k' now)
      ∧ answerOf (checkPathSync stat type true rp key now σ).2 key now = some false
      ∧ (∀ k', k' ≠ key → k' ∈ T →
          freshVal (checkPathSync stat type true rp key now σ).2.negativeCache k' now
            = freshVal σ.negativeCache k' now) := by
    intro hres
    obtain ⟨hP, hpres, hself⟩ := prot_setNeg_T σ T key now hprot hkT hTd
    rw [hres]
    refine ⟨hP, ?_, ?_, hpres⟩
    · intro k' hk' hkT'
      exact answerOf_congr _ _ _ _ (hpres k' hk' hkT') rfl
    · unfold answerOf
      rw [hself]
  have hposBranch : ∀ (v : Bool),
      (checkPathSync stat type true rp key now σ).2 = setPos σ key v now →
      Prot T now (checkPathSync stat type true rp key now σ).2
      ∧ (∀ k', k' ≠ key → k' ∈ T →
          answerOf (checkPathSync stat type true rp key now σ).2 k' now = answerOf σ k' now)
      ∧ answerOf (checkPathSync stat type true rp key now σ).2 key now = some v
      ∧ (∀ x, freshVal (checkPathSync stat type true rp key now σ).2.negativeCache x now
            = freshVal σ.negativeCache x now) := by
    intro v hres
    obtain ⟨hP, hpres, hself⟩ := prot_setPos_T σ T key v now hprot hkT hTd
    rw [hres]
    exact ⟨hP, hpres, hself hne, fun x => rfl⟩
  cases hst : stat rp with
  | notFound =>
    have h0 : (checkPathSync stat type true rp key now σ).2 = setNeg σ key now := by
      unfold checkPathSync
      rw [hst]
      rfl
    have h1 : (checkPathSync stat type true rp key now σ).1 = false := by
      unfold checkPathSync
      rw [hst]
    have hpm : probeMatches stat type rp = false := by
      unfold probeMatches
      rw [hst]
    obtain ⟨hP, hpres, hkey, hfpres⟩ := hnegBranch h0
    rw [hpm]
    exact ⟨hP, hpres, hkey, h1, hfpres, fun hc => Bool.noConfusion hc⟩
  | ioError =>
    have h0 : (checkPathSync stat type true rp key now σ).2 = setNeg σ key now := by
      unfold checkPathSync
      rw [hst]
      rfl
    have h1 : (checkPathSync stat type true rp key now σ).1 = false := by
      unfold checkPathSync
      rw [hst]
    have hpm : probeMatches stat type rp = false := by
      unfold probeMatches
      rw [hst]
    obtain ⟨hP, hpres, hkey, hfpres⟩ := hnegBranch h0
    rw [hpm]
    exact ⟨hP, hpres, hkey, h1, hfpres, fun hc => Bool.noConfusion hc⟩
  | found st =>
    by_cases hmt : matchType type st = true
    · have h0 : (checkPathSync stat type true rp key now σ).2 = setPos σ key true now := by
        unfold checkPathSync
        rw [hst]
        dsimp only
        rw [if_pos hmt]
        rfl
      have h1 : (checkPathSync stat type true rp key now σ).1 = true := by
        unfold checkPathSync
        rw [hst]
        dsimp only
        rw [if_pos hmt]
      have hpm : probeMatches stat type rp = true := by
        unfold probeMatches
        rw [hst]
        exact hmt
      obtain ⟨hP, hpres, hkey, hfpres⟩ := hposBranch true h0
      rw [hpm]
      exact ⟨hP, hpres, hkey, h1, fun kx h1x h2x => hfpres kx, fun hc => hfpres key⟩
    · have h0 : (checkPathSync stat type true rp key now σ).2 = setNeg σ key now := by
        unfold checkPathSync
        rw [hst]
        dsimp only
        rw [if_neg hmt]
        rfl
      have h1 : (checkPathSync stat type true rp key now σ).1 = false := by
        unfold checkPathSync
        rw [hst]
        dsimp only
        rw [if_neg hmt]
      have hpm : probeMatches stat type rp = false := by
        unfold probeMatches
        rw [hst]
        dsimp only
        exact Bool.not_eq_true _ ▸ hmt
      obtain ⟨hP, hpres, hkey, hfpres⟩ := hnegBranch h0
      rw [hpm]
      exact ⟨hP, hpres, hkey, h1, hfpres, fun hc => Bool.noConfusion hc⟩

theorem readPhase_some_char (o : LocateOpts) (key : String) (now : Nat) (σ σ' : Caches)
    (b : Bool) (hu : o.useCache = true) (h : asyncReadPhase o key now σ = (some b, σ')) :
    answerOf σ key now = some b := by
  unfold asyncReadPhase at h
  rw [hu] at h
  simp only [if_true] at h
  rcases hng : σ.negativeCache.get key now with ⟨r, neg'⟩
  rw [hng] at h
  dsimp only at h
  have hr : r = freshVal σ.negativeCache key now := by
    have hf := get_fst σ.negativeCache key now
    rw [hng] at hf
    exact hf
  by_cases hrf : r = some false
  · rw [if_pos hrf] at h
    injection h with h1 h2
    unfold answerOf
    rw [← hr, hrf]
    exact h1
  · rw [if_neg hrf] at h
    rcases hpg : σ.statCache.get key now with ⟨c, pos'⟩
    rw [hpg] at h
    dsimp only at h
    injection h with h1 h2
    have hc : c = freshVal σ.statCache key now := by
      have hf := get_fst σ.statCache key now
      rw [hpg] at hf
      exact hf
    unfold answerOf
    cases hnv : freshVal σ.negativeCache key now with
    | none =>
      dsimp only
      rw [← hc]
      exact h1
    | some v =>
      cases v with
      | false => exact absurd (by rw [hr, hnv]) hrf
      | true =>
        dsimp only
        rw [← hc]
        exact h1

theorem readPhase_none_answer (o : LocateOpts) (key : String) (now : Nat) (σ σ' : Caches)
    (hu : o.useCache = true) (h : asyncReadPhase o key now σ = (none, σ')) :
    answerOf σ' key now = none := by
  obtain ⟨hne, hpos⟩ := readPhase_none_char o key now σ σ' hu h
  unfold answerOf
  cases hnv : freshVal σ'.negativeCache key now with
  | none =>
    dsimp only
    exact hpos
  | some v =>
    cases v with
    | false => exact absurd hnv hne
    | true =>
      dsimp only
      exact hpos

/-- Phase 1 (synchronous): scanning from any protected state keeps the
protection invariant, answers every touched key, preserves previously
recorded answers, and leaves a state whose cached answers replay the whole
scan.  The touched keys stay inside `T` plus the candidates' keys. -/
theorem scan_phase1 (fs : Bool → String → StatResult) (o : LocateOpts) (now : Nat)
    (hu : o.useCache = true) :
    ∀ (paths : List String) (σ : Caches) (n : Nat) (T : List String)
      (res : Option String) (σF : Caches) (nF : Nat),
      locatePathSyncFrom fs o now paths σ n = (res, σF, nF) →
      Prot T now σ →
      (T ++ paths.map (candidateKey o)).dedup.length ≤ 500 →
      (∀ k ∈ T, (answerOf σ k now).isSome = true) →
      ∃ T' : List String,
        T' ⊆ T ++ paths.map (candidateKey o)
        ∧ Prot T' now σF
        ∧ (∀ k ∈ T', (answerOf σF k now).isSome = true)
        ∧ (∀ k ∈ T, answerOf σF k now = answerOf σ k now)
        ∧ ScanSpec o now (fun q => (answerOf σF (candidateKey o q) now).getD false) σF paths
        ∧ res = List.find? (fun q => (answerOf σF (candidateKey o q) now).getD false) paths := by
  intro paths
  induction paths with
  | nil =>
    intro σ n T res σF nF hloop hP hTd hTsome
    have h0 : locatePathSyncFrom fs o now [] σ n = (none, σ, n) := rfl
    rw [h0] at hloop
    injection hloop with h1 h23
    injection h23 with h2 h3
    subst h1
    subst h2
    exact ⟨T, by simp, hP, hTsome, fun k hk => rfl, trivial, rfl⟩
  | cons p rest ih =>
    intro σ n T res σF nF hloop hP hTd hTsome
    rcases hrp : asyncReadPhase o (candidateKey o p) now σ with ⟨ob, σ1⟩
    have hProt1 : Prot (T ++ [candidateKey o p]) now σ1 := by
      have h := prot_readPhase o (candidateKey o p) now σ T hu hP
      rw [hrp] at h
      exact h
    have hans : ∀ k, answerOf σ1 k now = answerOf σ k now := by
      intro k
      have h := readPhase_answers o (candidateKey o p) now σ k
      rw [hrp] at h
      exact h
    have hsubKeys : (T ++ [candidateKey o p]) ++ rest.map (candidateKey o)
        ⊆ T ++ (p :: rest).map (candidateKey o) := by
      intro x hx
      rw [List.map_cons]
      rcases List.mem_append.mp hx with hx | hx
      · rcases List.mem_append.mp hx with hx | hx
        · exact List.mem_append_left _ hx
        · rcases List.mem_singleton.mp hx with rfl
          exact List.mem_append_right _ (List.mem_cons_self _ _)
      · exact List.mem_append_right _ (List.mem_cons_of_mem _ hx)
    have hT1d : (T ++ [candidateKey o p]).dedup.length ≤ 500 := by
      refine le_trans (dedup_length_mono _ _ ?_) hTd
      intro x hx
      rw [List.map_cons]
      rcases List.mem_append.mp hx with hx | hx
      · exact List.mem_append_left _ hx
      · rcases List.mem_singleton.mp hx with rfl
        exact List.mem_append_right _ (List.mem_cons_self _ _)
    have hTnextd : ((T ++ [candidateKey o p]) ++ rest.map (candidateKey o)).dedup.length ≤ 500 :=
      le_trans (dedup_length_mono _ _ hsubKeys) hTd
    have hsubT' : T ++ [candidateKey o p] ⊆ T ++ (p :: rest).map (candidateKey o) := by
      intro x hx
      exact hsubKeys (List.mem_append_left _ hx)
    cases ob with
    | some b =>
      have hstep := syncCheckOne_of_read_some fs o now σ σ1 p b hrp
      have hbk : answerOf σ1 (candidateKey o p) now = some b := by
        rw [hans]
        exact readPhase_some_char o (candidateKey o p) now σ σ1 b hu hrp
      cases b with
      | true =>
        have hloop2 : locatePathSyncFrom fs o now (p :: rest) σ n = (some p, σ1, n) := by
          simp [locatePathSyncFrom, hstep]
        rw [hloop2] at hloop
        injection hloop with h1 h23
        injection h23 with h2 h3
        subst h1
        subst h2
        refine ⟨T ++ [candidateKey o p], hsubT', hProt1, ?_, fun k hk => hans k, ⟨?_, ?_⟩, ?_⟩
        · intro k hk
          rcases List.mem_append.mp hk with hk | hk
          · rw [hans]
            exact hTsome k hk
          · rcases List.mem_singleton.mp hk with rfl
            rw [hbk]
            rfl
        · dsimp only
          rw [hbk]
          rfl
        · intro hgf
          dsimp only at hgf
          rw [hbk] at hgf
          simp at hgf
        · have hgp : (answerOf σ1 (candidateKey o p) now).getD false = true := by
            rw [hbk]
            rfl
          rw [List.find?_cons, hgp]
      | false =>
        have hloop2 : locatePathSyncFrom fs o now (p :: rest) σ n
            = locatePathSyncFrom fs o now rest σ1 (n + 0) := by
          simp [locatePathSyncFrom, hstep]
        have hrec := hloop2.symm.trans hloop
        have hsome1 : ∀ k ∈ T ++ [candidateKey o p], (answerOf σ1 k now).isSome = true := by
          intro k hk
          rcases List.mem_append.mp hk with hk | hk
          · rw [hans]
            exact hTsome k hk
          · rcases List.mem_singleton.mp hk with rfl
            rw [hbk]
            rfl
        obtain ⟨T', hT'sub, hT'P, hT'some, hT'pres, hT'scan, hT'find⟩ :=
          ih σ1 (n + 0) (T ++ [candidateKey o p]) res σF nF hrec hProt1 hTnextd hsome1
        have hFkey : answerOf σF (candidateKey o p) now = some false := by
          rw [hT'pres _ (List.mem_append_right _ (List.mem_singleton.mpr rfl))]
          exact hbk
        refine ⟨T', fun x hx => hsubKeys (hT'sub hx), hT'P, hT'some, ?_, ⟨?_, fun hgf => hT'scan⟩, ?_⟩
        · intro k hk
          rw [hT'pres k (List.mem_append_left _ hk)]
          exact hans k
        · dsimp only
          rw [hFkey]
          rfl
        · have hgp : (answerOf σF (candidateKey o p) now).getD false = false := by
            rw [hFkey]
            rfl
          rw [List.find?_cons, hgp]
          exact hT'find
    | none =>
      have hstep := syncCheckOne_of_read_none fs o now σ σ1 p hrp
      rw [hu] at hstep
      obtain ⟨hne, hposn⟩ := readPhase_none_char o (candidateKey o p) now σ σ1 hu hrp
      have hkeyN : answerOf σ1 (candidateKey o p) now = none :=
        readPhase_none_answer o (candidateKey o p) now σ σ1 hu hrp
      have hkT : candidateKey o p ∉ T := by
        intro hmem
        have h1 := hTsome _ hmem
        rw [← hans, hkeyN] at h1
        exact Bool.noConfusion h1
      obtain ⟨hP2, hpres2, hkey2, hres2, hfpres2, hftrue2⟩ :=
        prot_checkWrite (statFn fs o) o.type (resolveCandidate o.cwd p) (candidateKey o p)
          now σ1 (T ++ [candidateKey o p]) hProt1
          (List.mem_append_right _ (List.mem_singleton.mpr rfl)) hT1d hne
      have hpres2T : ∀ k ∈ T,
          answerOf (checkPathSync (statFn fs o) o.type true (resolveCandidate o.cwd p)
            (candidateKey o p) now σ1).2 k now = answerOf σ k now := by
        intro k hk
        rw [hpres2 k (fun hc => hkT (hc ▸ hk)) (List.mem_append_left _ hk)]
        exact hans k
      have hsome2 : ∀ k ∈ T ++ [candidateKey o p],
          (answerOf (checkPathSync (statFn fs o) o.type true (resolveCandidate o.cwd p)
            (candidateKey o p) now σ1).2 k now).isSome = true := by
        intro k hk
        rcases List.mem_append.mp hk with hk | hk
        · rw [hpres2T k hk]
          exact hTsome k hk
        · rcases List.mem_singleton.mp hk with rfl
          rw [hkey2]
          rfl
      cases hpm : probeMatches (statFn fs o) o.type (resolveCandidate o.cwd p) with
      | true =>
        have hloop2 : locatePathSyncFrom fs o now (p :: rest) σ n
            = (some p, (checkPathSync (statFn fs o) o.type true (resolveCandidate o.cwd p)
                (candidateKey o p) now σ1).2, n + 1) := by
          simp [locatePathSyncFrom, hstep, hres2, hpm]
        rw [hloop2] at hloop
        injection hloop with h1 h23
        injection h23 with h2 h3
        subst h1
        subst h2
        rw [hpm] at hkey2
        refine ⟨T ++ [candidateKey o p], hsubT', hP2, ?_, hpres2T, ⟨?_, ?_⟩, ?_⟩
        · intro k hk
          rcases List.mem_append.mp hk with hk | hk
          · rw [hpres2T k hk]
            exact hTsome k hk
          · rcases List.mem_singleton.mp hk with rfl
            rw [hkey2]
            rfl
        · dsimp only
          rw [hkey2]
          rfl
        · intro hgf
          dsimp only at hgf
          rw [hkey2] at hgf
          simp at hgf
        · have hgp : (answerOf (checkPathSync (statFn fs o) o.type true
              (resolveCandidate o.cwd p) (candidateKey o p) now σ1).2 (candidateKey o p) now).getD
              false = true := by
            rw [hkey2]
            rfl
          rw [List.find?_cons, hgp]
      | false =>
        have hloop2 : locatePathSyncFrom fs o now (p :: rest) σ n
            = locatePathSyncFrom fs o now rest
                (checkPathSync (statFn fs o) o.type true (resolveCandidate o.cwd p)
                  (candidateKey o p) now σ1).2 (n + 1) := by
          simp [locatePathSyncFrom, hstep, hres2, hpm]
        have hrec := hloop2.symm.trans hloop
        rw [hpm] at hkey2
        obtain ⟨T', hT'sub, hT'P, hT'some, hT'pres, hT'scan, hT'find⟩ :=
          ih _ (n + 1) (T ++ [candidateKey o p]) res σF nF hrec hP2 hTnextd hsome2
        have hFkey : answerOf σF (candidateKey o p) now = some false := by
          rw [hT'pres _ (List.mem_append_right _ (List.mem_singleton.mpr rfl))]
          exact hkey2
        refine ⟨T', fun x hx => hsubKeys (hT'sub hx), hT'P, hT'some, ?_, ⟨?_, fun hgf => hT'scan⟩, ?_⟩
        · intro k hk
          rw [hT'pres k (List.mem_append_left _ hk)]
          exact hpres2T k hk
        · dsimp only
          rw [hFkey]
          rfl
        · have hgp : (answerOf σF (candidateKey o p) now).getD false = false := by
            rw [hFkey]
            rfl
          rw [List.find?_cons, hgp]
          exact hT'find

theorem checkPathSync_of_probe_false (stat : String → StatResult) (type : String)
    (rp key : String) (now : Nat) (σ : Caches)
    (h : probeMatches stat type rp = false) :
    checkPathSync stat type true rp key now σ = (false, setNeg σ key now) := by
  unfold probeMatches at h
  unfold checkPathSync
  cases hst : stat rp with
  | notFound => rfl
  | ioError => rfl
  | found st =>
    rw [hst] at h
    dsimp only at h
    simp [h]

theorem checkPathSync_of_probe_true (stat : String → StatResult) (type : String)
    (rp key : String) (now : Nat) (σ : Caches)
    (h : probeMatches stat type rp = true) :
    checkPathSync stat type true rp key now σ = (true, setPos σ key true now) := by
  unfold probeMatches at h
  unfold checkPathSync
  cases hst : stat rp with
  | notFound => rw [hst] at h; exact Bool.noConfusion h
  | ioError => rw [hst] at h; exact Bool.noConfusion h
  | found st =>
    rw [hst] at h
    dsimp only at h
    simp [h]

theorem candMatches_key_congr (fs : Bool → String → StatResult) (o : LocateOpts) (p q : String)
    (h : candidateKey o p = candidateKey o q) : candMatches fs o p = candMatches fs o q := by
  unfold candidateKey at h
  have hrp := mkCacheKey_rp_inj (resolveCandidate o.cwd p) (resolveCandidate o.cwd q)
    o.type o.allowSymlinks h
  unfold candMatches
  rw [hrp]

theorem readPhase_freshNeg (o : LocateOpts) (key : String) (now : Nat) (σ : Caches) :
    ∀ x, freshVal (asyncReadPhase o key now σ).2.negativeCache x now
      = freshVal σ.negativeCache x now := by
  unfold asyncReadPhase
  by_cases hu : o.useCache
  · simp only [hu, if_true]
    rcases hng : σ.negativeCache.get key now with ⟨r, neg'⟩
    dsimp only
    have hneg : ∀ x, freshVal neg' x now = freshVal σ.negativeCache x now := by
      intro x
      have h := freshVal_after_get σ.negativeCache key now x
      rw [hng] at h
      exact h
    by_cases hrf : r = some false
    · rw [if_pos hrf]
      exact hneg
    · rw [if_neg hrf]
      rcases hpg : σ.statCache.get key now with ⟨c, pos'⟩
      dsimp only
      exact hneg
  · have hu' : o.useCache = false := by simpa using hu
    rw [hu']
    intro x
    rfl

/-- Any cache pair of capacity 500 with distinct keys satisfies the
protection invariant for the empty touched set. -/
theorem prot_empty (σ : Caches) (now : Nat)
    (hm1 : σ.statCache.maxSize = 500) (hm2 : σ.negativeCache.maxSize = 500)
    (hn1 : NodupKeys σ.statCache.entries) (hn2 : NodupKeys σ.negativeCache.entries) :
    Prot [] now σ := by
  refine ⟨hm1, hm2, hn1, hn2, σ.statCache.entries, [], σ.negativeCache.entries, [],
    by simp, by simp, ?_, ?_, ?_, ?_⟩
  · intro q hq
    exact absurd hq (List.not_mem_nil q)
  · intro q hq
    exact absurd hq (List.not_mem_nil q)
  · intro q hq hmem
    exact absurd hmem (List.not_mem_nil q.1)
  · intro q hq hmem
    exact absurd hmem (List.not_mem_nil q.1)

/-- The synchronous half of the amended idempotence claim: a repeat of the
whole scan at the same clock reading, from the caches the first scan left,
returns the same candidate and performs zero probes. -/
theorem sync_second_call (fs : Bool → String → StatResult) (o : LocateOpts)
    (paths : List String) (now : Nat) (σ0 : Caches)
    (hu : o.useCache = true)
    (hm1 : σ0.statCache.maxSize = 500) (hm2 : σ0.negativeCache.maxSize = 500)
    (hn1 : NodupKeys σ0.statCache.entries) (hn2 : NodupKeys σ0.negativeCache.entries)
    (hkd : (paths.map (candidateKey o)).dedup.length ≤ 500)
    (res1 : Option String) (σ1 : Caches) (n1 : Nat)
    (h1 : locatePathSyncFrom fs o now paths σ0 0 = (res1, σ1, n1)) :
    (locatePathSyncFrom fs o now paths σ1 0).1 = res1
    ∧ (locatePathSyncFrom fs o now paths σ1 0).2.2 = 0 := by
  obtain ⟨T', hsub, hP, hsome, hpres, hscan, hfind⟩ :=
    scan_phase1 fs o now hu paths σ0 0 [] res1 σ1 n1 h1
      (prot_empty σ0 now hm1 hm2 hn1 hn2) (by simpa using hkd) (by intro k hk; cases hk)
  obtain ⟨hres2, hprobes2, hans2⟩ :=
    replay_sync fs o now (fun q => (answerOf σ1 (candidateKey o q) now).getD false) hu
      paths σ1 0 hscan
  exact ⟨by rw [hres2, ← hfind], hprobes2⟩

/-- Phase-1 invariant of one asynchronous call from a 500-capacity
duplicate-free cache pair: some touched-key set `T` drawn from the
candidates' keys is protected, started candidates' keys are touched,
settled candidates' booleans are the cached answers of their keys, and a
suspended candidate's key has no answer yet or already the probe's answer,
with its negative entry not `false` whenever its probe will match. -/
def AsyncProt (fs : Bool → String → StatResult) (o : LocateOpts) (cands : List String)
    (now : Nat) (r : AsyncRun) : Prop :=
  ∃ T : List String,
    Prot T now r.caches
    ∧ T ⊆ cands.map (candidateKey o)
    ∧ (∀ (j : Nat) (p : String), cands[j]? = some p →
        (r.states[j]? = some CandState.pendingWrite
          ∨ ∃ b, r.states[j]? = some (CandState.done b)) →
        candidateKey o p ∈ T)
    ∧ (∀ (j : Nat) (p : String) (b : Bool), cands[j]? = some p →
        r.states[j]? = some (CandState.done b) →
        answerOf r.caches (candidateKey o p) now = some b)
    ∧ (∀ (j : Nat) (p : String), cands[j]? = some p →
        r.states[j]? = some CandState.pendingWrite →
        (answerOf r.caches (candidateKey o p) now = none
          ∨ answerOf r.caches (candidateKey o p) now = some (candMatches fs o p))
        ∧ (candMatches fs o p = true →
            freshVal r.caches.negativeCache (candidateKey o p) now ≠ some false))

theorem asyncProt_step (fs : Bool → String → StatResult) (o : LocateOpts)
    (cands : List String) (now : Nat) (r : AsyncRun) (i : Nat)
    (hu : o.useCache = true)
    (hkd : (cands.map (candidateKey o)).dedup.length ≤ 500)
    (h : AsyncProt fs o cands now r) :
    AsyncProt fs o cands now (asyncStep fs o cands r i now) := by
  obtain ⟨T, hP, hTsub, hstart, hdone, hpend⟩ := h
  cases hc : cands[i]? with
  | none =>
    rw [asyncStep_of_oob fs o cands r i now (Or.inl hc)]
    exact ⟨T, hP, hTsub, hstart, hdone, hpend⟩
  | some p =>
    cases hs : r.states[i]? with
    | none =>
      rw [asyncStep_of_oob fs o cands r i now (Or.inr hs)]
      exact ⟨T, hP, hTsub, hstart, hdone, hpend⟩
    | some s =>
      have hil : i < r.states.length := (List.getElem?_eq_some.mp hs).1
      cases s with
      | done b0 =>
        rw [asyncStep_of_done fs o cands r i now b0 hs]
        exact ⟨T, hP, hTsub, hstart, hdone, hpend⟩
      | idle =>
        rcases hrp : asyncReadPhase o (candidateKey o p) now r.caches with ⟨ob, σ'⟩
        have hProt1 : Prot (T ++ [candidateKey o p]) now σ' := by
          have hh := prot_readPhase o (candidateKey o p) now r.caches T hu hP
          rw [hrp] at hh
          exact hh
        have hans : ∀ k, answerOf σ' k now = answerOf r.caches k now := by
          intro k
          have hh := readPhase_answers o (candidateKey o p) now r.caches k
          rw [hrp] at hh
          exact hh
        have hfneg : ∀ x, freshVal σ'.negativeCache x now
            = freshVal r.caches.negativeCache x now := by
          intro x
          have hh := readPhase_freshNeg o (candidateKey o p) now r.caches x
          rw [hrp] at hh
          exact hh
        have hpmem : p ∈ cands := by
          have := List.getElem?_eq_some.mp hc
          obtain ⟨hlt, hget⟩ := this
          exact hget ▸ List.getElem_mem hlt
        have hTsub1 : T ++ [candidateKey o p] ⊆ cands.map (candidateKey o) := by
          intro x hx
          rcases List.mem_append.mp hx with hx | hx
          · exact hTsub hx
          · rcases List.mem_singleton.mp hx with rfl
            exact List.mem_map_of_mem _ hpmem
        cases ob with
        | some b =>
          rw [asyncStep_of_idle_some fs o cands r i now p b σ' hc hs hrp]
          have hbk : answerOf σ' (candidateKey o p) now = some b := by
            rw [hans]
            exact readPhase_some_char o (candidateKey o p) now r.caches σ' b hu hrp
          refine ⟨T ++ [candidateKey o p], hProt1, hTsub1, ?_, ?_, ?_⟩
          · intro j q hq hsp
            by_cases hij : j = i
            · subst hij
              rw [hq] at hc
              injection hc with hh
              subst hh
              exact List.mem_append_right _ (List.mem_singleton.mpr rfl)
            · rw [List.getElem?_set_ne (fun hcc => hij hcc.symm)] at hsp
              exact List.mem_append_left _ (hstart j q hq hsp)
          · intro j q b' hq hsb
            by_cases hij : j = i
            · subst hij
              rw [hq] at hc
              injection hc with hh
              subst hh
              rw [List.getElem?_set_self hil] at hsb
              injection hsb with hsb
              injection hsb with hsb
              rw [← hsb]
              exact hbk
            · rw [List.getElem?_set_ne (fun hcc => hij hcc.symm)] at hsb
              rw [hans]
              exact hdone j q b' hq hsb
          · intro j q hq hsp
            by_cases hij : j = i
            · subst hij
              rw [List.getElem?_set_self hil] at hsp
              injection hsp with hsp
              exact CandState.noConfusion hsp
            · rw [List.getElem?_set_ne (fun hcc => hij hcc.symm)] at hsp
              obtain ⟨ha, hf⟩ := hpend j q hq hsp
              refine ⟨?_, ?_⟩
              · rw [hans]
                exact ha
              · intro hcm
                rw [hfneg]
                exact hf hcm
        | none =>
          rw [asyncStep_of_idle_none fs o cands r i now p σ' hc hs hrp]
          have hkeyN : answerOf σ' (candidateKey o p) now = none :=
            readPhase_none_answer o (candidateKey o p) now r.caches σ' hu hrp
          obtain ⟨hneσ, hposσ⟩ := readPhase_none_char o (candidateKey o p) now r.caches σ' hu hrp
          refine ⟨T ++ [candidateKey o p], hProt1, hTsub1, ?_, ?_, ?_⟩
          · intro j q hq hsp
            by_cases hij : j = i
            · subst hij
              rw [hq] at hc
              injection hc with hh
              subst hh
              exact List.mem_append_right _ (List.mem_singleton.mpr rfl)
            · rw [List.getElem?_set_ne (fun hcc => hij hcc.symm)] at hsp
              exact List.mem_append_left _ (hstart j q hq hsp)
          · intro j q b' hq hsb
            by_cases hij : j = i
            · subst hij
              rw [List.getElem?_set_self hil] at hsb
              injection hsb with hsb
              exact CandState.noConfusion hsb
            · rw [List.getElem?_set_ne (fun hcc => hij hcc.symm)] at hsb
              rw [hans]
              exact hdone j q b' hq hsb
          · intro j q hq hsp
            by_cases hij : j = i
            · subst hij
              rw [hq] at hc
              injection hc with hh
              subst hh
              exact ⟨Or.inl hkeyN, fun _ => hneσ⟩
            · rw [List.getElem?_set_ne (fun hcc => hij hcc.symm)] at hsp
              obtain ⟨ha, hf⟩ := hpend j q hq hsp
              refine ⟨?_, ?_⟩
              · rw [hans]
                exact ha
              · intro hcm
                rw [hfneg]
                exact hf hcm
      | pendingWrite =>
        rw [asyncStep_of_pending fs o cands r i now p hc hs]
        have hwre : asyncWritePhase (statFn fs o) o (resolveCandidate o.cwd p)
              (candidateKey o p) now r.caches
            = checkPathSync (statFn fs o) o.type true (resolveCandidate o.cwd p)
              (candidateKey o p) now r.caches := by
          rw [asyncWritePhase_eq_checkPathSync, hu]
        have hkT : candidateKey o p ∈ T := hstart i p hc (Or.inl hs)
        have hTd : T.dedup.length ≤ 500 := le_trans (dedup_length_mono _ _ hTsub) hkd
        obtain ⟨haP, hfP⟩ := hpend i p hc hs
        cases hcm : candMatches fs o p with
        | false =>
          have hwr := checkPathSync_of_probe_false (statFn fs o) o.type
            (resolveCandidate o.cwd p) (candidateKey o p) now r.caches hcm
          rw [hwre, hwr]
          dsimp only
          obtain ⟨hPn, hfpres, hfself⟩ := prot_setNeg_T r.caches T (candidateKey o p) now hP hkT hTd
          have hansN : ∀ k', k' ≠ candidateKey o p → k' ∈ T →
              answerOf (setNeg r.caches (candidateKey o p) now) k' now
                = answerOf r.caches k' now :=
            fun k' h1 h2 => answerOf_congr _ _ _ _ (hfpres k' h1 h2) rfl
          have hansKey : answerOf (setNeg r.caches (candidateKey o p) now)
              (candidateKey o p) now = some false := by
            unfold answerOf
            rw [hfself]
          refine ⟨T, hPn, hTsub, ?_, ?_, ?_⟩
          · intro j q hq hsp
            by_cases hij : j = i
            · subst hij
              rw [hq] at hc
              injection hc with hh
              subst hh
              exact hkT
            · rw [List.getElem?_set_ne (fun hcc => hij hcc.symm)] at hsp
              exact hstart j q hq hsp
          · intro j q b' hq hsb
            by_cases hij : j = i
            · subst hij
              rw [hq] at hc
              injection hc with hh
              subst hh
              rw [List.getElem?_set_self hil] at hsb
              injection hsb with hsb
              injection hsb with hsb
              rw [← hsb]
              exact hansKey
            · rw [List.getElem?_set_ne (fun hcc => hij hcc.symm)] at hsb
              have hold := hdone j q b' hq hsb
              by_cases hqk : candidateKey o q = candidateKey o p
              · rw [hqk] at hold ⊢
                rcases haP with haP | haP
                · rw [hold] at haP
                  exact Option.noConfusion haP
                · rw [hold, hcm] at haP
                  injection haP with haP
                  rw [hansKey, ← haP]
              · rw [hansN (candidateKey o q) hqk (hstart j q hq (Or.inr ⟨b', hsb⟩))]
                exact hold
          · intro j q hq hsp
            by_cases hij : j = i
            · subst hij
              rw [List.getElem?_set_self hil] at hsp
              injection hsp with hsp
              exact CandState.noConfusion hsp
            · rw [List.getElem?_set_ne (fun hcc => hij hcc.symm)] at hsp
              obtain ⟨ha, hf⟩ := hpend j q hq hsp
              have hkqT : candidateKey o q ∈ T := hstart j q hq (Or.inl hsp)
              by_cases hqk : candidateKey o q = candidateKey o p
              · have hcmq : candMatches fs o q = false := by
                  rw [candMatches_key_congr fs o q p hqk, hcm]
                refine ⟨?_, ?_⟩
                · right
                  rw [hqk, hansKey, hcmq]
                · intro hcm'
                  rw [hcmq] at hcm'
                  exact Bool.noConfusion hcm'
              · refine ⟨?_, ?_⟩
                · rw [hansN (candidateKey o q) hqk hkqT]
                  exact ha
                · intro hcm'
                  have hfp := hf hcm'
                  show freshVal (setNeg r.caches (candidateKey o p) now).negativeCache
                    (candidateKey o q) now ≠ some false
                  rw [hfpres (candidateKey o q) hqk hkqT]
                  exact hfp
        | true =>
          have hwr := checkPathSync_of_probe_true (statFn fs o) o.type
            (resolveCandidate o.cwd p) (candidateKey o p) now r.caches hcm
          rw [hwre, hwr]
          dsimp only
          have hne : freshVal r.caches.negativeCache (candidateKey o p) now ≠ some false :=
            hfP hcm
          obtain ⟨hPp, hansP, hansKeyP⟩ :=
            prot_setPos_T r.caches T (candidateKey o p) true now hP hkT hTd
          have hansKey := hansKeyP hne
          refine ⟨T, hPp, hTsub, ?_, ?_, ?_⟩
          · intro j q hq hsp
            by_cases hij : j = i
            · subst hij
              rw [hq] at hc
              injection hc with hh
              subst hh
              exact hkT
            · rw [List.getElem?_set_ne (fun hcc => hij hcc.symm)] at hsp
              exact hstart j q hq hsp
          · intro j q b' hq hsb
            by_cases hij : j = i
            · subst hij
              rw [hq] at hc
              injection hc with hh
              subst hh
              rw [List.getElem?_set_self hil] at hsb
              injection hsb with hsb
              injection hsb with hsb
              rw [← hsb]
              exact hansKey
            · rw [List.getElem?_set_ne (fun hcc => hij hcc.symm)] at hsb
              have hold := hdone j q b' hq hsb
              by_cases hqk : candidateKey o q = candidateKey o p
              · rw [hqk] at hold ⊢
                rcases haP with haP | haP
                · rw [hold] at haP
                  exact Option.noConfusion haP
                · rw [hold, hcm] at haP
                  injection haP with haP
                  rw [hansKey, ← haP]
              · rw [hansP (candidateKey o q) hqk (hstart j q hq (Or.inr ⟨b', hsb⟩))]
                exact hold
          · intro j q hq hsp
            by_cases hij : j = i
            · subst hij
              rw [List.getElem?_set_self hil] at hsp
              injection hsp with hsp
              exact CandState.noConfusion hsp
            · rw [List.getElem?_set_ne (fun hcc => hij hcc.symm)] at hsp
              obtain ⟨ha, hf⟩ := hpend j q hq hsp
              have hkqT : candidateKey o q ∈ T := hstart j q hq (Or.inl hsp)
              by_cases hqk : candidateKey o q = candidateKey o p
              · have hcmq : candMatches fs o q = true := by
                  rw [candMatches_key_congr fs o q p hqk, hcm]
                refine ⟨?_, ?_⟩
                · right
                  rw [hqk, hansKey, hcmq]
                · intro hcm'
                  show freshVal (setPos r.caches (candidateKey o p) true now).negativeCache
                    (candidateKey o q) now ≠ some false
                  rw [hqk]
                  exact hne
              · refine ⟨?_, ?_⟩
                · rw [hansP (candidateKey o q) hqk hkqT]
                  exact ha
                · intro hcm'
                  exact hf hcm'

theorem asyncProt_runSched (fs : Bool → String → StatResult) (o : LocateOpts)
    (cands : List String) (now : Nat)
    (hu : o.useCache = true)
    (hkd : (cands.map (candidateKey o)).dedup.length ≤ 500) :
    ∀ (sch : List (Nat × Nat)) (r : AsyncRun), (∀ s ∈ sch, s.2 = now) →
    AsyncProt fs o cands now r →
    AsyncProt fs o cands now (runSched fs o cands sch r) := by
  intro sch
  induction sch with
  | nil => intro r _ h; exact h
  | cons st sch ih =>
    intro r hsch h
    have hst : st.2 = now := hsch st (List.mem_cons_self _ _)
    show AsyncProt fs o cands now (runSched fs o cands sch (asyncStep fs o cands r st.1 st.2))
    apply ih _ (fun s hsm => hsch s (List.mem_cons_of_mem _ hsm))
    rw [hst]
    exact asyncProt_step fs o cands now r st.1 hu hkd h

theorem asyncProt_init (fs : Bool → String → StatResult) (o : LocateOpts)
    (cands : List String) (now : Nat) (σ0 : Caches)
    (hm1 : σ0.statCache.maxSize = 500) (hm2 : σ0.negativeCache.maxSize = 500)
    (hn1 : NodupKeys σ0.statCache.entries) (hn2 : NodupKeys σ0.negativeCache.entries) :
    AsyncProt fs o cands now (initAsyncRun σ0 cands.length) := by
  refine ⟨[], prot_empty σ0 now hm1 hm2 hn1 hn2, ?_, ?_, ?_, ?_⟩
  · intro x hx
    cases hx
  · intro j q hq hsp
    exfalso
    rcases hsp with hsp | ⟨b, hsp⟩
    · unfold initAsyncRun at hsp
      rw [List.getElem?_replicate] at hsp
      split at hsp <;> cases hsp
    · unfold initAsyncRun at hsp
      rw [List.getElem?_replicate] at hsp
      split at hsp <;> cases hsp
  · intro j q b hq hsb
    exfalso
    unfold initAsyncRun at hsb
    rw [List.getElem?_replicate] at hsb
    split at hsb <;> cases hsb
  · intro j q hq hsp
    exfalso
    unfold initAsyncRun at hsp
    rw [List.getElem?_replicate] at hsp
    split at hsp <;> cases hsp

theorem completingSched_times (n now : Nat) : ∀ s ∈ completingSched n now, s.2 = now := by
  intro s hsm
  unfold completingSched at hsm
  obtain ⟨i, hi, rfl⟩ := List.mem_map.mp hsm
  rfl

/-- After one asynchronous call under a fixed clock reading, every candidate
has settled exactly at the answer its key holds in the final caches. -/
theorem locatePathRun_answers (fs : Bool → String → StatResult) (o : LocateOpts)
    (cands : List String) (sched : List (Nat × Nat)) (now : Nat) (σ0 : Caches)
    (hu : o.useCache = true)
    (hm1 : σ0.statCache.maxSize = 500) (hm2 : σ0.negativeCache.maxSize = 500)
    (hn1 : NodupKeys σ0.statCache.entries) (hn2 : NodupKeys σ0.negativeCache.entries)
    (hkd : (cands.map (candidateKey o)).dedup.length ≤ 500)
    (hsched : ∀ s ∈ sched, s.2 = now) :
    ∀ (i : Nat) (p : String), cands[i]? = some p →
      (locatePathRun fs o cands sched now σ0).states[i]?
        = some (CandState.done
            ((answerOf (locatePathRun fs o cands sched now σ0).caches
              (candidateKey o p) now).getD false)) := by
  have hAP : AsyncProt fs o cands now (locatePathRun fs o cands sched now σ0) := by
    unfold locatePathRun
    apply asyncProt_runSched fs o cands now hu hkd
    · intro s hsm
      rcases List.mem_append.mp hsm with hsm | hsm
      · exact hsched s hsm
      · exact completingSched_times cands.length now s hsm
    · exact asyncProt_init fs o cands now σ0 hm1 hm2 hn1 hn2
  intro i p hp
  have hi : i < cands.length := (List.getElem?_eq_some.mp hp).1
  obtain ⟨b, hb⟩ := locatePathRun_all_done fs o cands sched now σ0 i hi
  obtain ⟨T, _, _, _, hdone, _⟩ := hAP
  have hval := hdone i p b hp hb
  rw [hb, hval]
  rfl

theorem replay_async_step (fs : Bool → String → StatResult) (o : LocateOpts)
    (cands : List String) (now : Nat) (σ1 : Caches) (g : String → Bool)
    (hu : o.useCache = true)
    (hg : ∀ p ∈ cands, answerOf σ1 (candidateKey o p) now = some (g p))
    (r : AsyncRun) (i : Nat)
    (hc : ∀ k, answerOf r.caches k now = answerOf σ1 k now)
    (hp : r.probes = 0)
    (hs : ∀ (j : Nat), r.states[j]? = none ∨ r.states[j]? = some CandState.idle
        ∨ ∃ p, cands[j]? = some p ∧ r.states[j]? = some (CandState.done (g p))) :
    (∀ k, answerOf (asyncStep fs o cands r i now).caches k now = answerOf σ1 k now)
    ∧ (asyncStep fs o cands r i now).probes = 0
    ∧ (∀ (j : Nat), (asyncStep fs o cands r i now).states[j]? = none
        ∨ (asyncStep fs o cands r i now).states[j]? = some CandState.idle
        ∨ ∃ p, cands[j]? = some p
            ∧ (asyncStep fs o cands r i now).states[j]? = some (CandState.done (g p))) := by
  cases hcc : cands[i]? with
  | none =>
    rw [asyncStep_of_oob _ _ _ _ _ _ (Or.inl hcc)]
    exact ⟨hc, hp, hs⟩
  | some p =>
    cases hss : r.states[i]? with
    | none =>
      rw [asyncStep_of_oob _ _ _ _ _ _ (Or.inr hss)]
      exact ⟨hc, hp, hs⟩
    | some s =>
      have hil : i < r.states.length := (List.getElem?_eq_some.mp hss).1
      cases s with
      | done b0 =>
        rw [asyncStep_of_done _ _ _ _ _ _ b0 hss]
        exact ⟨hc, hp, hs⟩
      | pendingWrite =>
        exfalso
        rcases hs i with hj | hj | ⟨q, hq, hj⟩
        · rw [hss] at hj
          cases hj
        · rw [hss] at hj
          injection hj with hj
          exact CandState.noConfusion hj
        · rw [hss] at hj
          injection hj with hj
          exact CandState.noConfusion hj
      | idle =>
        have hmem : p ∈ cands := by
          obtain ⟨hlt, hget⟩ := List.getElem?_eq_some.mp hcc
          exact hget ▸ List.getElem_mem hlt
        have hcached : answerOf r.caches (candidateKey o p) now = some (g p) := by
          rw [hc]
          exact hg p hmem
        obtain ⟨σ', hread, hpres⟩ :=
          readPhase_hit o (candidateKey o p) now r.caches (g p) hu hcached
        rw [asyncStep_of_idle_some fs o cands r i now p (g p) σ' hcc hss hread]
        refine ⟨?_, hp, ?_⟩
        · intro k
          rw [hpres k]
          exact hc k
        · intro j
          by_cases hij : j = i
          · subst hij
            right
            right
            exact ⟨p, hcc, by rw [List.getElem?_set_self hil]⟩
          · rw [List.getElem?_set_ne (fun hcc2 => hij hcc2.symm)]
            exact hs j

theorem replay_async_run (fs : Bool → String → StatResult) (o : LocateOpts)
    (cands : List String) (now : Nat) (σ1 : Caches) (g : String → Bool)
    (hu : o.useCache = true)
    (hg : ∀ p ∈ cands, answerOf σ1 (candidateKey o p) now = some (g p)) :
    ∀ (sch : List (Nat × Nat)) (r : AsyncRun), (∀ s ∈ sch, s.2 = now) →
    (∀ k, answerOf r.caches k now = answerOf σ1 k now) →
    r.probes = 0 →
    (∀ (j : Nat), r.states[j]? = none ∨ r.states[j]? = some CandState.idle
        ∨ ∃ p, cands[j]? = some p ∧ r.states[j]? = some (CandState.done (g p))) →
    (∀ k, answerOf (runSched fs o cands sch r).caches k now = answerOf σ1 k now)
    ∧ (runSched fs o cands sch r).probes = 0
    ∧ (∀ (j : Nat), (runSched fs o cands sch r).states[j]? = none
        ∨ (runSched fs o cands sch r).states[j]? = some CandState.idle
        ∨ ∃ p, cands[j]? = some p
            ∧ (runSched fs o cands sch r).states[j]? = some (CandState.done (g p))) := by
  intro sch
  induction sch with
  | nil => intro r _ hc hp hs; exact ⟨hc, hp, hs⟩
  | cons st sch ih =>
    intro r hsch hc hp hs
    have hst : st.2 = now := hsch st (List.mem_cons_self _ _)
    have hst2 : st = (st.1, now) := by rw [← hst]
    have hstep := replay_async_step fs o cands now σ1 g hu hg r st.1 hc hp hs
    rw [hst2]
    exact ih (asyncStep fs o cands r st.1 now)
      (fun s hsm => hsch s (List.mem_cons_of_mem _ hsm)) hstep.1 hstep.2.1 hstep.2.2

/-- The asynchronous half of the amended idempotence claim: a second run
of the whole protocol at the same clock reading, under any schedule, from
the caches the first run left, selects the same candidate and performs
zero probes. -/
theorem async_second_call (fs : Bool → String → StatResult) (o : LocateOpts)
    (cands : List String) (sched1 sched2 : List (Nat × Nat)) (now : Nat) (σ0 : Caches)
    (hu : o.useCache = true)
    (hm1 : σ0.statCache.maxSize = 500) (hm2 : σ0.negativeCache.maxSize = 500)
    (hn1 : NodupKeys σ0.statCache.entries) (hn2 : NodupKeys σ0.negativeCache.entries)
    (hkd : (cands.map (candidateKey o)).dedup.length ≤ 500)
    (hs1 : ∀ s ∈ sched1, s.2 = now) (hs2 : ∀ s ∈ sched2, s.2 = now) :
    asyncResult cands (locatePathRun fs o cands sched2 now
        (locatePathRun fs o cands sched1 now σ0).caches).states
      = asyncResult cands (locatePathRun fs o cands sched1 now σ0).states
    ∧ (locatePathRun fs o cands sched2 now
        (locatePathRun fs o cands sched1 now σ0).caches).probes = 0 := by
  set r1 := locatePathRun fs o cands sched1 now σ0 with hr1
  have hlen1 : r1.states.length = cands.length := by
    rw [hr1]
    unfold locatePathRun
    rw [runSched_states_length]
    simp [initAsyncRun]
  have hres1 : asyncResult cands r1.states
      = List.find? (fun p => (answerOf r1.caches (candidateKey o p) now).getD false) cands := by
    apply asyncResult_eq_find
    · exact hlen1
    · intro i p hp
      exact locatePathRun_answers fs o cands sched1 now σ0 hu hm1 hm2 hn1 hn2 hkd hs1 i p hp
  have hAP : AsyncProt fs o cands now r1 := by
    rw [hr1]
    unfold locatePathRun
    apply asyncProt_runSched fs o cands now hu hkd
    · intro s hsm
      rcases List.mem_append.mp hsm with hsm | hsm
      · exact hs1 s hsm
      · exact completingSched_times cands.length now s hsm
    · exact asyncProt_init fs o cands now σ0 hm1 hm2 hn1 hn2
  obtain ⟨T, hPr, hTs, hstart, hdone, hpendC⟩ := hAP
  have hg : ∀ p ∈ cands, answerOf r1.caches (candidateKey o p) now
      = some ((answerOf r1.caches (candidateKey o p) now).getD false) := by
    intro p hpm
    obtain ⟨i, hip⟩ := List.getElem?_of_mem hpm
    have hi : i < cands.length := (List.getElem?_eq_some.mp hip).1
    obtain ⟨b, hb⟩ := locatePathRun_all_done fs o cands sched1 now σ0 i hi
    have hb1 : r1.states[i]? = some (CandState.done b) := hb
    have hv := hdone i p b hip hb1
    rw [hv]
    rfl
  have hrep := replay_async_run fs o cands now r1.caches
      (fun p => (answerOf r1.caches (candidateKey o p) now).getD false) hu hg
      (sched2 ++ completingSched cands.length now)
      (initAsyncRun r1.caches cands.length)
      (by intro s hsm
          rcases List.mem_append.mp hsm with hsm | hsm
          · exact hs2 s hsm
          · exact completingSched_times cands.length now s hsm)
      (fun k => rfl) rfl
      (by intro j
          unfold initAsyncRun
          rw [List.getElem?_replicate]
          split
          · exact Or.inr (Or.inl rfl)
          · exact Or.inl rfl)
  have hlen2 : (locatePathRun fs o cands sched2 now r1.caches).states.length = cands.length := by
    unfold locatePathRun
    rw [runSched_states_length]
    simp [initAsyncRun]
  have hres2 : asyncResult cands (locatePathRun fs o cands sched2 now r1.caches).states
      = List.find? (fun p => (answerOf r1.caches (candidateKey o p) now).getD false) cands := by
    apply asyncResult_eq_find
    · exact hlen2
    · intro i p hp
      have hi : i < cands.length := (List.getElem?_eq_some.mp hp).1
      obtain ⟨b, hb⟩ := locatePathRun_all_done fs o cands sched2 now r1.caches i hi
      have hb2 : (runSched fs o cands (sched2 ++ completingSched cands.length now)
          (initAsyncRun r1.caches cands.length)).states[i]? = some (CandState.done b) := hb
      rcases hrep.2.2 i with hj | hj | ⟨q, hq, hj⟩
      · rw [hb2] at hj
        cases hj
      · rw [hb2] at hj
        injection hj with hj
        exact CandState.noConfusion hj
      · have hj2 : (locatePathRun fs o cands sched2 now r1.caches).states[i]?
            = some (CandState.done
                ((answerOf r1.caches (candidateKey o q) now).getD false)) := hj
        rw [hp] at hq
        injection hq with hq
        subst hq
        exact hj2
  refine ⟨?_, ?_⟩
  · rw [hres2, hres1]
  · exact hrep.2.1

/-- **C8 (counterexample to the claim as stated).**  Two synchronous calls
in immediate succession — one millisecond apart, well within the 5000 ms
TTL window — with `useCache` true and an unchanged filesystem: the first
call is answered entirely from a still-fresh negative entry and performs
zero probes, yet the second call performs one filesystem probe, because
the entry it relies on — aged exactly `ttl` at the first call — has
expired one millisecond later. -/
theorem cache_idempotence_counterexample :
    (locatePathSyncFrom (fun _ _ => StatResult.notFound)
        (LocateOpts.mk "/w" "file" true true) 5000 ["a"]
        (Caches.mk (LRUCache.mk 500 5000 [])
          (LRUCache.mk 500 5000 [(mkCacheKey "/w/a" "file" true, Entry.mk false 0)])) 0).1 = none
    ∧ (locatePathSyncFrom (fun _ _ => StatResult.notFound)
        (LocateOpts.mk "/w" "file" true true) 5000 ["a"]
        (Caches.mk (LRUCache.mk 500 5000 [])
          (LRUCache.mk 500 5000 [(mkCacheKey "/w/a" "file" true, Entry.mk false 0)])) 0).2.2 = 0
    ∧ (locatePathSyncFrom (fun _ _ => StatResult.notFound)
        (LocateOpts.mk "/w" "file" true true) 5001 ["a"]
        ((locatePathSyncFrom (fun _ _ => StatResult.notFound)
          (LocateOpts.mk "/w" "file" true true) 5000 ["a"]
          (Caches.mk (LRUCache.mk 500 5000 [])
            (LRUCache.mk 500 5000 [(mkCacheKey "/w/a" "file" true, Entry.mk false 0)])) 0).2.1) 0).1
        = none
    ∧ (locatePathSyncFrom (fun _ _ => StatResult.notFound)
        (LocateOpts.mk "/w" "file" true true) 5001 ["a"]
        ((locatePathSyncFrom (fun _ _ => StatResult.notFound)
          (LocateOpts.mk "/w" "file" true true) 5000 ["a"]
          (Caches.mk (LRUCache.mk 500 5000 [])
            (LRUCache.mk 500 5000 [(mkCacheKey "/w/a" "file" true, Entry.mk false 0)])) 0).2.1) 0).2.2
        = 1
    ∧ (∀ (now : Nat) (σ : Caches),
        locatePathSync (fun _ _ => StatResult.notFound)
          (LocateOpts.mk "/w" "file" true true) now ["a"] σ
          = Except.ok (locatePathSyncFrom (fun _ _ => StatResult.notFound)
              (LocateOpts.mk "/w" "file" true true) now ["a"] σ 0))
    ∧ 5001 - 5000 ≤ 5000 := by
  refine ⟨?_, ?_, ?_, ?_, ?_, ?_⟩
  · decide
  · decide
  · decide
  · decide
  · intro now σ
    unfold locatePathSync
    rw [if_pos (by decide : validType "file" = true)]
  · decide

/-- **C8 (amended).**  For every candidate list and unchanged filesystem,
calling either locator twice at the same clock reading with `useCache`
true — from 500-capacity caches with pairwise-distinct keys, the candidate
list touching at most 500 distinct cache keys — returns the same result
both times, and the second call performs zero filesystem probes: every
candidate examined by the second call is answered from the positive or
negative cache.  For the asynchronous locator this holds under every pair
of schedules, hence under every concurrency bound. -/
theorem cache_idempotent_second_call (fs : Bool → String → StatResult) (o : LocateOpts)
    (paths : List String) (sched1 sched2 : List (Nat × Nat)) (now : Nat) (σ0 : Caches)
    (hu : o.useCache = true)
    (hm1 : σ0.statCache.maxSize = 500) (hm2 : σ0.negativeCache.maxSize = 500)
    (hn1 : NodupKeys σ0.statCache.entries) (hn2 : NodupKeys σ0.negativeCache.entries)
    (hkd : (paths.map (candidateKey o)).dedup.length ≤ 500)
    (hs1 : ∀ s ∈ sched1, s.2 = now) (hs2 : ∀ s ∈ sched2, s.2 = now) :
    (∀ (res1 : Option String) (σ1 : Caches) (n1 : Nat),
        locatePathSync fs o now paths σ0 = Except.ok (res1, σ1, n1) →
        ∃ σ2, locatePathSync fs o now paths σ1 = Except.ok (res1, σ2, 0))
    ∧ (∀ (res1 : Option String) (σ1 : Caches) (n1 : Nat),
        locatePath fs o paths sched1 now σ0 = Except.ok (res1, σ1, n1) →
        ∃ σ2, locatePath fs o paths sched2 now σ1 = Except.ok (res1, σ2, 0)) := by
  constructor
  · intro res1 σ1 n1 h1
    unfold locatePathSync at h1 ⊢
    by_cases hv : validType o.type
    · rw [if_pos hv] at h1 ⊢
      injection h1 with h1
      obtain ⟨hres, hzero⟩ :=
        sync_second_call fs o paths now σ0 hu hm1 hm2 hn1 hn2 hkd res1 σ1 n1 h1
      refine ⟨(locatePathSyncFrom fs o now paths σ1 0).2.1, ?_⟩
      have heta : locatePathSyncFrom fs o now paths σ1 0
          = ((locatePathSyncFrom fs o now paths σ1 0).1,
             (locatePathSyncFrom fs o now paths σ1 0).2.1,
             (locatePathSyncFrom fs o now paths σ1 0).2.2) := rfl
      rw [heta, hres, hzero]
    · rw [if_neg hv] at h1
      cases h1
  · intro res1 σ1 n1 h1
    unfold locatePath at h1 ⊢
    by_cases hv : validType o.type
    · rw [if_pos hv] at h1 ⊢
      dsimp only at h1 ⊢
      injection h1 with h1
      injection h1 with ha h23
      injection h23 with hb hcp
      subst ha
      subst hb
      obtain ⟨hres, hzero⟩ :=
        async_second_call fs o paths sched1 sched2 now σ0 hu hm1 hm2 hn1 hn2 hkd hs1 hs2
      exact ⟨(locatePathRun fs o paths sched2 now
        (locatePathRun fs o paths sched1 now σ0).caches).caches, by rw [hres, hzero]⟩
    · rw [if_neg hv] at h1
      cases h1

/-- Witness for `cache_idempotent_second_call`: one nonexistent candidate,
empty 500-capacity caches, empty extra schedules, clock reading 7. -/
theorem cache_idempotent_second_call_witness :
    (∀ (res1 : Option String) (σ1 : Caches) (n1 : Nat),
        locatePathSync (fun _ _ => StatResult.notFound)
          (LocateOpts.mk "/w" "file" true true) 7 ["a"]
          (Caches.mk (LRUCache.mk 500 5000 []) (LRUCache.mk 500 5000 []))
          = Except.ok (res1, σ1, n1) →
        ∃ σ2, locatePathSync (fun _ _ => StatResult.notFound)
          (LocateOpts.mk "/w" "file" true true) 7 ["a"] σ1 = Except.ok (res1, σ2, 0))
    ∧ (∀ (res1 : Option String) (σ1 : Caches) (n1 : Nat),
        locatePath (fun _ _ => StatResult.notFound)
          (LocateOpts.mk "/w" "file" true true) ["a"] [] 7
          (Caches.mk (LRUCache.mk 500 5000 []) (LRUCache.mk 500 5000 []))
          = Except.ok (res1, σ1, n1) →
        ∃ σ2, locatePath (fun _ _ => StatResult.notFound)
          (LocateOpts.mk "/w" "file" true true) ["a"] [] 7 σ1 = Except.ok (res1, σ2, 0)) :=
  cache_idempotent_second_call (fun _ _ => StatResult.notFound)
    (LocateOpts.mk "/w" "file" true true) ["a"] [] [] 7
    (Caches.mk (LRUCache.mk 500 5000 []) (LRUCache.mk 500 5000 []))
    rfl rfl rfl (by unfold NodupKeys; decide) (by unfold NodupKeys; decide)
    (by decide) (by intro s hs; cases hs) (by intro s hs; cases hs)
